import Mathlib

/-!
# CSV ingestion of the post-processing dashboard (`src/dashboard_js.js`)

A shallow embedding of `DataManager.parseLine` and `DataManager.parseCSV`
together with the facts established about them.

JavaScript strings are modelled as lists of characters (`JSString`), one
`Char` standing for one character of the text.  Every character the code
singles out (quote, delimiters, white space, digits, ASCII letters) lies in
the Basic Multilingual Plane, where a character is one UTF-16 code unit.
-/

namespace Dashboard

/-- A JavaScript string. -/
abbrev JSString := List Char

/-- White space as understood by `String.prototype.trim` and by the regular
expression class `\s`: the ECMAScript `WhiteSpace` and `LineTerminator`
code points. -/
def isJSWhiteSpace (c : Char) : Bool :=
  c.toNat = 0x09 || c.toNat = 0x0A || c.toNat = 0x0B || c.toNat = 0x0C ||
  c.toNat = 0x0D || c.toNat = 0x20 || c.toNat = 0xA0 || c.toNat = 0x1680 ||
  (0x2000 ≤ c.toNat && c.toNat ≤ 0x200A) ||
  c.toNat = 0x2028 || c.toNat = 0x2029 || c.toNat = 0x202F ||
  c.toNat = 0x205F || c.toNat = 0x3000 || c.toNat = 0xFEFF

/-- The method `String.prototype.trimStart`. -/
def trimStart (s : JSString) : JSString :=
  s.dropWhile isJSWhiteSpace

/-- The method `String.prototype.trimEnd`. -/
def trimEnd (s : JSString) : JSString :=
  (s.reverse.dropWhile isJSWhiteSpace).reverse

/-- The method `String.prototype.trim`. -/
def trim (s : JSString) : JSString :=
  trimEnd (trimStart s)

/-- The double quote character `"`. -/
def dquote : Char := Char.ofNat 0x22

/-- The body of the `for` loop of `DataManager.parseLine`
(`src/dashboard_js.js`, lines 619-636), run on the characters of the line
that are still to be read.  The remaining arguments are the loop state:
`current`, `inQuotes` and `result`.  When the input is exhausted the last
field is pushed (line 639). -/
def parseLineLoop (delimiter : JSString) :
    JSString → JSString → Bool → List JSString → List JSString
  | [], current, _, result => result ++ [trim current]
  | c :: rest, current, inQuotes, result =>
    if c = dquote then
      if inQuotes then
        match rest with
        | d :: rest2 =>
          if d = dquote then
            -- escaped quote: one literal quote, both characters consumed
            parseLineLoop delimiter rest2 (current ++ [dquote]) true result
          else
            parseLineLoop delimiter (d :: rest2) current false result
        | [] => parseLineLoop delimiter [] current false result
      else
        parseLineLoop delimiter rest current true result
    else if [c] = delimiter ∧ inQuotes = false then
      parseLineLoop delimiter rest [] inQuotes (result ++ [trim current])
    else
      parseLineLoop delimiter rest (current ++ [c]) inQuotes result

/-- The method `DataManager.parseLine(line, delimiter)` (`src/dashboard_js.js`,
lines 615-641). -/
def parseLine (line delimiter : JSString) : List JSString :=
  parseLineLoop delimiter line [] false []

/-- The method `Array.prototype.join(sep)` on an array of strings. -/
def join (sep : JSString) : List JSString → JSString
  | [] => []
  | [x] => x
  | x :: y :: rest => x ++ sep ++ join sep (y :: rest)

/-! ## Delimiter detection (`parseCSV`, lines 384-413) -/

/-- The line feed character. -/
def lineFeed : Char := Char.ofNat 0x0A

/-- The carriage return character. -/
def carriageReturn : Char := Char.ofNat 0x0D

/-- The scan behind `csvText.split(/\r?\n/)`: `cur` is the piece under
construction.  A line feed, with the carriage return right before it when
there is one, ends the piece. -/
def splitLinesLoop : JSString → JSString → List JSString
  | [], cur => [cur]
  | c :: rest, cur =>
    if c = lineFeed then cur :: splitLinesLoop rest []
    else if c = carriageReturn then
      match rest with
      | d :: rest2 =>
        if d = lineFeed then cur :: splitLinesLoop rest2 []
        else splitLinesLoop (d :: rest2) (cur ++ [c])
      | [] => splitLinesLoop [] (cur ++ [c])
    else splitLinesLoop rest (cur ++ [c])

/-- The pieces `csvText.split(/\r?\n/)`. -/
def splitLines (csvText : JSString) : List JSString :=
  splitLinesLoop csvText []

/-- The array `csvText.split(/\r?\n/).filter(line => line.trim())` (line 386): the
non-blank lines. -/
def nonBlankLines (csvText : JSString) : List JSString :=
  (splitLines csvText).filter (fun line => trim line != [])

/-- The delimiter `';'`. -/
def semicolon : JSString := [';']

/-- The delimiter `'\t'`. -/
def tab : JSString := [Char.ofNat 0x09]

/-- The delimiter `','`. -/
def comma : JSString := [',']

/-- The candidate delimiters, in the order of line 387. -/
def candidates : List JSString := [semicolon, tab, comma]

/-- The `for` loop of `scoreFor` (lines 394-397), run on the lines from index
`i` onward (`i < lines.length` holds when such a line exists); `ok` is the
counter. -/
def scoreForLoop (d : JSString) (hdrLen sampleN : Nat) :
    List JSString → Nat → Nat → Nat
  | [], _, ok => ok
  | line :: rest, i, ok =>
    if i ≤ sampleN then
      scoreForLoop d hdrLen sampleN rest (i + 1)
        (if (parseLine line d).length = hdrLen then ok + 1 else ok)
    else ok

/-- The function `scoreFor(d)` (lines 388-400) for the non-blank lines `lines`. -/
def scoreFor (lines : List JSString) (d : JSString) : Nat :=
  let hdr := parseLine (lines.headD []) d
  if hdr.length ≤ 1 then 0
  else
    let sampleN := min 50 (max 5 (lines.length - 1))
    scoreForLoop d hdr.length sampleN (lines.drop 1) 1 0

/-- The record `best` of lines 401-405. -/
structure Best where
  d : JSString
  score : Int
deriving DecidableEq, Repr

/-- One turn of the loop of lines 402-405. -/
def bestStep (lines : List JSString) (best : Best) (d : JSString) : Best :=
  let s : Int := scoreFor lines d
  if s > best.score then { d := d, score := s } else best

/-- The value of `best` after the loop over the candidates (lines 401-405). -/
def pickBest (lines : List JSString) : Best :=
  candidates.foldl (bestStep lines) { d := comma, score := -1 }

/-- The count `(l.match(/x/g) || []).length`: the occurrences of one character. -/
def countChar (c : Char) (l : JSString) : Nat :=
  l.count c

/-- The fallback of lines 409-412: commas against semicolons in the first
five lines. -/
def fallbackDelimiter (lines : List JSString) : JSString :=
  let sampleLines := lines.take 5
  let commaCount := sampleLines.foldl (fun n l => n + countChar ',' l) 0
  let semicolonCount := sampleLines.foldl (fun n l => n + countChar ';' l) 0
  if semicolonCount > commaCount then semicolon else comma

/-- The delimiter `parseCSV` settles on (lines 401-413). -/
def detectDelimiter (lines : List JSString) : JSString :=
  let best := pickBest lines
  if best.score ≤ 0 then fallbackDelimiter lines else best.d

/-! ## Values and numeric coercion (`parseCSV`, lines 562-587) -/

/-- A JavaScript number.  `finite q` stands for the double nearest to the
rational `q` (an overflow giving an infinity, and `-0` being identified with
`0`): the conversion of a decimal literal is modelled by its exact value. -/
inductive JSNumber where
  | nan
  | posInf
  | negInf
  | finite (q : ℚ)
deriving DecidableEq

/-- The values a cell of a parsed row can hold. -/
inductive JSValue where
  | str (s : JSString)
  | num (n : JSNumber)
deriving DecidableEq

/-- The regular expression class `\d`. -/
def isDigit (c : Char) : Bool :=
  0x30 ≤ c.toNat && c.toNat ≤ 0x39

/-- The natural number written by a run of decimal digits. -/
def digitsValue (ds : JSString) : Nat :=
  ds.foldl (fun acc c => 10 * acc + (c.toNat - 0x30)) 0

/-- The number `m * 10 ^ e`. -/
def scaleByPowerOfTen (m : ℚ) (e : Int) : ℚ :=
  if 0 ≤ e then m * (10 : ℚ) ^ e.toNat else m / (10 : ℚ) ^ (-e).toNat

/-- The exponent part of a decimal literal at the head of `s` (`e` or `E`,
an optional sign, digits), or `0` when there is none. -/
def exponentPart (s : JSString) : Int :=
  match s with
  | c :: r =>
    if c = 'e' ∨ c = 'E' then
      match r with
      | '-' :: r2 =>
        if r2.takeWhile isDigit = [] then 0 else -(digitsValue (r2.takeWhile isDigit) : Int)
      | '+' :: r2 => (digitsValue (r2.takeWhile isDigit) : Int)
      | _ => (digitsValue (r.takeWhile isDigit) : Int)
    else 0
  | [] => 0

/-- The value of the longest prefix of `u` that is an unsigned decimal
literal (`StrUnsignedDecimalLiteral`), or `nan` when no prefix is one. -/
def parseUnsigned (neg : Bool) (u : JSString) : JSNumber :=
  if "Infinity".toList.isPrefixOf u then (if neg then .negInf else .posInf)
  else
    let intPart := u.takeWhile isDigit
    let r1 := u.dropWhile isDigit
    let fracPart := match r1 with
      | '.' :: r => r.takeWhile isDigit
      | _ => []
    let r2 := match r1 with
      | '.' :: r => r.dropWhile isDigit
      | _ => r1
    if intPart = [] ∧ fracPart = [] then .nan
    else
      let mantissa : ℚ := (digitsValue (intPart ++ fracPart) : ℚ)
      let magnitude := scaleByPowerOfTen mantissa (exponentPart r2 - fracPart.length)
      .finite (if neg then -magnitude else magnitude)

/-- The global function `parseFloat`: leading white space is skipped and the
longest prefix that is a decimal literal is converted. -/
def parseFloat (s : JSString) : JSNumber :=
  match trimStart s with
  | '-' :: u => parseUnsigned true u
  | '+' :: u => parseUnsigned false u
  | u => parseUnsigned false u

/-- The string `s.replace(/\s/g, '')`. -/
def removeWhiteSpace (s : JSString) : JSString :=
  s.filter (fun c => !isJSWhiteSpace c)

/-- The strings `s.replace(',', '.')` and `s.replace(/,/, '.')`: the first comma
only. -/
def replaceFirstComma : JSString → JSString
  | [] => []
  | c :: rest => if c = ',' then '.' :: rest else c :: replaceFirstComma rest

/-- The string `s.replace(/,/g, '')`. -/
def removeCommas (s : JSString) : JSString :=
  s.filter (fun c => c != ',')

/-- The string without a leading `-`, for the `-?` at the head of the four
patterns: no pattern can match a `-` otherwise. -/
def dropSign : JSString → JSString
  | '-' :: r => r
  | s => s

/-- The match `value.match(/^(-?[\d\s\.,]+)\s*%$/)`: the first capture group when the
pattern matches.  The greedy class of the group contains `\s`, so the group
takes everything before the final `%`. -/
def matchPercent (value : JSString) : Option JSString :=
  match value.reverse with
  | '%' :: revGroup =>
    let group := revGroup.reverse
    let body := dropSign group
    if body ≠ [] ∧ body.all (fun c => isDigit c || isJSWhiteSpace c || c = '.' || c = ',')
    then some group else none
  | _ => none

/-- The test `/^-?[\d\s]+,\d+$/.test(value)`. -/
def isFrenchDecimal (value : JSString) : Bool :=
  let b := dropSign value
  let body := b.takeWhile (fun c => isDigit c || isJSWhiteSpace c)
  match b.dropWhile (fun c => isDigit c || isJSWhiteSpace c) with
  | ',' :: frac => body ≠ [] ∧ frac ≠ [] ∧ frac.all isDigit
  | _ => false

/-- The optional `(\.\d+)?` followed by the end of the string. -/
def isFractionOrEnd : JSString → Bool
  | [] => true
  | '.' :: frac => frac ≠ [] ∧ frac.all isDigit
  | _ => false

/-- The test `/^-?\d+(\.\d+)?$/.test(value)`. -/
def isPlainDecimal (value : JSString) : Bool :=
  let b := dropSign value
  b.takeWhile isDigit ≠ [] ∧ isFractionOrEnd (b.dropWhile isDigit)

/-- The tail `(,\d{3})*(\.\d+)?$` of the thousands pattern. -/
def isGroupsThenFraction : JSString → Bool
  | ',' :: a :: b :: c :: rest =>
    isDigit a && isDigit b && isDigit c && isGroupsThenFraction rest
  | s => isFractionOrEnd s

/-- The test `/^-?\d{1,3}(,\d{3})*(\.\d+)?$/.test(value)`. -/
def isThousandsGrouped (value : JSString) : Bool :=
  let b := dropSign value
  let lead := b.takeWhile isDigit
  1 ≤ lead.length ∧ lead.length ≤ 3 ∧ isGroupsThenFraction (b.dropWhile isDigit)

/-- The conversion of a cell, lines 563-587 of `parseCSV`: the first pattern
that matches decides, and a cell no pattern converts stays the trimmed
string. -/
def coerceValue (raw : JSString) : JSValue :=
  let value := trim raw
  match matchPercent value with
  | some group =>
    let num := parseFloat (replaceFirstComma (removeWhiteSpace group))
    if num = .nan then .str value else .num num
  | none =>
    if isFrenchDecimal value then
      let num := parseFloat (replaceFirstComma (removeWhiteSpace value))
      if num = .nan then .str value else .num num
    else if isPlainDecimal value then
      .num (parseFloat value)
    else if isThousandsGrouped value then
      let num := parseFloat (removeCommas value)
      if num = .nan then .str value else .num num
    else .str value

/-! ## Header normalization (`parseCSV`, lines 441-560) -/

/-- The string `header.replace(/^\uFEFF/, '')`: one leading byte-order mark is
removed. -/
def stripBOM : JSString → JSString
  | [] => []
  | c :: rest => if c.toNat = 0xFEFF then rest else c :: rest

/-- The characters whose canonical decomposition (NFD) is an ASCII letter
followed by combining marks of the block U+0300-U+036F, grouped by that
letter: each entry is the code of the letter and the codes of the characters
that decompose to it. -/
def decomposableLetters : List (Nat × List Nat) := [
  (65, [0xC0, 0xC1, 0xC2, 0xC3, 0xC4, 0xC5, 0x100, 0x102, 0x104, 0x1CD, 0x1DE, 0x1E0, 0x1FA, 0x200, 0x202, 0x226, 0x1E00, 0x1EA0, 0x1EA2, 0x1EA4, 0x1EA6, 0x1EA8, 0x1EAA, 0x1EAC, 0x1EAE, 0x1EB0, 0x1EB2, 0x1EB4, 0x1EB6, 0x212B]),
  (66, [0x1E02, 0x1E04, 0x1E06]),
  (67, [0xC7, 0x106, 0x108, 0x10A, 0x10C, 0x1E08]),
  (68, [0x10E, 0x1E0A, 0x1E0C, 0x1E0E, 0x1E10, 0x1E12]),
  (69, [0xC8, 0xC9, 0xCA, 0xCB, 0x112, 0x114, 0x116, 0x118, 0x11A, 0x204, 0x206, 0x228, 0x1E14, 0x1E16, 0x1E18, 0x1E1A, 0x1E1C, 0x1EB8, 0x1EBA, 0x1EBC, 0x1EBE, 0x1EC0, 0x1EC2, 0x1EC4, 0x1EC6]),
  (70, [0x1E1E]),
  (71, [0x11C, 0x11E, 0x120, 0x122, 0x1E6, 0x1F4, 0x1E20]),
  (72, [0x124, 0x21E, 0x1E22, 0x1E24, 0x1E26, 0x1E28, 0x1E2A]),
  (73, [0xCC, 0xCD, 0xCE, 0xCF, 0x128, 0x12A, 0x12C, 0x12E, 0x130, 0x1CF, 0x208, 0x20A, 0x1E2C, 0x1E2E, 0x1EC8, 0x1ECA]),
  (74, [0x134]),
  (75, [0x136, 0x1E8, 0x1E30, 0x1E32, 0x1E34, 0x212A]),
  (76, [0x139, 0x13B, 0x13D, 0x1E36, 0x1E38, 0x1E3A, 0x1E3C]),
  (77, [0x1E3E, 0x1E40, 0x1E42]),
  (78, [0xD1, 0x143, 0x145, 0x147, 0x1F8, 0x1E44, 0x1E46, 0x1E48, 0x1E4A]),
  (79, [0xD2, 0xD3, 0xD4, 0xD5, 0xD6, 0x14C, 0x14E, 0x150, 0x1A0, 0x1D1, 0x1EA, 0x1EC, 0x20C, 0x20E, 0x22A, 0x22C, 0x22E, 0x230, 0x1E4C, 0x1E4E, 0x1E50, 0x1E52, 0x1ECC, 0x1ECE, 0x1ED0, 0x1ED2, 0x1ED4, 0x1ED6, 0x1ED8, 0x1EDA, 0x1EDC, 0x1EDE, 0x1EE0, 0x1EE2]),
  (80, [0x1E54, 0x1E56]),
  (82, [0x154, 0x156, 0x158, 0x210, 0x212, 0x1E58, 0x1E5A, 0x1E5C, 0x1E5E]),
  (83, [0x15A, 0x15C, 0x15E, 0x160, 0x218, 0x1E60, 0x1E62, 0x1E64, 0x1E66, 0x1E68]),
  (84, [0x162, 0x164, 0x21A, 0x1E6A, 0x1E6C, 0x1E6E, 0x1E70]),
  (85, [0xD9, 0xDA, 0xDB, 0xDC, 0x168, 0x16A, 0x16C, 0x16E, 0x170, 0x172, 0x1AF, 0x1D3, 0x1D5, 0x1D7, 0x1D9, 0x1DB, 0x214, 0x216, 0x1E72, 0x1E74, 0x1E76, 0x1E78, 0x1E7A, 0x1EE4, 0x1EE6, 0x1EE8, 0x1EEA, 0x1EEC, 0x1EEE, 0x1EF0]),
  (86, [0x1E7C, 0x1E7E]),
  (87, [0x174, 0x1E80, 0x1E82, 0x1E84, 0x1E86, 0x1E88]),
  (88, [0x1E8A, 0x1E8C]),
  (89, [0xDD, 0x176, 0x178, 0x232, 0x1E8E, 0x1EF2, 0x1EF4, 0x1EF6, 0x1EF8]),
  (90, [0x179, 0x17B, 0x17D, 0x1E90, 0x1E92, 0x1E94]),
  (97, [0xE0, 0xE1, 0xE2, 0xE3, 0xE4, 0xE5, 0x101, 0x103, 0x105, 0x1CE, 0x1DF, 0x1E1, 0x1FB, 0x201, 0x203, 0x227, 0x1E01, 0x1EA1, 0x1EA3, 0x1EA5, 0x1EA7, 0x1EA9, 0x1EAB, 0x1EAD, 0x1EAF, 0x1EB1, 0x1EB3, 0x1EB5, 0x1EB7]),
  (98, [0x1E03, 0x1E05, 0x1E07]),
  (99, [0xE7, 0x107, 0x109, 0x10B, 0x10D, 0x1E09]),
  (100, [0x10F, 0x1E0B, 0x1E0D, 0x1E0F, 0x1E11, 0x1E13]),
  (101, [0xE8, 0xE9, 0xEA, 0xEB, 0x113, 0x115, 0x117, 0x119, 0x11B, 0x205, 0x207, 0x229, 0x1E15, 0x1E17, 0x1E19, 0x1E1B, 0x1E1D, 0x1EB9, 0x1EBB, 0x1EBD, 0x1EBF, 0x1EC1, 0x1EC3, 0x1EC5, 0x1EC7]),
  (102, [0x1E1F]),
  (103, [0x11D, 0x11F, 0x121, 0x123, 0x1E7, 0x1F5, 0x1E21]),
  (104, [0x125, 0x21F, 0x1E23, 0x1E25, 0x1E27, 0x1E29, 0x1E2B, 0x1E96]),
  (105, [0xEC, 0xED, 0xEE, 0xEF, 0x129, 0x12B, 0x12D, 0x12F, 0x1D0, 0x209, 0x20B, 0x1E2D, 0x1E2F, 0x1EC9, 0x1ECB]),
  (106, [0x135, 0x1F0]),
  (107, [0x137, 0x1E9, 0x1E31, 0x1E33, 0x1E35]),
  (108, [0x13A, 0x13C, 0x13E, 0x1E37, 0x1E39, 0x1E3B, 0x1E3D]),
  (109, [0x1E3F, 0x1E41, 0x1E43]),
  (110, [0xF1, 0x144, 0x146, 0x148, 0x1F9, 0x1E45, 0x1E47, 0x1E49, 0x1E4B]),
  (111, [0xF2, 0xF3, 0xF4, 0xF5, 0xF6, 0x14D, 0x14F, 0x151, 0x1A1, 0x1D2, 0x1EB, 0x1ED, 0x20D, 0x20F, 0x22B, 0x22D, 0x22F, 0x231, 0x1E4D, 0x1E4F, 0x1E51, 0x1E53, 0x1ECD, 0x1ECF, 0x1ED1, 0x1ED3, 0x1ED5, 0x1ED7, 0x1ED9, 0x1EDB, 0x1EDD, 0x1EDF, 0x1EE1, 0x1EE3]),
  (112, [0x1E55, 0x1E57]),
  (114, [0x155, 0x157, 0x159, 0x211, 0x213, 0x1E59, 0x1E5B, 0x1E5D, 0x1E5F]),
  (115, [0x15B, 0x15D, 0x15F, 0x161, 0x219, 0x1E61, 0x1E63, 0x1E65, 0x1E67, 0x1E69]),
  (116, [0x163, 0x165, 0x21B, 0x1E6B, 0x1E6D, 0x1E6F, 0x1E71, 0x1E97]),
  (117, [0xF9, 0xFA, 0xFB, 0xFC, 0x169, 0x16B, 0x16D, 0x16F, 0x171, 0x173, 0x1B0, 0x1D4, 0x1D6, 0x1D8, 0x1DA, 0x1DC, 0x215, 0x217, 0x1E73, 0x1E75, 0x1E77, 0x1E79, 0x1E7B, 0x1EE5, 0x1EE7, 0x1EE9, 0x1EEB, 0x1EED, 0x1EEF, 0x1EF1]),
  (118, [0x1E7D, 0x1E7F]),
  (119, [0x175, 0x1E81, 0x1E83, 0x1E85, 0x1E87, 0x1E89, 0x1E98]),
  (120, [0x1E8B, 0x1E8D]),
  (121, [0xFD, 0xFF, 0x177, 0x233, 0x1E8F, 0x1E99, 0x1EF3, 0x1EF5, 0x1EF7, 0x1EF9]),
  (122, [0x17A, 0x17C, 0x17E, 0x1E91, 0x1E93, 0x1E95])
]

/-- The ASCII letter a character decomposes to, when it is one of
`decomposableLetters`. -/
def baseLetter (c : Char) : Option Char :=
  (decomposableLetters.find? (fun e => e.2.contains c.toNat)).map
    (fun e => Char.ofNat e.1)

/-- The string `cleanHeader.normalize('NFD').replace(/[\u0300-\u036f]/g, '')`
(line 445).
A character of `decomposableLetters` becomes its base letter, and a combining
mark of the block U+0300-U+036F is deleted.  Any other character is kept as it
is: its decomposition holds no character of `[A-Za-z0-9_]`, and is white space
exactly when the character is, so that line 449 treats the character and its
decomposition alike. -/
def foldDiacritics : JSString → JSString
  | [] => []
  | c :: rest =>
    match baseLetter c with
    | some b => b :: foldDiacritics rest
    | none =>
      if 0x300 ≤ c.toNat ∧ c.toNat ≤ 0x36F then foldDiacritics rest
      else c :: foldDiacritics rest

/-- The regular expression class `\w`: `[A-Za-z0-9_]`. -/
def isWordChar (c : Char) : Bool :=
  (0x41 ≤ c.toNat && c.toNat ≤ 0x5A) || (0x61 ≤ c.toNat && c.toNat ≤ 0x7A) ||
  isDigit c || c.toNat = 0x5F

/-- The string `s.replace(/[^\w\s]/g, '')`. -/
def removeNonWord (s : JSString) : JSString :=
  s.filter (fun c => isWordChar c || isJSWhiteSpace c)

/-- The scan behind `s.replace(/\s+/g, '_')`; `inRun` tells that the previous
character was white space, already replaced. -/
def underscoreRunsLoop : Bool → JSString → JSString
  | _, [] => []
  | inRun, c :: rest =>
    if isJSWhiteSpace c then
      if inRun then underscoreRunsLoop true rest
      else '_' :: underscoreRunsLoop true rest
    else c :: underscoreRunsLoop false rest

/-- The string `s.replace(/\s+/g, '_')`. -/
def underscoreRuns (s : JSString) : JSString :=
  underscoreRunsLoop false s

/-- The method `String.prototype.toLowerCase` on the letters `A`-`Z`; line 449 applies
it to a string of characters of `[A-Za-z0-9_]`. -/
def toLowerCase (s : JSString) : JSString :=
  s.map (fun c => if 0x41 ≤ c.toNat ∧ c.toNat ≤ 0x5A then Char.ofNat (c.toNat + 0x20) else c)

/-- The value of `cleanHeader` after line 449: the slug of a raw header. -/
def cleanHeader (header : JSString) : JSString :=
  toLowerCase (underscoreRuns (removeNonWord (foldDiacritics (trim (stripBOM header)))))

/-- The own property `k` of an object, when it has one. -/
def getOwn {α : Type} (o : List (JSString × α)) (k : JSString) : Option α :=
  (o.find? (fun e => e.1 = k)).map (fun e => e.2)

/-- The assignment `o[k] = v` on an object kept as the list of its own
properties in creation order: an existing property takes the new value where
it stands, a new one is added at the end. -/
def setProp {α : Type} (o : List (JSString × α)) (k : JSString) (v : α) :
    List (JSString × α) :=
  if (getOwn o k).isSome then o.map (fun e => if e.1 = k then (k, v) else e)
  else o ++ [(k, v)]

/-- The object an object literal builds: its entries are assigned in order,
a repeated key keeping its last value. -/
def objectLiteral {α : Type} (entries : List (JSString × α)) : List (JSString × α) :=
  entries.foldl (fun o e => setProp o e.1 e.2) []

/-- The entries of the literal `headerAliasMap`, lines 452-529, in source
order. -/
def headerAliasEntries : List (JSString × JSString) := [
  ("commune".toList, "commune".toList),
  ("region".toList, "region".toList),
  ("total_parcelles".toList, "total_parcels".toList),
  ("total_parcelles_collections".toList, "total_parcels".toList),
  ("parcelles_totales".toList, "total_parcels".toList),
  ("parcelles_collectees_sans_doublon_geometrique".toList, "collected".toList),
  ("parcelles_collectees".toList, "collected".toList),
  ("collected".toList, "collected".toList),
  ("parcelles_enquetees".toList, "surveyed".toList),
  ("parcelles_enquetees".toList, "surveyed".toList),
  ("parcelles_brutes".toList, "parcelles_brutes".toList),
  ("région".toList, "region".toList),
  ("region".toList, "region".toList),
  ("total_parcelles".toList, "total_parcels".toList),
  ("total_parcelles_".toList, "total_parcels".toList),
  ("pourcent_du_total".toList, "percentTotal".toList),
  ("pourcent_total".toList, "percentTotal".toList),
  ("percent_total".toList, "percentTotal".toList),
  ("nicad".toList, "nicad".toList),
  ("pourcent_nicad".toList, "percentNicad".toList),
  ("percent_nicad".toList, "percentNicad".toList),
  ("ctasf".toList, "ctasf".toList),
  ("pourcent_ctasf".toList, "percentCtasf".toList),
  ("percent_ctasf".toList, "percentCtasf".toList),
  ("deliberees".toList, "deliberated".toList),
  ("pourcent_deliberee".toList, "percentDeliberated".toList),
  ("parcelles_collectees_sans_doublon_geometrique".toList, "collected".toList),
  ("parcelles_collectees".toList, "collected".toList),
  ("parcelles_enquetees".toList, "surveyed".toList),
  ("motifs_de_rejet_post_traitement".toList, "rejectionReasons".toList),
  ("parcelles_retenues_apres_post_traitement".toList, "retained".toList),
  ("parcelles_retenues_apres_posttraitement".toList, "retained".toList),
  ("parcelles_validees_par_lurm".toList, "validated".toList),
  ("parcelles_rejetees_par_lurm".toList, "rejected".toList),
  ("motifs_de_rejet_urm".toList, "urmRejectionReasons".toList),
  ("parcelles_corrigees".toList, "corrected".toList),
  ("geomaticien".toList, "geomaticien".toList),
  ("parcelles_individuelles_jointes".toList, "individualJoined".toList),
  ("parcelles_collectives_jointes".toList, "collectiveJoined".toList),
  ("parcelles_non_jointes".toList, "unjoined".toList),
  ("doublons_supprimes".toList, "duplicatesRemoved".toList),
  ("taux_suppression_doublons".toList, "duplicateRemovalRate".toList),
  ("parcelles_en_conflit".toList, "parcelsInConflict".toList),
  ("significant_duplicates".toList, "significantDuplicates".toList),
  ("parcelles_post_traitees_lot_1_46".toList, "post_processed_parcels".toList),
  ("statut_jointure".toList, "joinStatus".toList),
  ("message_derreur_jointure".toList, "joinErrorMessage".toList),
  ("nicad".toList, "nicad".toList),
  ("ctasf".toList, "ctasf".toList),
  ("deliberees".toList, "deliberated".toList),
  ("deliberees".toList, "deliberated".toList),
  ("parcelles_retenues_apres_posttraitement".toList, "retained".toList),
  ("parcelles_retenues".toList, "retained".toList),
  ("parcelles_validees_par_lurm".toList, "validated".toList),
  ("parcelles_validees".toList, "validated".toList),
  ("parcelles_rejetees_par_lurm".toList, "rejected".toList),
  ("parcelles_rejetees".toList, "rejected".toList),
  ("doublons_supprimes".toList, "duplicates_removed".toList),
  ("taux_suppression_doublons".toList, "duplicateRemovalRate".toList),
  ("taux_suppression_doublons_".toList, "duplicateRemovalRate".toList),
  ("parcelles_en_conflit".toList, "parcelsInConflict".toList),
  ("parcelles_corrigees".toList, "corrected".toList),
  ("geomaticien".toList, "geomaticien".toList),
  ("geomatician".toList, "geomaticien".toList),
  ("champs_equipe_jour".toList, "champs_equipe_jour".toList),
  ("champs_equipe_jour_".toList, "champs_equipe_jour".toList),
  ("percent_total".toList, "percentTotal".toList),
  ("percent_nicad".toList, "percentNicad".toList),
  ("percent_ctasf".toList, "percentCtasf".toList),
  ("percent_deliberated".toList, "percentDeliberated".toList),
  ("duplicate_removal_rate".toList, "duplicateRemovalRate".toList),
  ("urm_validated_parcels".toList, "validated".toList),
  ("urm_rejected_parcels".toList, "rejected".toList),
  ("collected_parcels_no_duplicates".toList, "collected".toList)
]

/-- The entries of the literal `extraAliases`, lines 532-555. -/
def extraAliasEntries : List (JSString × JSString) := [
  ("total_parcels".toList, "total_parcels".toList),
  ("total_".toList, "percentTotal".toList),
  ("nicad_".toList, "percentNicad".toList),
  ("ctasf_".toList, "percentCtasf".toList),
  ("deliberated_".toList, "percentDeliberated".toList),
  ("raw_parcels".toList, "parcelles_brutes".toList),
  ("collected_parcels_no_duplicates".toList, "collected".toList),
  ("surveyed_parcels".toList, "surveyed".toList),
  ("postprocessing_rejection_reasons".toList, "rejectionReasons".toList),
  ("post_processing_rejection_reasons".toList, "rejectionReasons".toList),
  ("post_processed_parcels".toList, "retained".toList),
  ("urm_validated_parcels".toList, "validated".toList),
  ("urm_rejected_parcels".toList, "rejected".toList),
  ("urm_rejection_reasons".toList, "urmRejectionReasons".toList),
  ("corrected_parcels".toList, "corrected".toList),
  ("individual_parcels_joined".toList, "individualJoined".toList),
  ("collective_parcels_joined".toList, "collectiveJoined".toList),
  ("non_joined_parcels".toList, "unjoined".toList),
  ("duplicates_removed".toList, "duplicatesRemoved".toList),
  ("duplicate_removal_rate_".toList, "duplicateRemovalRate".toList),
  ("parcels_in_conflict".toList, "parcelsInConflict".toList),
  ("significant_duplicates".toList, "significantDuplicates".toList)
]

/-- What `String(Object)` gives (V8 and JavaScriptCore spell it so): the key
a property assignment makes of the function `Object`. -/
def objectConstructorSource : JSString :=
  "function Object() \x7b [native code] \x7d".toList

/-- The properties a plain object inherits from `Object.prototype` under a
name made of characters of `[a-z0-9_]` only, with the property key their value
turns into: `constructor` is the function `Object` and `__proto__` is
`Object.prototype` itself.  Both values are truthy. -/
def inheritedKey (k : JSString) : Option JSString :=
  if k = "constructor".toList then some objectConstructorSource
  else if k = "__proto__".toList then some "[object Object]".toList
  else none

/-- Line 558: `extraAliases` merged into `headerAliasMap`, a key being added
only where `headerAliasMap[k]` is falsy. -/
def mergeAliases (aliasMap extra : List (JSString × JSString)) :
    List (JSString × JSString) :=
  (extra.map (fun e => e.1)).foldl
    (fun m k =>
      if (getOwn m k).isSome ∨ (inheritedKey k).isSome then m
      else setProp m k ((getOwn extra k).getD []))
    aliasMap

/-- The alias table in force at line 560. -/
def headerAliasMap : List (JSString × JSString) :=
  mergeAliases (objectLiteral headerAliasEntries) (objectLiteral extraAliasEntries)

/-- The property key `row[mappedKey]` is stored under (lines 560 and 590):
`headerAliasMap[cleanHeader] || cleanHeader`.  Every value of the table is a
non-empty string. -/
def mappedKey (slug : JSString) : JSString :=
  match getOwn headerAliasMap slug with
  | some canonical => canonical
  | none =>
    match inheritedKey slug with
    | some key => key
    | none => slug

/-- The canonical key of a raw header. -/
def normalizeHeader (header : JSString) : JSString :=
  mappedKey (cleanHeader header)

/-! ## Rows (`parseCSV`, lines 414-607) -/

/-- A parsed row: the own properties of the object `row`, in creation
order. -/
abbrev Row := List (JSString × JSValue)

/-- Lines 427-431: a row with more fields than the header has its fields from
position `headers.length - 1` onward joined into one.  (`parseLine` returns at
least one field, so `headers.length - 1` is never negative.) -/
def mergeExtras (headers values : List JSString) (delimiter : JSString) :
    List JSString :=
  if values.length > headers.length then
    values.take (headers.length - 1) ++ [join delimiter (values.drop (headers.length - 1))]
  else values

/-- Lines 433-435: a row with fewer fields than the header is padded with
empty strings. -/
def padMissing (headers values : List JSString) : List JSString :=
  if values.length < headers.length then
    values ++ List.replicate (headers.length - values.length) []
  else values

/-- The callback of `headers.forEach` (lines 438-591), run on the headers
from position `index` onward: each stores the coerced value of its column
under its canonical key. -/
def fillRowLoop (values : List JSString) : List JSString → Nat → Row → Row
  | [], _, row => row
  | header :: rest, index, row =>
    fillRowLoop values rest (index + 1)
      (setProp row (normalizeHeader header) (coerceValue (values.getD index [])))

/-- The method `getGeomaticienName` as `this` of `parseCSV` has it.  The class
`DataManager` (lines 295-702) declares no method of that name (the method of
line 2953 belongs to `UIManager`), so `this.getGeomaticienName` is
`undefined`. -/
def DataManager.getGeomaticienName : Option (Row → JSString) := none

/-- Truthiness of a cell value. -/
def JSValue.truthy : JSValue → Bool
  | .str s => s ≠ []
  | .num .nan => false
  | .num (.finite q) => q ≠ 0
  | .num _ => true

/-- The test `/[A-Za-zÀ-ÖØ-öø-ÿ]/.test(s)`. -/
def hasLetter (s : JSString) : Bool :=
  s.any (fun c =>
    (0x41 ≤ c.toNat && c.toNat ≤ 0x5A) || (0x61 ≤ c.toNat && c.toNat ≤ 0x7A) ||
    (0xC0 ≤ c.toNat && c.toNat ≤ 0xD6) || (0xD8 ≤ c.toNat && c.toNat ≤ 0xF6) ||
    (0xF8 ≤ c.toNat && c.toNat ≤ 0xFF))

/-- The test `/[A-Za-zÀ-ÖØ-öø-ÿ]/.test(String(v))` for a truthy cell value: the text
of a number holds a letter when it is an infinity or is written with an
exponent. -/
def JSValue.textHasLetter : JSValue → Bool
  | .str s => hasLetter s
  | .num (.finite q) => decide ((10 : ℚ) ^ 21 ≤ |q|) || decide (|q| < 1 / (10 : ℚ) ^ 6)
  | .num _ => true

/-- Lines 593-601: the `try` block that fills the key `geomaticien`.  Calling
an `undefined` method throws a `TypeError`, which the `catch` of line 601
discards, leaving the row as it was. -/
def backfillGeomaticien (row : Row) : Row :=
  match DataManager.getGeomaticienName with
  | none => row
  | some getName =>
    let extracted := getName row
    let existing : JSValue :=
      match (getOwn row "geomaticien".toList).filter JSValue.truthy with
      | some v => v
      | none =>
        match (getOwn row "Geomaticien".toList).filter JSValue.truthy with
        | some v => v
        | none => .str []
    if extracted ≠ [] ∧ (existing.truthy = false ∨ existing.textHasLetter = false) then
      setProp row "geomaticien".toList (.str extracted)
    else row

/-- The array `values` of one data line after lines 424-435. -/
def alignedValues (headers : List JSString) (delimiter line : JSString) : List JSString :=
  padMissing headers (mergeExtras headers (parseLine line delimiter) delimiter)

/-- The object `row` built from the aligned values (lines 437-601). -/
def rowOfValues (headers values : List JSString) : Row :=
  backfillGeomaticien (fillRowLoop values headers 0 [])

/-- The object pushed for one data line (lines 424-603). -/
def buildRow (headers : List JSString) (delimiter line : JSString) : Row :=
  rowOfValues headers (alignedValues headers delimiter line)

/-- The `for` loop of lines 423-604, run on the data lines still to be read;
`data` is the array built so far. -/
def parseRowsLoop (headers : List JSString) (delimiter : JSString) :
    List JSString → List Row → List Row
  | [], data => data
  | line :: rest, data =>
    parseRowsLoop headers delimiter rest (data ++ [buildRow headers delimiter line])

/-- The method `DataManager.parseCSV(csvText)` (`src/dashboard_js.js`, lines
380-607). -/
def parseCSV (csvText : JSString) : List Row :=
  if csvText = [] ∨ trim csvText = [] then []
  else
    let lines := nonBlankLines csvText
    let delimiter := detectDelimiter lines
    if lines.length < 2 then []
    else
      let headers := parseLine (lines.headD []) delimiter
      parseRowsLoop headers delimiter (lines.drop 1) []

/-- The delimiter `parseCSV` uses on a text. -/
def csvDelimiter (csvText : JSString) : JSString :=
  detectDelimiter (nonBlankLines csvText)

/-- The array `headers` of `parseCSV` (line 419). -/
def csvHeaders (csvText : JSString) : List JSString :=
  parseLine ((nonBlankLines csvText).headD []) (csvDelimiter csvText)

/-! ## Letters up to case and accents, for the statements about headers -/

/-- The lower-case form of one character, as `toLowerCase` maps it. -/
def lowerChar (c : Char) : Char :=
  if 0x41 ≤ c.toNat ∧ c.toNat ≤ 0x5A then Char.ofNat (c.toNat + 0x20) else c

/-- A character with its accents and its case forgotten: the base letter of an
accented letter, in lower case. -/
def foldedLetter (c : Char) : Char :=
  lowerChar ((baseLetter c).getD c)

/-- What one character of a trimmed header leaves after lines 445 and 449,
before white space is underscored. -/
def slugPiece (c : Char) : JSString :=
  removeNonWord (foldDiacritics [c])

/-- The characters a slug is made of: `a`-`z`, `0`-`9` and `_`. -/
def isSlugChar (c : Char) : Bool :=
  (0x61 ≤ c.toNat && c.toNat ≤ 0x7A) || isDigit c || c.toNat = 0x5F

/-! ## Field resolution (`UIManager.getNumericValue`, lines 2907-2950) -/

/-- The test `/^-?\d+[\.,]\d+$/.test(s)`. -/
def isDecimalEither (s : JSString) : Bool :=
  let b := dropSign s
  match b.dropWhile isDigit with
  | c :: frac =>
    b.takeWhile isDigit ≠ [] ∧ (c = '.' ∨ c = ',') ∧ frac ≠ [] ∧ frac.all isDigit
  | [] => false

/-- The helper `tryParse` (lines 2909-2920) on the value of a field; `none`
stands for the result `null`. -/
def tryParse : JSValue → Option JSNumber
  | .num n => some n
  | .str v =>
    if v = [] then none
    else
      let s := removeWhiteSpace (trim v)
      if isDecimalEither s then some (parseFloat (replaceFirstComma s))
      else if isThousandsGrouped s then some (parseFloat (removeCommas s))
      else if isPlainDecimal s then some (parseFloat s)
      else none

/-- The number a field resolves to: `tryParse` when its result passes the test
`p !== null && !isNaN(p)`. -/
def numericOf (v : JSValue) : Option JSNumber :=
  (tryParse v).filter (fun p => p ≠ .nan)

/-- The number found under the key `k` of a row.  A row is a plain object: a
key it does not own is either `undefined` or inherited from
`Object.prototype`, whose properties are functions and objects that `tryParse`
turns into `null`; both cases resolve to nothing. -/
def fieldNumber (row : Row) (k : JSString) : Option JSNumber :=
  (getOwn row k).bind numericOf

/-- The number one candidate resolves to (lines 2923-2938): its field under
the key as given, else under the lower-case form of the key. -/
def candidateNumber (toLower : JSString → JSString) (row : Row) (k : JSString) :
    Option JSNumber :=
  match fieldNumber row k with
  | some p => some p
  | none => fieldNumber row (toLower k)

/-- The loop over the candidates (lines 2922-2939): the number returned from
inside the loop, or `none` when the loop runs to its end. -/
def candidateLoop (toLower : JSString → JSString) (row : Row) :
    List JSString → Option JSNumber
  | [] => none
  | k :: rest =>
    match candidateNumber toLower row k with
    | some p => some p
    | none => candidateLoop toLower row rest

/-- An array index: the canonical decimal form of an integer below
`2 ^ 32 - 1`. -/
def isArrayIndex (k : JSString) : Bool :=
  k ≠ [] ∧ k.all isDigit ∧ (k = ['0'] ∨ k.head? ≠ some '0') ∧ digitsValue k < 4294967295

/-- The array `Object.keys(o)`: the keys that are array indices in ascending
numeric order, then the other keys in creation order. -/
def objectKeys {α : Type} (o : List (JSString × α)) : List JSString :=
  ((o.map (fun e => e.1)).filter isArrayIndex).insertionSort
      (fun a b => digitsValue a ≤ digitsValue b)
    ++ (o.map (fun e => e.1)).filter (fun k => !isArrayIndex k)

/-- The broad scan of lines 2944-2947 over the keys still to be visited. -/
def looseScan (row : Row) : List JSString → Option JSNumber
  | [] => none
  | k :: rest =>
    match fieldNumber row k with
    | some p => some p
    | none => looseScan row rest

/-- The method `UIManager.getNumericValue(row, candidates)` (lines 2907-2950)
for a row that is an object and a list of candidate keys.  The parameter
`toLower` stands for `String.prototype.toLowerCase`; on a key made of ASCII
characters it is `toLowerCase`. -/
def getNumericValue (toLower : JSString → JSString) (row : Row)
    (candidates : List JSString) : JSNumber :=
  match candidateLoop toLower row candidates with
  | some p => p
  | none =>
    if candidates = [] then
      match looseScan row (objectKeys row) with
      | some p => p
      | none => .finite 0
    else .finite 0

/-! ## Arguments of the resolvers (`UIManager`, lines 2907-3001) -/

/-- The value passed as `row` to a resolver of `UIManager`.  An object is given
by its own properties; a function, a symbol or a big integer is no object for
`typeof` and behaves as the other values that are none. -/
inductive RowArg where
  | null
  | undefined
  | boolean (b : Bool)
  | number (n : JSNumber)
  | string (s : JSString)
  | object (row : Row)

/-- The value passed as `candidates` to `getNumericValue`: `undefined` is the
call with no candidate list, and an array holds strings. -/
inductive CandidatesArg where
  | undefined
  | null
  | array (keys : List JSString)

/-- The exceptions the resolvers can end with. -/
inductive JSError where
  | typeError
deriving DecidableEq

/-- The method `UIManager.getNumericValue(row, candidates)` (lines 2907-2950)
on any arguments.  A `row` that is falsy or no object gives `0` at line 2908.
Otherwise line 2922 iterates `candidates`: `undefined` and `null` are not
iterable, and `for (const k of candidates)` throws a `TypeError` before the
test `!candidates` of line 2943 is reached. -/
def UIManager.getNumericValue (toLower : JSString → JSString) :
    RowArg → CandidatesArg → Except JSError JSNumber
  | .object row, .array keys => .ok (Dashboard.getNumericValue toLower row keys)
  | .object _, .undefined => .error .typeError
  | .object _, .null => .error .typeError
  | _, _ => .ok (.finite 0)

/-! ## Name resolution (`UIManager.getGeomaticienName`, lines 2953-3001) -/

/-- The array `candidateKeys` of line 2956, as written. -/
def candidateKeys : List JSString := [
  "geomaticien".toList, "geomatician".toList, "geomaticien".toList,
  "geomaticien_name".toList, "geomaticien_nom".toList, "geomaticienprenom".toList,
  "geomaticien_prenom".toList, "geomatician_name".toList, "geomatician_nom".toList,
  "geomaticienprenom".toList]

/-- The property `length` of a string: its number of UTF-16 code units. -/
def utf16Length (s : JSString) : Nat :=
  (s.map (fun c => if 0x10000 ≤ c.toNat then 2 else 1)).sum

/-- The test `/^[-+]?\d+[\d\s,\.]*$/.test(t)` of line 2964. -/
def isNumericLooking (t : JSString) : Bool :=
  let b := match t with
    | '-' :: r => r
    | '+' :: r => r
    | _ => t
  b.takeWhile isDigit ≠ [] ∧
    (b.dropWhile isDigit).all
      (fun c => isDigit c || isJSWhiteSpace c || decide (c = ',') || decide (c = '.'))

/-- The string `String(v)` of a cell value; `toText` stands for the conversion
of a number to a string (`Number::toString`). -/
def valueText (toText : JSNumber → JSString) : JSValue → JSString
  | .str s => s
  | .num n => toText n

/-- The helper `isName` (lines 2958-2966) on the value of a field. -/
def isName (toText : JSNumber → JSString) (s : JSValue) : Bool :=
  if s.truthy = false then false
  else
    let t := trim (valueText toText s)
    if utf16Length t < 2 then false
    else if hasLetter t = false then false
    else if isNumericLooking t then false
    else true

/-- The alternatives of `noisyKeyPattern` (line 2986), in source order. -/
def noisyWords : List JSString := [
  "commune".toList, "region".toList, "total".toList, "parc".toList, "collec".toList,
  "nicad".toList, "ctasf".toList, "percent".toList, "duplicate".toList, "joined".toList,
  "validated".toList, "rejected".toList, "raw".toList, "corrected".toList,
  "deliberat".toList, "rejection".toList, "duplicates_removed".toList,
  "duplicate_removal_rate".toList, "individual_joined".toList]

/-- The test `noisyKeyPattern.test(s)`: one of the alternatives occurs in `s`,
letters being compared without regard to case (flag `i`; the alternatives are
written in lower case, and only the letters `A`-`Z` and `a`-`z` match an
ASCII letter of a pattern). -/
def noisyKeyPattern (s : JSString) : Bool :=
  noisyWords.any (fun w => (s.map lowerChar).tails.any (fun t => w.isPrefixOf t))

/-- The first loop of `getGeomaticienName` (lines 2969-2975) over the keys
still to be visited: the keys whose lower-case form is a candidate key. -/
def explicitScan (toLower : JSString → JSString) (toText : JSNumber → JSString)
    (row : Row) : List JSString → Option JSString
  | [] => none
  | k :: rest =>
    if toLower k ∈ candidateKeys then
      match getOwn row k with
      | some val =>
        if isName toText val then some (trim (valueText toText val))
        else explicitScan toLower toText row rest
      | none => explicitScan toLower toText row rest
    else explicitScan toLower toText row rest

/-- The second loop (lines 2978-2983) over the candidate keys still to be
tried.  No candidate key names a property of `Object.prototype`, so `row[ck]`
is an own property or `undefined`. -/
def canonicalScan (toText : JSNumber → JSString) (row : Row) :
    List JSString → Option JSString
  | [] => none
  | ck :: rest =>
    match getOwn row ck with
    | some val =>
      if isName toText val then some (trim (valueText toText val))
      else canonicalScan toText row rest
    | none => canonicalScan toText row rest

/-- The string `String(row.commune || row.Commune || '').trim()` of line 2993. -/
def communeText (toText : JSNumber → JSString) (row : Row) : JSString :=
  match (getOwn row "commune".toList).filter JSValue.truthy with
  | some v => trim (valueText toText v)
  | none =>
    match (getOwn row "Commune".toList).filter JSValue.truthy with
    | some v => trim (valueText toText v)
    | none => []

/-- The third loop (lines 2987-2998) over the keys still to be visited: the
fields whose key the pattern does not match, the commune's name apart. -/
def fallbackScan (toLower : JSString → JSString) (toText : JSNumber → JSString)
    (row : Row) : List JSString → Option JSString
  | [] => none
  | k :: rest =>
    if noisyKeyPattern (toLower k) then fallbackScan toLower toText row rest
    else
      let val := trim (match (getOwn row k).filter JSValue.truthy with
        | some v => valueText toText v
        | none => [])
      if isName toText (.str val) then
        if communeText toText row ≠ [] ∧ toLower val = toLower (communeText toText row) then
          fallbackScan toLower toText row rest
        else some val
      else fallbackScan toLower toText row rest

/-- The method `UIManager.getGeomaticienName(row)` (lines 2953-3001).  The
parameter `toLower` stands for `String.prototype.toLowerCase` and `toText` for
the conversion of a number to a string. -/
def UIManager.getGeomaticienName (toLower : JSString → JSString)
    (toText : JSNumber → JSString) : RowArg → JSString
  | .object row =>
    match explicitScan toLower toText row (objectKeys row) with
    | some name => name
    | none =>
      match canonicalScan toText row candidateKeys with
      | some name => name
      | none => (fallbackScan toLower toText row (objectKeys row)).getD []
  | _ => []

/-! ## The cache of sheets (`DataManager.fetchSheetData`, lines 316-373) -/

/-- An entry of the map `this.cache`: the parsed rows and the time they were
stored at. -/
structure CacheEntry where
  data : List Row
  timestamp : Int
deriving DecidableEq

/-- The map `this.cache`: its entries in insertion order. -/
abbrev SheetCache := List (JSString × CacheEntry)

/-- The field `this.cacheTimeout` (line 298): five minutes, in milliseconds. -/
def cacheTimeout : Int := 5 * 60 * 1000

/-- The own keys of `CONFIG.SHEETS` (lines 15-28); each holds a non-empty
string or an object. -/
def configSheetKeys : List JSString := [
  "BASE_URL".toList, "EXPORT_BASE".toList, "KPI_DASHBOARD".toList,
  "DATA_COLLECTION".toList, "PROJECTION_COLLECTION".toList, "YIELDS_PROJECTION".toList,
  "TEAM_DEPLOYMENT".toList, "NICAD_PROJECTION".toList, "PUBLIC_DISPLAY".toList,
  "CTASF_PROJECTION".toList, "COMMUNE_STATUS".toList, "METHODOLOGY_NOTES".toList]

/-- The names of the properties of `Object.prototype`, which the plain object
`CONFIG.SHEETS` inherits; each holds a function or an object. -/
def objectPrototypeKeys : List JSString := [
  "constructor".toList, "__defineGetter__".toList, "__defineSetter__".toList,
  "hasOwnProperty".toList, "__lookupGetter__".toList, "__lookupSetter__".toList,
  "isPrototypeOf".toList, "propertyIsEnumerable".toList, "toString".toList,
  "valueOf".toList, "__proto__".toList, "toLocaleString".toList]

/-- The value `CONFIG.SHEETS[sheetKey]` is truthy: the test `!sheet` of line
318 fails. -/
def sheetConfigured (sheetKey : JSString) : Bool :=
  sheetKey ∈ configSheetKeys ∨ sheetKey ∈ objectPrototypeKeys

/-- What the request of lines 334-345 comes to: the promise of `fetch`
rejects, or a response arrives with its flag `ok` and its text (`none` when
`response.text()` rejects). -/
inductive FetchOutcome where
  | networkError
  | response (ok : Bool) (text : Option JSString)

/-- What a call of `fetchSheetData` leaves: the value its promise settles to
(the rows, or the message of the error it rejects with) and the cache. -/
structure FetchResult where
  value : Except JSString (List Row)
  cache : SheetCache

/-- The method `DataManager.fetchSheetData(sheetKey, forceRefresh)` (lines
316-373).  `now` is `Date.now()` at line 326 and `later` at line 359; `net` is
what the request comes to, if one is made.  The indicator, the notification
and the console are left out: they change neither the cache nor the result. -/
def fetchSheetData (cache : SheetCache) (now later : Int) (sheetKey : JSString)
    (forceRefresh : Bool) (net : FetchOutcome) : FetchResult :=
  if sheetConfigured sheetKey = false then
    { value := .error ("Unknown sheet: ".toList ++ sheetKey), cache := cache }
  else
    let cacheKey := "sheet_".toList ++ sheetKey
    let cached := getOwn cache cacheKey
    let fresh := if forceRefresh then none
      else cached.filter (fun e => decide (now - e.timestamp < cacheTimeout))
    match fresh with
    | some e => { value := .ok e.data, cache := cache }
    | none =>
      match net with
      | .response true (some csvText) =>
        let data := parseCSV csvText
        { value := .ok data,
          cache := setProp cache cacheKey { data := data, timestamp := later } }
      | _ =>
        { value := .ok (match cached with
            | some e => e.data
            | none => []),
          cache := cache }

/-! ## The order of the columns (`reorderColumns`, `dashboard_js_fixed.js`, lines 584-599) -/

/-- The scan of `Array.prototype.indexOf` from position `i` on. -/
def indexOfLoop (x : JSString) : List JSString → Nat → Int
  | [], _ => -1
  | y :: rest, i => if y = x then (i : Int) else indexOfLoop x rest (i + 1)

/-- The method `Array.prototype.indexOf`: the first position of `x`, or `-1`. -/
def indexOf (a : List JSString) (x : JSString) : Int :=
  indexOfLoop x a 0

/-- The array after `a.splice(start, deleteCount, ...items)`: a negative
`start` counts from the end, and `start` is clamped to the array. -/
def splice (a : List JSString) (start : Int) (deleteCount : Nat)
    (items : List JSString) : List JSString :=
  let first : Nat := if start < 0 then a.length - (-start).toNat else min start.toNat a.length
  a.take first ++ items ++ a.drop (first + deleteCount)

/-- The array `currentColumnOrder` after `reorderColumns(fromColumn, toColumn)`
(lines 584-599). -/
def reorderColumns (currentColumnOrder : List JSString) (fromColumn toColumn : JSString) :
    List JSString :=
  let fromIndex := indexOf currentColumnOrder fromColumn
  let toIndex := indexOf currentColumnOrder toColumn
  if fromIndex ≠ -1 ∧ toIndex ≠ -1 then
    let removed := splice currentColumnOrder fromIndex 1 []
    let newToIndex := if fromIndex < toIndex then toIndex - 1 else toIndex
    splice removed newToIndex 0 [fromColumn]
  else currentColumnOrder

/-! ## The loader's `toNum` (`script.js`, lines 181-186) -/

/-- The value passed to `toNum`: `null` or `undefined`, a number, or a
string. -/
inductive ToNumArg where
  | nullish
  | number (n : JSNumber)
  | string (s : JSString)

/-- The string `s.replace(/[^0-9.-]+/g, '')`: the digits, points and hyphens of
`s`. -/
def keepNumeric (s : JSString) : JSString :=
  s.filter (fun c => isDigit c || decide (c = '.') || decide (c = '-'))

/-- The optional `ExponentPart` of a decimal literal followed by the end of
the string. -/
def isExponentOrEnd : JSString → Bool
  | [] => true
  | c :: r =>
    let d := match r with
      | '+' :: r2 => r2
      | '-' :: r2 => r2
      | _ => r
    (c = 'e' ∨ c = 'E') ∧ d ≠ [] ∧ d.all isDigit

/-- The whole of `u` is a `StrUnsignedDecimalLiteral`: `Infinity`, or digits
with an optional point, fraction and exponent, a digit standing on one side of
the point at least. -/
def isUnsignedDecimalLiteral (u : JSString) : Bool :=
  if u = "Infinity".toList then true
  else
    match u.dropWhile isDigit with
    | '.' :: r =>
      (u.takeWhile isDigit ≠ [] ∨ r.takeWhile isDigit ≠ []) ∧
        isExponentOrEnd (r.dropWhile isDigit)
    | r1 => u.takeWhile isDigit ≠ [] ∧ isExponentOrEnd r1

/-- The conversion `Number(s)` of a string holding no letter other than those
of `Infinity` and of an exponent: white space is trimmed, the empty string is
`0`, a signed decimal literal has its value, anything else is `NaN`.  (The
literals `0x`, `0o` and `0b` need a letter that line 184 has removed.) -/
def stringToNumber (s : JSString) : JSNumber :=
  match trim s with
  | [] => .finite 0
  | '-' :: u => if isUnsignedDecimalLiteral u then parseUnsigned true u else .nan
  | '+' :: u => if isUnsignedDecimalLiteral u then parseUnsigned false u else .nan
  | u => if isUnsignedDecimalLiteral u then parseUnsigned false u else .nan

/-- The test `Number.isFinite(n)`.  A `finite q` stands for the double nearest
to `q`, which is an infinity from `2 ^ 1024 - 2 ^ 970` on. -/
def isFiniteNumber : JSNumber → Bool
  | .finite q => decide (|q| < (2 : ℚ) ^ 1024 - (2 : ℚ) ^ 970)
  | _ => false

/-- The function `toNum(v)` of the loader (`script.js`, lines 181-186, and
`dashboard_charts.js`, lines 47-52). -/
def toNum : ToNumArg → JSNumber
  | .nullish => .finite 0
  | .number n => n
  | .string s =>
    let n := stringToNumber (keepNumeric s)
    if isFiniteNumber n then n else .finite 0

/-- The characters of `b` are digits with an optional point and fraction, a
digit standing on one side of the point at least: `12`, `12.`, `12.5`, `.5`. -/
def isDigitsPointDigits (b : JSString) : Bool :=
  match b.dropWhile isDigit with
  | [] => b.takeWhile isDigit ≠ []
  | c :: frac => c = '.' ∧ frac.all isDigit ∧ (b.takeWhile isDigit ≠ [] ∨ frac ≠ [])

/-- The characters of `r` form a numeric literal: an optional `-`, then digits
with an optional point and fraction. -/
def isNumericLiteral (r : JSString) : Bool :=
  isDigitsPointDigits (dropSign r)

/-- The number that digits with an optional point and fraction denote: the
digits read in base ten, divided by ten for each digit after the point. -/
def digitsPointDigitsValue (b : JSString) : ℚ :=
  (digitsValue (b.takeWhile isDigit ++ (b.dropWhile isDigit).drop 1) : ℚ)
    / (10 : ℚ) ^ ((b.dropWhile isDigit).drop 1).length

/-- The number a numeric literal denotes, with its sign. -/
def literalValue (r : JSString) : ℚ :=
  match r with
  | '-' :: b => -digitsPointDigitsValue b
  | b => digitsPointDigitsValue b

/-! ## Written fields, for the statements about `parseLine` -/

/-- The text of a field between double quotes, as a CSV writer produces it:
every double quote of the content is doubled. -/
def escapeQuotes : JSString → JSString
  | [] => []
  | c :: rest => if c = dquote then dquote :: dquote :: escapeQuotes rest
                 else c :: escapeQuotes rest

/-- A field of a CSV line as it is written: bare, or between double quotes. -/
inductive Field where
  | plain (text : JSString)
  | quoted (content : JSString)
deriving DecidableEq, Repr

/-- The characters a field stands for. -/
def Field.content : Field → JSString
  | .plain t => t
  | .quoted c => c

/-- The characters a field occupies in the line. -/
def Field.render : Field → JSString
  | .plain t => t
  | .quoted c => dquote :: (escapeQuotes c ++ [dquote])

/-- A bare field holds neither the delimiter character nor a double quote;
a quoted field may hold anything. -/
def Field.wellFormed (dc : Char) : Field → Bool
  | .plain t => !t.contains dc && !t.contains dquote
  | .quoted _ => true

/-! ## Sample headers and sheets, evaluated -/

set_option synthInstance.maxSize 4096 in
set_option synthInstance.maxHeartbeats 400000 in
/-- The sample headers of the statements below and the values of the alias
table, normalized in one evaluation. -/
theorem normalizeHeader_samples :
    (cleanHeader "Parcelles validées par l\x27URM".toList
        = "parcelles_validees_par_lurm".toList ∧
      normalizeHeader "Parcelles validées par l\x27URM".toList = "validated".toList ∧
      normalizeHeader "URM Validated Parcels".toList = "validated".toList ∧
      normalizeHeader "Parcelles validées".toList = "validated".toList) ∧
    (normalizeHeader "Doublons supprimés".toList = "duplicates_removed".toList ∧
      normalizeHeader "Duplicates Removed".toList = "duplicatesRemoved".toList ∧
      ("doublons_supprimes".toList, "duplicatesRemoved".toList) ∈ headerAliasEntries ∧
      ("doublons_supprimes".toList, "duplicates_removed".toList) ∈ headerAliasEntries ∧
      getOwn headerAliasMap "doublons_supprimes".toList = some "duplicates_removed".toList) ∧
    (∀ e ∈ headerAliasMap, e.2.all isSlugChar = true →
      e.2 ≠ "duplicates_removed".toList → e.2 ≠ "post_processed_parcels".toList →
      mappedKey e.2 = e.2) ∧
    (∀ e ∈ headerAliasMap, e.2.all isSlugChar = false →
      normalizeHeader e.2 = toLowerCase e.2 ∧ normalizeHeader e.2 ≠ e.2) ∧
    (normalizeHeader "Taux suppression doublons".toList = "duplicateRemovalRate".toList ∧
      normalizeHeader (normalizeHeader "Taux suppression doublons".toList)
        = "duplicateremovalrate".toList ∧
      normalizeHeader (normalizeHeader "Taux suppression doublons".toList)
        ≠ normalizeHeader "Taux suppression doublons".toList ∧
      normalizeHeader "percentTotal".toList = "percenttotal".toList) ∧
    ((∀ c ∈ normalizeHeader "Région".toList, isSlugChar c = true) ∧
      normalizeHeader "Région".toList ≠ "duplicates_removed".toList ∧
      normalizeHeader "Région".toList ≠ "post_processed_parcels".toList) ∧
    (normalizeHeader "region".toList = "region".toList) ∧
    (normalizeHeader "% NICAD".toList = "_nicad".toList ∧
      getOwn headerAliasMap "_nicad".toList = none ∧
      normalizeHeader "NICAD %".toList = "percentNicad".toList ∧
      normalizeHeader "Constructor".toList = objectConstructorSource ∧
      (∀ e ∈ headerAliasMap, e.2 ≠ normalizeHeader "Constructor".toList) ∧
      (normalizeHeader "Constructor".toList).all isSlugChar = false ∧
      parseCSV "Constructor;x\n1;2".toList
        = [[(objectConstructorSource, .num (.finite 1)), ("x".toList, .num (.finite 2))]]) := by
  decide!

set_option synthInstance.maxSize 4096 in
set_option synthInstance.maxHeartbeats 400000 in
/-- The sample sheets of the statements below, parsed in one evaluation. -/
theorem parseCSV_samples :
    (parseCSV "montant;note\n1 234,56;x".toList
      = [[("montant".toList, .num (.finite (123456 / 100))),
          ("note".toList, .str "x".toList)]]) ∧
    (parseCSV "taux;part\n12,3%;12.3 %".toList
      = [[("taux".toList, .num (.finite (123 / 10))),
          ("part".toList, .num (.finite (123 / 10)))]]) ∧
    (parseCSV "montant;note\n1,234.56;x".toList
      = [[("montant".toList, .num (.finite (123456 / 100))),
          ("note".toList, .str "x".toList)]]) ∧
    (parseCSV "agent;commune\nJean Diop;Bandafassi".toList
      = [[("agent".toList, .str "Jean Diop".toList),
          ("commune".toList, .str "Bandafassi".toList)]]) ∧
    ([("a".toList, JSValue.num (.finite (125 / 10))), ("b".toList, .str "..%".toList)]
      ∈ parseCSV "a;b\n12,5;..%".toList) ∧
    ((getOwn headerAliasMap (cleanHeader "Note".toList) = none ∧
        cleanHeader "Note".toList = "note".toList ∧
        parseCSV "Note;note\nx;y".toList = [[("note".toList, .str "y".toList)]] ∧
        coerceValue "x".toList ≠ .str "y".toList) ∧
      (getOwn headerAliasMap (cleanHeader "constructor".toList) = none ∧
        normalizeHeader "constructor".toList ≠ cleanHeader "constructor".toList)) ∧
    ((parseCSV "Commune;Observations\nBandafassi;RAS".toList)[0]?
        = some [("commune".toList, .str "Bandafassi".toList),
            ("observations".toList, .str "RAS".toList)] ∧
      (csvHeaders "Commune;Observations\nBandafassi;RAS".toList).length = 2 ∧
      (csvHeaders "Commune;Observations\nBandafassi;RAS".toList).getD 1 []
        = "Observations".toList ∧
      getOwn headerAliasMap (cleanHeader "Observations".toList) = none ∧
      inheritedKey (cleanHeader "Observations".toList) = none ∧
      cleanHeader "Observations".toList = "observations".toList ∧
      coerceValue ((alignedValues (csvHeaders "Commune;Observations\nBandafassi;RAS".toList)
        (csvDelimiter "Commune;Observations\nBandafassi;RAS".toList)
        ((nonBlankLines "Commune;Observations\nBandafassi;RAS".toList).getD (0 + 1) [])).getD 1 [])
        = .str "RAS".toList) ∧
    ((parseCSV "Total Parcelles;Total Parcels\n5;7".toList)[0]?
        = some [("total_parcels".toList, .num (.finite 7))] ∧
      (csvHeaders "Total Parcelles;Total Parcels\n5;7".toList).length = 2 ∧
      normalizeHeader ((csvHeaders "Total Parcelles;Total Parcels\n5;7".toList).getD 1 [])
        = "total_parcels".toList ∧
      coerceValue ((alignedValues (csvHeaders "Total Parcelles;Total Parcels\n5;7".toList)
        (csvDelimiter "Total Parcelles;Total Parcels\n5;7".toList)
        ((nonBlankLines "Total Parcelles;Total Parcels\n5;7".toList).getD (0 + 1) [])).getD 1 [])
        = .num (.finite 7)) ∧
    (parseCSV "Commune,Region,Agent\nBandafassi,Kedougou,Jean Diop".toList
        = [[("commune".toList, .str "Bandafassi".toList),
            ("region".toList, .str "Kedougou".toList),
            ("agent".toList, .str "Jean Diop".toList)]] ∧
      (∀ row ∈ parseCSV "Commune,Region,Agent\nBandafassi,Kedougou,Jean Diop".toList,
        getOwn row "geomaticien".toList = none) ∧
      UIManager.getGeomaticienName toLowerCase (fun _ => [])
        (.object [("commune".toList, .str "Bandafassi".toList),
          ("region".toList, .str "Kedougou".toList),
          ("agent".toList, .str "Jean Diop".toList)]) = "Jean Diop".toList) ∧
    ((digitsValue ("1".toList ++ "234".toList) : ℚ) / (10 : ℚ) ^ 3 = 1234 / 1000 ∧
      JSValue.num (.finite (1234 / 1000)) ≠ .num (.finite 1234) ∧
      parseCSV "a;b\n1,234;1,234,567".toList
        = [[("a".toList, .num (.finite (1234 / 1000))),
            ("b".toList, .num (.finite 1234567))]]) ∧
    (trim "1 234".toList = "1 234".toList ∧
      (∀ c ∈ trim "1 234".toList, isDigit c = true ∨ isJSWhiteSpace c = true) ∧
      (∃ c ∈ trim "1 234".toList, isJSWhiteSpace c = true) ∧
      parseCSV "a;b\n1 234;1 234,56".toList
        = [[("a".toList, .str "1 234".toList), ("b".toList, .num (.finite (123456 / 100)))]]) ∧
    (some (rowOfValues (csvHeaders "H1,H2,H3\nv1,v2,v3,v4".toList)
        ((parseLine ((nonBlankLines "H1,H2,H3\nv1,v2,v3,v4".toList).getD (0 + 1) [])
              (csvDelimiter "H1,H2,H3\nv1,v2,v3,v4".toList)).take
            ((csvHeaders "H1,H2,H3\nv1,v2,v3,v4".toList).length - 1)
          ++ [join (csvDelimiter "H1,H2,H3\nv1,v2,v3,v4".toList)
            ((parseLine ((nonBlankLines "H1,H2,H3\nv1,v2,v3,v4".toList).getD (0 + 1) [])
                (csvDelimiter "H1,H2,H3\nv1,v2,v3,v4".toList)).drop
              ((csvHeaders "H1,H2,H3\nv1,v2,v3,v4".toList).length - 1))]))
      = some [("h1".toList, .str "v1".toList), ("h2".toList, .str "v2".toList),
          ("h3".toList, .str "v3,v4".toList)]) ∧
    (some (buildRow (csvHeaders "a;b;c\n1;2;3\n\nx".toList)
        (csvDelimiter "a;b;c\n1;2;3\n\nx".toList)
        ((nonBlankLines "a;b;c\n1;2;3\n\nx".toList).getD (1 + 1) []))
      = some [("a".toList, .str "x".toList), ("b".toList, .str []), ("c".toList, .str [])]) := by
  decide!

/-! ## Facts about `parseLine` -/

theorem parseLineLoop_nil (d cur : JSString) (q : Bool) (res : List JSString) :
    parseLineLoop d [] cur q res = res ++ [trim cur] := rfl

theorem parseLineLoop_open (d rest cur : JSString) (res : List JSString) :
    parseLineLoop d (dquote :: rest) cur false res
      = parseLineLoop d rest cur true res := by
  rw [parseLineLoop.eq_def]
  simp

theorem parseLineLoop_escaped (d rest cur : JSString) (res : List JSString) :
    parseLineLoop d (dquote :: dquote :: rest) cur true res
      = parseLineLoop d rest (cur ++ [dquote]) true res := by
  rw [parseLineLoop.eq_def]
  simp

theorem parseLineLoop_close (d rest cur : JSString) (res : List JSString)
    (hrest : rest.head? ≠ some dquote) :
    parseLineLoop d (dquote :: rest) cur true res
      = parseLineLoop d rest cur false res := by
  rw [parseLineLoop.eq_def]
  cases rest with
  | nil => simp
  | cons x xs =>
    have hx : x ≠ dquote := fun h => hrest (by simp [h])
    simp [hx]

theorem parseLineLoop_delim (c : Char) (rest cur : JSString) (res : List JSString)
    (hc : c ≠ dquote) :
    parseLineLoop [c] (c :: rest) cur false res
      = parseLineLoop [c] rest [] false (res ++ [trim cur]) := by
  rw [parseLineLoop.eq_def]
  simp [hc]

theorem parseLineLoop_other (d : JSString) (c : Char) (rest cur : JSString) (q : Bool)
    (res : List JSString) (hc : c ≠ dquote) (hd : ¬ ([c] = d ∧ q = false)) :
    parseLineLoop d (c :: rest) cur q res
      = parseLineLoop d rest (cur ++ [c]) q res := by
  rw [parseLineLoop.eq_def]
  simp only [hc, if_false, hd]

theorem parseLineLoop_plain (dc : Char) (t : JSString) (hd : dc ∉ t) (hq : dquote ∉ t)
    (rest cur : JSString) (q : Bool) (res : List JSString) :
    parseLineLoop [dc] (t ++ rest) cur q res
      = parseLineLoop [dc] rest (cur ++ t) q res := by
  induction t generalizing cur with
  | nil => simp
  | cons c t ih =>
    have hc1 : c ≠ dquote := fun h => hq (by simp [h])
    have hc2 : c ≠ dc := fun h => hd (by simp [h])
    have hd2 : dc ∉ t := fun h => hd (List.mem_cons_of_mem _ h)
    have hq2 : dquote ∉ t := fun h => hq (List.mem_cons_of_mem _ h)
    rw [List.cons_append, parseLineLoop_other _ _ _ _ _ _ hc1 (by simp [hc2]), ih hd2 hq2]
    simp

theorem parseLineLoop_quoted (d : JSString) (c rest cur : JSString)
    (res : List JSString) (hrest : rest.head? ≠ some dquote) :
    parseLineLoop d (escapeQuotes c ++ dquote :: rest) cur true res
      = parseLineLoop d rest (cur ++ c) false res := by
  induction c generalizing cur with
  | nil => simpa [escapeQuotes] using parseLineLoop_close d rest cur res hrest
  | cons x xs ih =>
    by_cases hx : x = dquote
    · subst hx
      have : escapeQuotes (dquote :: xs) ++ dquote :: rest
          = dquote :: dquote :: (escapeQuotes xs ++ dquote :: rest) := by
        simp [escapeQuotes]
      rw [this, parseLineLoop_escaped, ih]
      simp
    · have : escapeQuotes (x :: xs) ++ dquote :: rest
          = x :: (escapeQuotes xs ++ dquote :: rest) := by
        simp [escapeQuotes, hx]
      rw [this, parseLineLoop_other _ _ _ _ _ _ hx (by simp), ih]
      simp

/-- One written field, followed by the end of the line or by a delimiter, is
read as its content appended to the field under construction. -/
theorem parseLineLoop_field (dc : Char) (f : Field) (hf : f.wellFormed dc = true)
    (rest cur : JSString) (res : List JSString) (hrest : rest.head? ≠ some dquote) :
    parseLineLoop [dc] (f.render ++ rest) cur false res
      = parseLineLoop [dc] rest (cur ++ f.content) false res := by
  cases f with
  | plain t =>
    have h : dc ∉ t ∧ dquote ∉ t := by simpa [Field.wellFormed] using hf
    exact parseLineLoop_plain dc t h.1 h.2 rest cur false res
  | quoted c =>
    have : (Field.quoted c).render ++ rest
        = dquote :: (escapeQuotes c ++ dquote :: rest) := by
      simp [Field.render]
    rw [this, parseLineLoop_open, parseLineLoop_quoted _ _ _ _ _ hrest]
    rfl

/-- A line written as fields separated by the delimiter is read back as the
trimmed contents of the fields, in order. -/
theorem parseLineLoop_fields (dc : Char) (hdc : dc ≠ dquote) (f : Field) (fs : List Field)
    (hwf : ∀ g ∈ f :: fs, g.wellFormed dc = true) (res : List JSString) :
    parseLineLoop [dc] (join [dc] ((f :: fs).map Field.render)) [] false res
      = res ++ (f :: fs).map (fun g => trim g.content) := by
  induction fs generalizing f res with
  | nil =>
    have h := parseLineLoop_field dc f (hwf f (by simp)) [] [] res (by simp)
    simp only [List.append_nil, List.nil_append] at h
    simp [join, h, parseLineLoop_nil]
  | cons g gs ih =>
    have h := parseLineLoop_field dc f (hwf f (by simp))
      (dc :: join [dc] ((g :: gs).map Field.render)) [] res (by simp [hdc])
    have hj : join [dc] ((f :: g :: gs).map Field.render)
        = f.render ++ dc :: join [dc] ((g :: gs).map Field.render) := by
      simp [join]
    rw [hj, h, parseLineLoop_delim _ _ _ _ hdc,
      ih g (fun x hx => hwf x (List.mem_cons_of_mem _ hx))]
    simp

/-- The white space `trim` removes stands at the two ends of the string. -/
theorem trim_decompose (s : JSString) :
    ∃ l r : JSString, s = l ++ trim s ++ r ∧
      l.all isJSWhiteSpace = true ∧ r.all isJSWhiteSpace = true := by
  refine ⟨s.takeWhile isJSWhiteSpace,
    ((trimStart s).reverse.takeWhile isJSWhiteSpace).reverse, ?_, ?_, ?_⟩
  · have h1 : s = s.takeWhile isJSWhiteSpace ++ trimStart s := by
      simp [trimStart, List.takeWhile_append_dropWhile]
    have h2 : trimStart s = trim s ++ ((trimStart s).reverse.takeWhile isJSWhiteSpace).reverse := by
      have := List.takeWhile_append_dropWhile isJSWhiteSpace (trimStart s).reverse
      have h3 := congrArg List.reverse this
      simp only [List.reverse_append, List.reverse_reverse] at h3
      simpa [trim, trimEnd] using h3.symm
    calc s = s.takeWhile isJSWhiteSpace ++ trimStart s := h1
      _ = _ := by rw [List.append_assoc, ← h2]
  · simp only [List.all_eq_true]
    intro c hc
    exact List.mem_takeWhile_imp hc
  · simp only [List.all_eq_true, List.mem_reverse]
    intro c hc
    exact List.mem_takeWhile_imp hc

/-- C1. `DataManager.parseLine` honours quoting: on a line written as fields
separated by the delimiter, each bare (free of delimiter and double quote) or
enclosed in double quotes with every quote of its content doubled, it returns
one field per written field, namely the trimmed content: a delimiter between
quotes does not split, the enclosing quotes are gone, and a doubled quote
gives one quote. -/
theorem parseLine_honours_quoting (dc : Char) (hdc : dc ≠ dquote) (f : Field)
    (fs : List Field) (hwf : ∀ g ∈ f :: fs, g.wellFormed dc = true) :
    parseLine (join [dc] ((f :: fs).map Field.render)) [dc]
      = (f :: fs).map (fun g => trim g.content) := by
  have h := parseLineLoop_fields dc hdc f fs hwf []
  simpa [parseLine] using h

/-- The line of the claim: `a,"b,c","d""e"`. -/
theorem parseLine_honours_quoting_witness :
    parseLine "a,\"b,c\",\"d\"\"e\"".toList ",".toList
      = ["a".toList, "b,c".toList, "d\"e".toList] :=
  parseLine_honours_quoting ',' (by decide) (.plain "a".toList)
    [.quoted "b,c".toList, .quoted "d\"e".toList] (by decide)

/-- C2. Round trip of the line tokenizer: for a delimiter among `;`, tab and
`,` and a non-empty list of strings holding neither the delimiter nor a double
quote, the line made by joining the strings with the delimiter is read back as
the same number of fields, each the trimmed original. -/
theorem parseLine_roundtrip (d : JSString) (hd : d ∈ candidates) (fields : List JSString)
    (hne : fields ≠ [])
    (hclean : ∀ f ∈ fields, ∀ c ∈ f, [c] ≠ d ∧ c ≠ dquote) :
    parseLine (join d fields) d = fields.map trim ∧
      (parseLine (join d fields) d).length = fields.length := by
  obtain ⟨dc, rfl, hdc⟩ : ∃ dc : Char, d = [dc] ∧ dc ≠ dquote := by
    simp only [candidates, semicolon, tab, comma, List.mem_cons, List.mem_singleton,
      List.not_mem_nil, or_false] at hd
    rcases hd with h | h | h
    · exact ⟨';', h, by decide⟩
    · exact ⟨Char.ofNat 0x09, h, by decide⟩
    · exact ⟨',', h, by decide⟩
  cases fields with
  | nil => exact absurd rfl hne
  | cons f fs =>
    have hwf : ∀ g ∈ (Field.plain f) :: fs.map Field.plain, g.wellFormed dc = true := by
      intro g hg
      have : ∃ t ∈ f :: fs, g = Field.plain t := by
        simp only [List.mem_cons, List.mem_map] at hg ⊢
        rcases hg with h | ⟨t, ht, h⟩
        · exact ⟨f, Or.inl rfl, h⟩
        · exact ⟨t, Or.inr ht, h.symm⟩
      obtain ⟨t, ht, rfl⟩ := this
      simp only [Field.wellFormed, Bool.and_eq_true, Bool.not_eq_true', List.contains_eq_any_beq,
        List.any_eq_false, beq_iff_eq]
      constructor
      · intro c hc h
        exact (hclean t ht c hc).1 (by simp [h])
      · intro c hc h
        exact (hclean t ht c hc).2 (by simp [h])
    have h := parseLineLoop_fields dc hdc (.plain f) (fs.map .plain) hwf []
    have hr : ((Field.plain f) :: fs.map Field.plain).map Field.render = f :: fs := by
      simp [Field.render, Function.comp_def]
    have hc : ((Field.plain f) :: fs.map Field.plain).map (fun g => trim g.content)
        = (f :: fs).map trim := by
      simp [Field.content, Function.comp_def]
    rw [hr, hc] at h
    have h2 : parseLine (join [dc] (f :: fs)) [dc] = (f :: fs).map trim := by
      simpa [parseLine] using h
    exact ⟨h2, by rw [h2]; simp⟩

/-- Four fields, one of them empty, joined with `;`; and the empty line, read
as one empty field. -/
theorem parseLine_roundtrip_witness :
    (parseLine "x; y ;;z".toList ";".toList
        = ["x".toList, "y".toList, [], "z".toList] ∧
      (parseLine "x; y ;;z".toList ";".toList).length = 4) ∧
    parseLine [] ",".toList = [[]] :=
  ⟨parseLine_roundtrip semicolon (by decide)
    ["x".toList, " y ".toList, [], "z".toList] (by decide) (by decide),
   (parseLine_roundtrip comma (by decide) [[]] (by decide) (by decide)).1⟩

/-- C3, as stated, fails: the white space inside the quotes of `" a "` is
trimmed away. -/
theorem parseLine_quoted_trimmed_counterexample :
    parseLine "\" a \",b".toList ",".toList = ["a".toList, "b".toList] ∧
      parseLine "\" a \",b".toList ",".toList ≠ [" a ".toList, "b".toList] := by
  decide

/-- C3, amended. `DataManager.parseLine` trims every field, quoted or not: on a
line of well-formed fields, a field written between double quotes is returned
as its content with the white space at its two ends removed and nothing else
changed. -/
theorem parseLine_trims_quoted (dc : Char) (hdc : dc ≠ dquote) (f : Field)
    (fs : List Field) (hwf : ∀ g ∈ f :: fs, g.wellFormed dc = true)
    (i : Nat) (c : JSString) (hi : (f :: fs)[i]? = some (Field.quoted c)) :
    (parseLine (join [dc] ((f :: fs).map Field.render)) [dc])[i]? = some (trim c) ∧
      ∃ l r : JSString, c = l ++ trim c ++ r ∧
        l.all isJSWhiteSpace = true ∧ r.all isJSWhiteSpace = true := by
  refine ⟨?_, trim_decompose c⟩
  have h := parseLineLoop_fields dc hdc f fs hwf []
  have h2 : parseLine (join [dc] ((f :: fs).map Field.render)) [dc]
      = (f :: fs).map (fun g => trim g.content) := by
    simpa [parseLine] using h
  rw [h2, List.getElem?_map, hi]
  rfl

/-- The line of the claim, `" a ",b`: its first field comes back as `a`. -/
theorem parseLine_trims_quoted_witness :
    (parseLine "\" a \",b".toList ",".toList)[0]? = some "a".toList :=
  (parseLine_trims_quoted ',' (by decide) (.quoted " a ".toList) [.plain "b".toList]
    (by decide) 0 " a ".toList (by decide)).1

/-! ## Facts about `parseCSV` -/

theorem trim_eq_nil_of_all (s : JSString) (h : ∀ c ∈ s, isJSWhiteSpace c = true) :
    trim s = [] := by
  have h1 : trimStart s = [] := by
    simp only [trimStart, List.dropWhile_eq_nil_iff]
    exact h
  simp [trim, h1, trimEnd]

theorem all_of_trim_eq_nil (s : JSString) (h : trim s = []) :
    ∀ c ∈ s, isJSWhiteSpace c = true := by
  obtain ⟨l, r, hs, hl, hr⟩ := trim_decompose s
  rw [h] at hs
  intro c hc
  rw [hs] at hc
  simp only [List.append_nil, List.mem_append] at hc
  rcases hc with hc | hc
  · exact List.all_eq_true.mp hl c hc
  · exact List.all_eq_true.mp hr c hc

theorem splitLinesLoop_nil (cur : JSString) : splitLinesLoop [] cur = [cur] := rfl

theorem splitLinesLoop_lf (rest cur : JSString) :
    splitLinesLoop (lineFeed :: rest) cur = cur :: splitLinesLoop rest [] := by
  rw [splitLinesLoop.eq_def]; simp

theorem splitLinesLoop_crlf (rest cur : JSString) :
    splitLinesLoop (carriageReturn :: lineFeed :: rest) cur
      = cur :: splitLinesLoop rest [] := by
  rw [splitLinesLoop.eq_def]
  have : carriageReturn ≠ lineFeed := by decide
  simp [this]

theorem splitLinesLoop_other (c : Char) (rest cur : JSString) (hc : c ≠ lineFeed)
    (h : c ≠ carriageReturn ∨ rest.head? ≠ some lineFeed) :
    splitLinesLoop (c :: rest) cur = splitLinesLoop rest (cur ++ [c]) := by
  rw [splitLinesLoop.eq_def]
  by_cases hcr : c = carriageReturn
  · have hne : carriageReturn ≠ lineFeed := by decide
    cases rest with
    | nil => simp [hcr, hne]
    | cons y ys =>
      have hy : y ≠ lineFeed := by
        rcases h with h | h
        · exact absurd hcr h
        · intro e; exact h (by simp [e])
      simp [hcr, hne, hy]
  · simp [hc, hcr]

theorem mem_of_mem_splitLinesLoop (n : Nat) (s cur l : JSString) (hn : s.length ≤ n)
    (hl : l ∈ splitLinesLoop s cur) (c : Char) (hc : c ∈ l) : c ∈ cur ∨ c ∈ s := by
  induction n generalizing s cur with
  | zero =>
    have : s = [] := List.length_eq_zero.mp (Nat.le_zero.mp hn)
    subst this
    simp only [splitLinesLoop_nil, List.mem_singleton] at hl
    subst hl
    exact Or.inl hc
  | succ n ih =>
    cases s with
    | nil =>
      simp only [splitLinesLoop_nil, List.mem_singleton] at hl
      subst hl
      exact Or.inl hc
    | cons x rest =>
      have hrest : rest.length ≤ n := by simpa using hn
      by_cases hx : x = lineFeed
      · subst hx
        rw [splitLinesLoop_lf, List.mem_cons] at hl
        rcases hl with h | h
        · subst h; exact Or.inl hc
        · rcases ih rest [] hrest h with h2 | h2
          · simp at h2
          · exact Or.inr (List.mem_cons_of_mem _ h2)
      · by_cases hsplit : x = carriageReturn ∧ rest.head? = some lineFeed
        · obtain ⟨hx2, hh⟩ := hsplit
          cases rest with
          | nil => simp at hh
          | cons y ys =>
            have hy : y = lineFeed := by simpa using hh
            subst hx2 hy
            rw [splitLinesLoop_crlf, List.mem_cons] at hl
            rcases hl with h | h
            · subst h; exact Or.inl hc
            · have hys : ys.length ≤ n := by
                simp only [List.length_cons] at hrest; omega
              rcases ih ys [] hys h with h2 | h2
              · simp at h2
              · exact Or.inr (List.mem_cons_of_mem _ (List.mem_cons_of_mem _ h2))
        · have h' : x ≠ carriageReturn ∨ rest.head? ≠ some lineFeed := by
            by_cases h1 : x = carriageReturn
            · exact Or.inr (fun h2 => hsplit ⟨h1, h2⟩)
            · exact Or.inl h1
          rw [splitLinesLoop_other x rest cur hx h'] at hl
          rcases ih rest (cur ++ [x]) hrest hl with h2 | h2
          · simp only [List.mem_append, List.mem_singleton] at h2
            rcases h2 with h3 | h3
            · exact Or.inl h3
            · exact Or.inr (by simp [h3])
          · exact Or.inr (List.mem_cons_of_mem _ h2)

theorem nonBlankLines_eq_nil_of_all (csv : JSString)
    (h : ∀ c ∈ csv, isJSWhiteSpace c = true) : nonBlankLines csv = [] := by
  simp only [nonBlankLines, List.filter_eq_nil_iff, bne_iff_ne, ne_eq, Decidable.not_not]
  intro l hl
  apply trim_eq_nil_of_all
  intro c hc
  rcases mem_of_mem_splitLinesLoop csv.length csv [] l (Nat.le_refl _) hl c hc with h2 | h2
  · simp at h2
  · exact h c h2

theorem parseRowsLoop_eq (headers : List JSString) (d : JSString) (ls : List JSString)
    (data : List Row) :
    parseRowsLoop headers d ls data = data ++ ls.map (buildRow headers d) := by
  induction ls generalizing data with
  | nil => simp [parseRowsLoop]
  | cons l ls ih => simp [parseRowsLoop, ih]

/-- With two non-blank lines or more, `parseCSV` returns the rows of the data
lines, in order. -/
theorem parseCSV_eq_map (csv : JSString) (hL : 2 ≤ (nonBlankLines csv).length) :
    parseCSV csv = ((nonBlankLines csv).drop 1).map
      (buildRow (csvHeaders csv) (csvDelimiter csv)) := by
  have h1 : ¬ (csv = [] ∨ trim csv = []) := by
    intro h
    have hall : ∀ c ∈ csv, isJSWhiteSpace c = true := by
      rcases h with h | h
      · subst h; simp
      · exact all_of_trim_eq_nil csv h
    rw [nonBlankLines_eq_nil_of_all csv hall] at hL
    simp at hL
  have h2 : ¬ (nonBlankLines csv).length < 2 := by omega
  simp only [parseCSV, h1, if_false, h2, parseRowsLoop_eq, List.nil_append]
  rfl

theorem parseLineLoop_length_pos (d : JSString) (n : Nat) (line cur : JSString) (q : Bool)
    (res : List JSString) (hn : line.length ≤ n) :
    res.length < (parseLineLoop d line cur q res).length := by
  induction n generalizing line cur q res with
  | zero =>
    have : line = [] := List.length_eq_zero.mp (Nat.le_zero.mp hn)
    subst this
    simp [parseLineLoop_nil]
  | succ n ih =>
    cases line with
    | nil => simp [parseLineLoop_nil]
    | cons c rest =>
      have hrest : rest.length ≤ n := by simpa using hn
      rw [parseLineLoop.eq_def]
      simp only
      split_ifs with h1 h2 h3
      · cases rest with
        | nil => exact ih [] _ _ _ (by simp)
        | cons y ys =>
          simp only
          split_ifs with h4
          · exact ih ys _ _ _ (by simp only [List.length_cons] at hrest; omega)
          · exact ih (y :: ys) _ _ _ hrest
      · exact ih rest _ _ _ hrest
      · have := ih rest [] q (res ++ [trim cur]) hrest
        simp only [List.length_append, List.length_singleton] at this
        omega
      · exact ih rest _ _ _ hrest

/-- At least one field is returned by `parseLine`. -/
theorem parseLine_length_pos (line d : JSString) : 1 ≤ (parseLine line d).length := by
  have := parseLineLoop_length_pos d line.length line [] false [] (Nat.le_refl _)
  simpa [parseLine] using this

theorem csvHeaders_length_pos (csv : JSString) : 1 ≤ (csvHeaders csv).length :=
  parseLine_length_pos _ _

/-- C4. Ragged-row merge in `DataManager.parseCSV`: when data line `i + 1`
tokenizes into more fields than the header has columns (`H`), row `i` is
returned (not dropped) and is built from `H` values aligned with the header:
the first `H - 1` fields in place, and at position `H - 1` all the fields from
that position onward rejoined with the detected delimiter. -/
theorem parseCSV_ragged_row_merge (csv : JSString) (i : Nat)
    (hi : i + 1 < (nonBlankLines csv).length)
    (hmore : (csvHeaders csv).length
      < (parseLine ((nonBlankLines csv).getD (i + 1) []) (csvDelimiter csv)).length) :
    (parseCSV csv)[i]? = some (rowOfValues (csvHeaders csv)
        ((parseLine ((nonBlankLines csv).getD (i + 1) []) (csvDelimiter csv)).take
            ((csvHeaders csv).length - 1)
          ++ [join (csvDelimiter csv)
            ((parseLine ((nonBlankLines csv).getD (i + 1) []) (csvDelimiter csv)).drop
              ((csvHeaders csv).length - 1))])) ∧
      ((parseLine ((nonBlankLines csv).getD (i + 1) []) (csvDelimiter csv)).take
            ((csvHeaders csv).length - 1)
          ++ [join (csvDelimiter csv)
            ((parseLine ((nonBlankLines csv).getD (i + 1) []) (csvDelimiter csv)).drop
              ((csvHeaders csv).length - 1))]).length = (csvHeaders csv).length ∧
      (∀ j, j < (csvHeaders csv).length - 1 →
        ((parseLine ((nonBlankLines csv).getD (i + 1) []) (csvDelimiter csv)).take
            ((csvHeaders csv).length - 1)
          ++ [join (csvDelimiter csv)
            ((parseLine ((nonBlankLines csv).getD (i + 1) []) (csvDelimiter csv)).drop
              ((csvHeaders csv).length - 1))])[j]?
        = (parseLine ((nonBlankLines csv).getD (i + 1) []) (csvDelimiter csv))[j]?) ∧
      ((parseLine ((nonBlankLines csv).getD (i + 1) []) (csvDelimiter csv)).take
            ((csvHeaders csv).length - 1)
          ++ [join (csvDelimiter csv)
            ((parseLine ((nonBlankLines csv).getD (i + 1) []) (csvDelimiter csv)).drop
              ((csvHeaders csv).length - 1))])[(csvHeaders csv).length - 1]?
        = some (join (csvDelimiter csv)
            ((parseLine ((nonBlankLines csv).getD (i + 1) []) (csvDelimiter csv)).drop
              ((csvHeaders csv).length - 1))) := by
  have hH := csvHeaders_length_pos csv
  generalize hf : parseLine ((nonBlankLines csv).getD (i + 1) []) (csvDelimiter csv) = fields
    at hmore ⊢
  refine ⟨?_, ?_, ?_, ?_⟩
  · rw [parseCSV_eq_map csv (by omega)]
    have hget : ((nonBlankLines csv).drop 1)[i]? = some ((nonBlankLines csv).getD (i + 1) []) := by
      rw [List.getElem?_drop, Nat.add_comm 1 i, List.getD_eq_getElem?_getD,
        List.getElem?_eq_getElem hi]
      rfl
    rw [List.getElem?_map, hget]
    simp only [Option.map_some', buildRow, alignedValues, hf, mergeExtras, hmore, if_true,
      gt_iff_lt]
    congr 2
    simp only [padMissing, List.length_append, List.length_take, List.length_singleton]
    have : ¬ (min ((csvHeaders csv).length - 1) fields.length + 1 < (csvHeaders csv).length) := by
      omega
    simp [this]
  · simp only [List.length_append, List.length_take, List.length_singleton]
    omega
  · intro j hj
    rw [List.getElem?_append_left (by simp only [List.length_take]; omega),
      List.getElem?_take_of_lt hj]
  · have hlen : (fields.take ((csvHeaders csv).length - 1)).length
        = (csvHeaders csv).length - 1 := by
      simp only [List.length_take]; omega
    rw [List.getElem?_append_right (by omega), hlen]
    simp

/-- The witness of the claim: header `H1,H2,H3` and row `v1,v2,v3,v4`. -/
theorem parseCSV_ragged_row_merge_witness :
    (parseCSV "H1,H2,H3\nv1,v2,v3,v4".toList)[0]?
      = some [("h1".toList, .str "v1".toList), ("h2".toList, .str "v2".toList),
          ("h3".toList, .str "v3,v4".toList)] :=
  (parseCSV_ragged_row_merge "H1,H2,H3\nv1,v2,v3,v4".toList 0
    (by decide!) (by decide!)).1.trans
    parseCSV_samples.2.2.2.2.2.2.2.2.2.2.2.1

/-- C5. No rows lost and order kept: a text with `L ≥ 2` non-blank lines
gives `L - 1` rows, row `i` being the row built from non-blank line `i + 1`;
and a data line with fewer fields than the header has its values completed
with empty strings, each stored as the empty string. -/
theorem parseCSV_rows_in_order (csv : JSString) (hL : 2 ≤ (nonBlankLines csv).length) :
    (parseCSV csv).length = (nonBlankLines csv).length - 1 ∧
      (∀ i, i + 1 < (nonBlankLines csv).length →
        (parseCSV csv)[i]? = some (buildRow (csvHeaders csv) (csvDelimiter csv)
          ((nonBlankLines csv).getD (i + 1) []))) ∧
      (∀ line, (parseLine line (csvDelimiter csv)).length < (csvHeaders csv).length →
        alignedValues (csvHeaders csv) (csvDelimiter csv) line
          = parseLine line (csvDelimiter csv) ++ List.replicate
              ((csvHeaders csv).length - (parseLine line (csvDelimiter csv)).length) [] ∧
        ∀ j, (parseLine line (csvDelimiter csv)).length ≤ j → j < (csvHeaders csv).length →
          coerceValue ((alignedValues (csvHeaders csv) (csvDelimiter csv) line).getD j [])
            = .str []) := by
  have hmap := parseCSV_eq_map csv hL
  refine ⟨?_, ?_, ?_⟩
  · rw [hmap]; simp
  · intro i hi
    rw [hmap, List.getElem?_map, List.getElem?_drop, Nat.add_comm 1 i,
      List.getD_eq_getElem?_getD, List.getElem?_eq_getElem hi]
    rfl
  · intro line hless
    have hal : alignedValues (csvHeaders csv) (csvDelimiter csv) line
        = parseLine line (csvDelimiter csv) ++ List.replicate
            ((csvHeaders csv).length - (parseLine line (csvDelimiter csv)).length) [] := by
      have h1 : ¬ (parseLine line (csvDelimiter csv)).length > (csvHeaders csv).length := by
        omega
      simp [alignedValues, mergeExtras, h1, padMissing, hless]
    refine ⟨hal, ?_⟩
    intro j hj1 hj2
    rw [hal, List.getD_eq_getElem?_getD, List.getElem?_append_right hj1,
      List.getElem?_replicate]
    have : j - (parseLine line (csvDelimiter csv)).length
        < (csvHeaders csv).length - (parseLine line (csvDelimiter csv)).length := by omega
    simp only [this, if_true, Option.getD_some]
    decide

/-- A header of three columns, a full line, a blank line and a short line. -/
theorem parseCSV_rows_in_order_witness :
    (parseCSV "a;b;c\n1;2;3\n\nx".toList).length = 2 ∧
      (parseCSV "a;b;c\n1;2;3\n\nx".toList)[1]?
        = some [("a".toList, .str "x".toList), ("b".toList, .str []), ("c".toList, .str [])] :=
  ⟨(parseCSV_rows_in_order "a;b;c\n1;2;3\n\nx".toList (by decide!)).1.trans (by decide!),
   ((parseCSV_rows_in_order "a;b;c\n1;2;3\n\nx".toList (by decide!)).2.1 1
      (by decide!)).trans parseCSV_samples.2.2.2.2.2.2.2.2.2.2.2.2⟩

/-- C6. Empty-input safety: a text that is empty, made of white space only, or
with fewer than two non-blank lines gives the empty list. -/
theorem parseCSV_empty_input (csv : JSString)
    (h : csv = [] ∨ csv.all isJSWhiteSpace = true ∨ (nonBlankLines csv).length < 2) :
    parseCSV csv = [] := by
  rcases h with h | h | h
  · simp [parseCSV, h]
  · have : trim csv = [] := trim_eq_nil_of_all csv (List.all_eq_true.mp h)
    simp [parseCSV, this]
  · simp only [parseCSV]
    split_ifs <;> rfl

/-- A header-only sheet. -/
theorem parseCSV_empty_input_witness :
    parseCSV "Commune;Region;Total\r\n".toList = [] :=
  parseCSV_empty_input _ (Or.inr (Or.inr (by decide!)))

/-! ## Facts about the choice of the delimiter -/

theorem scoreForLoop_eq (d : JSString) (h N : Nat) (ls : List JSString) (i ok : Nat) :
    scoreForLoop d h N ls i ok
      = ok + (ls.take (N + 1 - i)).countP (fun l => decide ((parseLine l d).length = h)) := by
  induction ls generalizing i ok with
  | nil => simp [scoreForLoop]
  | cons l rest ih =>
    by_cases hi : i ≤ N
    · have e : N + 1 - i = (N + 1 - (i + 1)) + 1 := by omega
      rw [scoreForLoop, if_pos hi, ih, e, List.take_succ_cons, List.countP_cons]
      by_cases hl : (parseLine l d).length = h
      · simp [hl]; omega
      · simp [hl]
    · have e : N + 1 - i = 0 := by omega
      rw [scoreForLoop, if_neg hi, e]
      simp

/-- The score of a candidate, in closed form. -/
theorem scoreFor_eq (lines : List JSString) (d : JSString) :
    scoreFor lines d =
      if (parseLine (lines.headD []) d).length ≤ 1 then 0
      else ((lines.drop 1).take (min 50 (lines.length - 1))).countP
        (fun l => decide ((parseLine l d).length = (parseLine (lines.headD []) d).length)) := by
  unfold scoreFor
  simp only
  split_ifs with h
  · rfl
  · rw [scoreForLoop_eq]
    have e : (lines.drop 1).take (min 50 (max 5 (lines.length - 1)) + 1 - 1)
        = (lines.drop 1).take (min 50 (lines.length - 1)) := by
      rw [List.take_eq_take]
      simp only [List.length_drop]
      omega
    rw [e]
    simp

theorem pickBest_cases (lines : List JSString) :
    (pickBest lines = { d := semicolon, score := scoreFor lines semicolon } ∧
        scoreFor lines tab ≤ scoreFor lines semicolon ∧
        scoreFor lines comma ≤ scoreFor lines semicolon) ∨
    (pickBest lines = { d := tab, score := scoreFor lines tab } ∧
        scoreFor lines semicolon < scoreFor lines tab ∧
        scoreFor lines comma ≤ scoreFor lines tab) ∨
    (pickBest lines = { d := comma, score := scoreFor lines comma } ∧
        scoreFor lines semicolon < scoreFor lines comma ∧
        scoreFor lines tab < scoreFor lines comma) := by
  simp only [pickBest, candidates, List.foldl_cons, List.foldl_nil, bestStep]
  have h0 : ((scoreFor lines semicolon : Nat) : Int) > -1 := by omega
  simp only [h0, if_true]
  by_cases h1 : ((scoreFor lines tab : Nat) : Int) > (scoreFor lines semicolon : Nat)
  · simp only [h1, if_true]
    by_cases h2 : ((scoreFor lines comma : Nat) : Int) > (scoreFor lines tab : Nat)
    · simp only [h2, if_true]
      right; right
      exact ⟨trivial, by omega, by omega⟩
    · simp only [h2, if_false]
      right; left
      exact ⟨trivial, by omega, by omega⟩
  · simp only [h1, if_false]
    by_cases h2 : ((scoreFor lines comma : Nat) : Int) > (scoreFor lines semicolon : Nat)
    · simp only [h2, if_true]
      right; right
      exact ⟨trivial, by omega, by omega⟩
    · simp only [h2, if_false]
      left
      exact ⟨trivial, by omega, by omega⟩

theorem fallbackDelimiter_mem (lines : List JSString) :
    fallbackDelimiter lines = semicolon ∨ fallbackDelimiter lines = comma := by
  unfold fallbackDelimiter
  simp only
  split_ifs
  · exact Or.inl rfl
  · exact Or.inr rfl

/-- C7. Delimiter choice in `DataManager.parseCSV`: the delimiter is one of
`;`, tab, `,`; the score of a candidate is 0 when the header tokenizes to at
most one field and otherwise the number of the first `min(50, L - 1)` data
lines with as many fields as the header; and when some candidate scores above
0 the chosen delimiter has the greatest score and comes first, in the order
`;`, tab, `,`, among the candidates with that score. -/
theorem detectDelimiter_choice (lines : List JSString) :
    detectDelimiter lines ∈ candidates ∧
      (∀ d, scoreFor lines d =
        if (parseLine (lines.headD []) d).length ≤ 1 then 0
        else ((lines.drop 1).take (min 50 (lines.length - 1))).countP
          (fun l => decide ((parseLine l d).length = (parseLine (lines.headD []) d).length))) ∧
      ((∃ c ∈ candidates, 0 < scoreFor lines c) →
        (∀ c ∈ candidates, scoreFor lines c ≤ scoreFor lines (detectDelimiter lines)) ∧
        (∀ c ∈ candidates, scoreFor lines c = scoreFor lines (detectDelimiter lines) →
          candidates.indexOf (detectDelimiter lines) ≤ candidates.indexOf c)) := by
  refine ⟨?_, scoreFor_eq lines, ?_⟩
  · unfold detectDelimiter
    simp only
    split_ifs with h
    · rcases fallbackDelimiter_mem lines with e | e <;> rw [e] <;> decide
    · rcases pickBest_cases lines with ⟨e, _⟩ | ⟨e, _⟩ | ⟨e, _⟩ <;> rw [e] <;> simp [candidates]
  · rintro ⟨c0, hc0, hpos⟩
    have hc0' : c0 = semicolon ∨ c0 = tab ∨ c0 = comma := by
      simpa [candidates] using hc0
    have hi1 : candidates.indexOf semicolon = 0 := by decide
    have hi2 : candidates.indexOf tab = 1 := by decide
    have hi3 : candidates.indexOf comma = 2 := by decide
    have hmem : ∀ c ∈ candidates, c = semicolon ∨ c = tab ∨ c = comma := by
      intro c hc; simpa [candidates] using hc
    rcases pickBest_cases lines with ⟨e, h1, h2⟩ | ⟨e, h1, h2⟩ | ⟨e, h1, h2⟩
    all_goals
      have hd : detectDelimiter lines = (pickBest lines).d := by
        unfold detectDelimiter
        simp only
        rw [if_neg]
        rw [e]
        simp only [not_le]
        rcases hc0' with r | r | r <;> subst r <;> omega
      rw [hd, e]
      simp only
      constructor
      · intro c hc
        rcases hmem c hc with r | r | r <;> subst r <;> omega
      · intro c hc heq
        rcases hmem c hc with r | r | r <;> subst r <;> simp only [hi1, hi2, hi3] <;> omega

/-- A tie between `;` and `,` goes to `;`. -/
theorem detectDelimiter_choice_witness :
    candidates.indexOf (detectDelimiter ["a;b,c".toList, "1;2,3".toList])
      ≤ candidates.indexOf comma :=
  ((detectDelimiter_choice ["a;b,c".toList, "1;2,3".toList]).2.2
    ⟨comma, by decide, by decide!⟩).2 comma (by decide) (by decide!)

theorem foldl_countChar (c : Char) (ls : List JSString) (k : Nat) :
    ls.foldl (fun n l => n + countChar c l) k = k + countChar c ls.flatten := by
  induction ls generalizing k with
  | nil => simp [countChar]
  | cons l ls ih =>
    simp only [List.foldl_cons, ih, List.flatten_cons]
    simp only [countChar, List.count_append]
    omega

/-- C8. Delimiter fallback: when no candidate delimiter scores above 0,
`DataManager.parseCSV` uses `;` if the first five non-blank lines hold strictly
more `;` than `,`, and `,` otherwise; tab is never chosen this way. -/
theorem detectDelimiter_fallback (lines : List JSString)
    (h : ∀ c ∈ candidates, scoreFor lines c = 0) :
    detectDelimiter lines =
        (if countChar ',' (lines.take 5).flatten < countChar ';' (lines.take 5).flatten
          then semicolon else comma) ∧
      detectDelimiter lines ≠ tab := by
  have h1 : scoreFor lines semicolon = 0 := h _ (by decide)
  have h2 : scoreFor lines tab = 0 := h _ (by decide)
  have h3 : scoreFor lines comma = 0 := h _ (by decide)
  have hs : (pickBest lines).score ≤ 0 := by
    rcases pickBest_cases lines with ⟨e, _⟩ | ⟨e, _⟩ | ⟨e, _⟩ <;> rw [e] <;> simp only <;> omega
  have hd : detectDelimiter lines =
      (if countChar ',' (lines.take 5).flatten < countChar ';' (lines.take 5).flatten
        then semicolon else comma) := by
    unfold detectDelimiter
    simp only [hs, if_true, fallbackDelimiter, foldl_countChar, Nat.zero_add, gt_iff_lt]
  refine ⟨hd, ?_⟩
  rw [hd]
  split_ifs <;> decide

/-- A sheet of one column: no candidate splits the header. -/
theorem detectDelimiter_fallback_witness :
    detectDelimiter ["name".toList, "x;y;z,t".toList] = semicolon :=
  (detectDelimiter_fallback ["name".toList, "x;y;z,t".toList] (by decide!)).1.trans
    (by decide!)

/-! ## Facts about the numeric coercion -/

theorem takeWhile_append_stop {α : Type} (p : α → Bool) (a b : List α) (x : α)
    (ha : ∀ c ∈ a, p c = true) (hx : p x = false) :
    (a ++ x :: b).takeWhile p = a := by
  induction a with
  | nil => simp [List.takeWhile, hx]
  | cons y ys ih =>
    have hy : p y = true := ha y (by simp)
    simp only [List.cons_append, List.takeWhile_cons, hy, if_true]
    rw [ih (fun c hc => ha c (List.mem_cons_of_mem _ hc))]

theorem dropWhile_append_stop {α : Type} (p : α → Bool) (a b : List α) (x : α)
    (ha : ∀ c ∈ a, p c = true) (hx : p x = false) :
    (a ++ x :: b).dropWhile p = x :: b := by
  induction a with
  | nil => simp [List.dropWhile, hx]
  | cons y ys ih =>
    have hy : p y = true := ha y (by simp)
    simp only [List.cons_append, List.dropWhile_cons, hy, if_true]
    rw [ih (fun c hc => ha c (List.mem_cons_of_mem _ hc))]

theorem takeWhile_eq_self_of_all {α : Type} (p : α → Bool) (a : List α)
    (ha : ∀ c ∈ a, p c = true) : a.takeWhile p = a := by
  rw [List.takeWhile_eq_self_iff]; exact ha

theorem dropWhile_eq_nil_of_all {α : Type} (p : α → Bool) (a : List α)
    (ha : ∀ c ∈ a, p c = true) : a.dropWhile p = [] := by
  rw [List.dropWhile_eq_nil_iff]; exact ha

theorem scaleByPowerOfTen_neg (m : ℚ) (n : Nat) :
    scaleByPowerOfTen m (0 - (n : Int)) = m / (10 : ℚ) ^ n := by
  unfold scaleByPowerOfTen
  by_cases hn : n = 0
  · subst hn; simp
  · have : ¬ (0 : Int) ≤ 0 - (n : Int) := by omega
    rw [if_neg this]
    congr 2
    omega

theorem isDigit_ne_of {c d : Char} (hc : isDigit c = true) (hd : isDigit d = false) :
    c ≠ d := by
  intro h; subst h; rw [hc] at hd; exact absurd hd (by decide)

theorem not_whiteSpace_of_isDigit {c : Char} (hc : isDigit c = true) :
    isJSWhiteSpace c = false := by
  simp only [isDigit, Bool.and_eq_true, decide_eq_true_eq] at hc
  unfold isJSWhiteSpace
  generalize c.toNat = n at hc
  obtain ⟨h1, h2⟩ := hc
  interval_cases n <;> rfl

/-- The value of `parseFloat` on digits, a point and digits. -/
theorem parseUnsigned_point (neg : Bool) (int frac : JSString) (hne : int ≠ [])
    (hint : ∀ c ∈ int, isDigit c = true) (hfrac : ∀ c ∈ frac, isDigit c = true) :
    parseUnsigned neg (int ++ '.' :: frac)
      = .finite (if neg then -((digitsValue (int ++ frac) : ℚ) / (10 : ℚ) ^ frac.length)
          else (digitsValue (int ++ frac) : ℚ) / (10 : ℚ) ^ frac.length) := by
  obtain ⟨c, cs, rfl⟩ := List.exists_cons_of_ne_nil hne
  have hc : isDigit c = true := hint c (by simp)
  have hcI : c ≠ 'I' := isDigit_ne_of hc (by decide)
  have hpre : ("Infinity".toList.isPrefixOf ((c :: cs) ++ '.' :: frac)) = false := by
    have : "Infinity".toList = 'I' :: "nfinity".toList := rfl
    rw [this]
    simp [List.isPrefixOf, Ne.symm hcI]
  have ht : ((c :: cs) ++ '.' :: frac).takeWhile isDigit = c :: cs :=
    takeWhile_append_stop isDigit _ _ _ hint (by decide)
  have hd : ((c :: cs) ++ '.' :: frac).dropWhile isDigit = '.' :: frac :=
    dropWhile_append_stop isDigit _ _ _ hint (by decide)
  have hft : frac.takeWhile isDigit = frac := takeWhile_eq_self_of_all _ _ hfrac
  have hfd : frac.dropWhile isDigit = [] := dropWhile_eq_nil_of_all _ _ hfrac
  unfold parseUnsigned
  rw [hpre]
  simp only [Bool.false_eq_true, if_false, ht, hd, hft, hfd]
  simp only [exponentPart, scaleByPowerOfTen_neg]
  simp

/-- The value of `parseFloat` on digits alone. -/
theorem parseUnsigned_digits (neg : Bool) (int : JSString) (hne : int ≠ [])
    (hint : ∀ c ∈ int, isDigit c = true) :
    parseUnsigned neg int
      = .finite (if neg then -(digitsValue int : ℚ) else (digitsValue int : ℚ)) := by
  obtain ⟨c, cs, rfl⟩ := List.exists_cons_of_ne_nil hne
  have hc : isDigit c = true := hint c (by simp)
  have hcI : c ≠ 'I' := isDigit_ne_of hc (by decide)
  have hpre : ("Infinity".toList.isPrefixOf (c :: cs)) = false := by
    have : "Infinity".toList = 'I' :: "nfinity".toList := rfl
    rw [this]
    simp [List.isPrefixOf, Ne.symm hcI]
  have ht : (c :: cs).takeWhile isDigit = c :: cs := takeWhile_eq_self_of_all _ _ hint
  have hd : (c :: cs).dropWhile isDigit = [] := dropWhile_eq_nil_of_all _ _ hint
  unfold parseUnsigned
  rw [hpre]
  simp only [Bool.false_eq_true, if_false, ht, hd]
  simp [exponentPart, scaleByPowerOfTen]

/-- The sign a cell is written with. -/
theorem parseFloat_signed (neg : Bool) (u : JSString) (hu : ∃ c cs, u = c :: cs ∧ isDigit c = true) :
    parseFloat ((if neg then ['-'] else []) ++ u) = parseUnsigned neg u := by
  obtain ⟨c, cs, rfl, hc⟩ := hu
  have hws : isJSWhiteSpace c = false := not_whiteSpace_of_isDigit hc
  cases neg with
  | true =>
    have : trimStart (['-'] ++ c :: cs) = '-' :: c :: cs := by
      simp [trimStart, List.dropWhile, show isJSWhiteSpace '-' = false by decide]
    simp only [if_true, parseFloat, this]
  | false =>
    have : trimStart ([] ++ c :: cs) = c :: cs := by
      simp [trimStart, List.dropWhile, hws]
    have h1 : c ≠ '-' := isDigit_ne_of hc (by decide)
    have h2 : c ≠ '+' := isDigit_ne_of hc (by decide)
    simp only [Bool.false_eq_true, if_false, parseFloat, this]
    split
    · rename_i h; simp only [List.cons.injEq] at h; exact absurd h.1 h1
    · rename_i h; simp only [List.cons.injEq] at h; exact absurd h.1 h2
    · rfl

theorem trimEnd_concat (s : JSString) (z : Char) (hz : isJSWhiteSpace z = false) :
    trimEnd (s ++ [z]) = s ++ [z] := by
  simp [trimEnd, List.dropWhile, hz]

theorem dropWhile_append_of_exists {α : Type} (p : α → Bool) (a b : List α)
    (h : ∃ c ∈ a, p c = false) : (a ++ b).dropWhile p = a.dropWhile p ++ b := by
  induction a with
  | nil => obtain ⟨c, hc, _⟩ := h; simp at hc
  | cons y ys ih =>
    by_cases hy : p y = true
    · obtain ⟨c, hc, hpc⟩ := h
      have hc2 : c ∈ ys := by
        rcases List.mem_cons.mp hc with e | e
        · subst e; rw [hy] at hpc; exact absurd hpc (by decide)
        · exact e
      simp only [List.cons_append, List.dropWhile_cons, hy, if_true]
      exact ih ⟨c, hc2, hpc⟩
    · simp [List.dropWhile_cons, hy]

/-- What `trim` leaves of a cell written as an optional `-`, a body holding a
character that is not white space, and a tail ending in such a character. -/
theorem trim_signed (neg : Bool) (w tl : JSString) (z : Char)
    (hw : ∃ c ∈ w, isJSWhiteSpace c = false) (hz : isJSWhiteSpace z = false) :
    trim ((if neg then ['-'] else []) ++ w ++ (tl ++ [z]))
      = (if neg then ['-'] else []) ++ (if neg then w else trimStart w) ++ (tl ++ [z]) := by
  cases neg with
  | true =>
    have h1 : trimStart (['-'] ++ w ++ (tl ++ [z])) = ['-'] ++ w ++ (tl ++ [z]) := by
      simp [trimStart, List.dropWhile, show isJSWhiteSpace '-' = false by decide]
    simp only [if_true, trim, h1]
    have : ['-'] ++ w ++ (tl ++ [z]) = (['-'] ++ w ++ tl) ++ [z] := by simp
    rw [this, trimEnd_concat _ _ hz]
  | false =>
    have h1 : trimStart ([] ++ w ++ (tl ++ [z])) = trimStart w ++ (tl ++ [z]) := by
      simp only [trimStart, List.nil_append]
      exact dropWhile_append_of_exists _ _ _ hw
    simp only [Bool.false_eq_true, if_false, trim, h1]
    have : trimStart w ++ (tl ++ [z]) = (trimStart w ++ tl) ++ [z] := by simp
    rw [this, trimEnd_concat _ _ hz]
    simp

theorem removeWhiteSpace_trimStart (w : JSString) :
    removeWhiteSpace (trimStart w) = removeWhiteSpace w := by
  induction w with
  | nil => rfl
  | cons c cs ih =>
    by_cases hc : isJSWhiteSpace c = true
    · simp only [trimStart, List.dropWhile_cons, hc, if_true] at ih ⊢
      simp [removeWhiteSpace, List.filter_cons, hc] at ih ⊢
      exact ih
    · simp [trimStart, List.dropWhile_cons, hc]

theorem trimStart_head (w : JSString) (hw : ∃ c ∈ w, isJSWhiteSpace c = false) :
    ∃ c cs, trimStart w = c :: cs ∧ isJSWhiteSpace c = false := by
  induction w with
  | nil => obtain ⟨c, hc, _⟩ := hw; simp at hc
  | cons y ys ih =>
    by_cases hy : isJSWhiteSpace y = true
    · obtain ⟨c, hc, hpc⟩ := hw
      have hc2 : c ∈ ys := by
        rcases List.mem_cons.mp hc with e | e
        · subst e; rw [hy] at hpc; exact absurd hpc (by decide)
        · exact e
      simp only [trimStart, List.dropWhile_cons, hy, if_true]
      exact ih ⟨c, hc2, hpc⟩
    · exact ⟨y, ys, by simp [trimStart, List.dropWhile_cons, hy], by simpa using hy⟩

theorem mem_trimStart {w : JSString} {c : Char} (h : c ∈ trimStart w) : c ∈ w :=
  List.dropWhile_subset _ h

theorem removeWhiteSpace_append (a b : JSString) :
    removeWhiteSpace (a ++ b) = removeWhiteSpace a ++ removeWhiteSpace b := by
  simp [removeWhiteSpace]

theorem removeWhiteSpace_of_digits (a : JSString) (h : ∀ c ∈ a, isDigit c = true) :
    removeWhiteSpace a = a := by
  simp only [removeWhiteSpace, List.filter_eq_self, Bool.not_eq_true']
  intro c hc
  exact not_whiteSpace_of_isDigit (h c hc)

theorem mem_removeWhiteSpace {w : JSString} {c : Char} :
    c ∈ removeWhiteSpace w ↔ c ∈ w ∧ isJSWhiteSpace c = false := by
  simp [removeWhiteSpace]

theorem replaceFirstComma_digits (a b : JSString) (h : ∀ c ∈ a, c ≠ ',') :
    replaceFirstComma (a ++ ',' :: b) = a ++ '.' :: b := by
  induction a with
  | nil => simp [replaceFirstComma]
  | cons y ys ih =>
    have hy : y ≠ ',' := h y (by simp)
    have e := ih (fun c hc => h c (List.mem_cons_of_mem _ hc))
    rw [List.cons_append, replaceFirstComma, if_neg hy, e]
    rfl

theorem replaceFirstComma_none (a : JSString) (h : ∀ c ∈ a, c ≠ ',') :
    replaceFirstComma a = a := by
  induction a with
  | nil => rfl
  | cons y ys ih =>
    have hy : y ≠ ',' := h y (by simp)
    simp only [replaceFirstComma, hy, if_false]
    rw [ih (fun c hc => h c (List.mem_cons_of_mem _ hc))]

theorem dropSign_cons_of_ne (c : Char) (cs : JSString) (hc : c ≠ '-') :
    dropSign (c :: cs) = c :: cs := by
  unfold dropSign
  split
  · rename_i h; simp only [List.cons.injEq] at h; exact absurd h.1 hc
  · rfl

theorem dropSign_signed (neg : Bool) (u : JSString)
    (hu : neg = false → ∃ c cs, u = c :: cs ∧ c ≠ '-') :
    dropSign ((if neg then ['-'] else []) ++ u) = u := by
  cases neg with
  | true => rfl
  | false =>
    obtain ⟨c, cs, rfl, hc⟩ := hu rfl
    simpa using dropSign_cons_of_ne c cs hc

theorem matchPercent_none_of_last (s : JSString) (z : Char) (hz : z ≠ '%') :
    matchPercent (s ++ [z]) = none := by
  unfold matchPercent
  have : (s ++ [z]).reverse = z :: s.reverse := by simp
  rw [this]
  split
  · rename_i h; simp only [List.cons.injEq] at h; exact absurd h.1 hz
  · rfl

/-- The digits of a body made of digits and white space. -/
theorem removeWhiteSpace_digits (w : JSString)
    (hw : ∀ c ∈ w, isDigit c = true ∨ isJSWhiteSpace c = true) :
    ∀ c ∈ removeWhiteSpace w, isDigit c = true := by
  intro c hc
  obtain ⟨h1, h2⟩ := mem_removeWhiteSpace.mp hc
  rcases hw c h1 with h | h
  · exact h
  · rw [h] at h2; exact absurd h2 (by decide)

theorem removeWhiteSpace_ne_nil (w : JSString) (hdig : ∃ c ∈ w, isDigit c = true) :
    removeWhiteSpace w ≠ [] := by
  obtain ⟨c, hc, hd⟩ := hdig
  have : c ∈ removeWhiteSpace w :=
    mem_removeWhiteSpace.mpr ⟨hc, not_whiteSpace_of_isDigit hd⟩
  exact List.ne_nil_of_mem this

/-- C9. French decimal coercion: a cell made of an optional `-`, digits
possibly separated by white space, one comma and digits is stored as the
number read after deleting the white space and taking the comma as the decimal
point. -/
theorem coerceValue_french_decimal (neg : Bool) (w frac : JSString)
    (hw : ∀ c ∈ w, isDigit c = true ∨ isJSWhiteSpace c = true)
    (hdig : ∃ c ∈ w, isDigit c = true)
    (hfne : frac ≠ []) (hfrac : ∀ c ∈ frac, isDigit c = true) :
    coerceValue ((if neg then ['-'] else []) ++ w ++ ',' :: frac)
        = .num (parseFloat ((if neg then ['-'] else []) ++ (removeWhiteSpace w ++ '.' :: frac))) ∧
      parseFloat ((if neg then ['-'] else []) ++ (removeWhiteSpace w ++ '.' :: frac))
        = .finite (if neg
            then -((digitsValue (removeWhiteSpace w ++ frac) : ℚ) / (10 : ℚ) ^ frac.length)
            else (digitsValue (removeWhiteSpace w ++ frac) : ℚ) / (10 : ℚ) ^ frac.length) := by
  have hint := removeWhiteSpace_digits w hw
  have hne := removeWhiteSpace_ne_nil w hdig
  -- the value of `parseFloat`
  have hpf : parseFloat ((if neg then ['-'] else []) ++ (removeWhiteSpace w ++ '.' :: frac))
      = .finite (if neg
          then -((digitsValue (removeWhiteSpace w ++ frac) : ℚ) / (10 : ℚ) ^ frac.length)
          else (digitsValue (removeWhiteSpace w ++ frac) : ℚ) / (10 : ℚ) ^ frac.length) := by
    rw [parseFloat_signed, parseUnsigned_point neg _ _ hne hint hfrac]
    obtain ⟨c, cs, e⟩ := List.exists_cons_of_ne_nil hne
    exact ⟨c, cs ++ '.' :: frac, by rw [e]; rfl, hint c (by rw [e]; simp)⟩
  refine ⟨?_, hpf⟩
  -- the trimmed cell
  obtain ⟨tl, z, rfl⟩ : ∃ tl z, frac = tl ++ [z] := by
    rcases List.eq_nil_or_concat frac with h | ⟨tl, z, h⟩
    · exact absurd h hfne
    · exact ⟨tl, z, by simpa using h⟩
  have hz : isDigit z = true := hfrac z (by simp)
  have hwns : ∃ c ∈ w, isJSWhiteSpace c = false := by
    obtain ⟨c, hc, hd⟩ := hdig
    exact ⟨c, hc, not_whiteSpace_of_isDigit hd⟩
  have htrim := trim_signed neg w (',' :: tl) z hwns (not_whiteSpace_of_isDigit hz)
  simp only [List.cons_append] at htrim
  generalize hw' : (if neg = true then w else trimStart w) = w' at htrim
  have hw'mem : ∀ c ∈ w', isDigit c = true ∨ isJSWhiteSpace c = true := by
    intro c hc
    cases neg with
    | true => simp only [if_true] at hw'; subst hw'; exact hw c hc
    | false =>
      simp only [Bool.false_eq_true, if_false] at hw'; subst hw'
      exact hw c (mem_trimStart hc)
  have hw'rm : removeWhiteSpace w' = removeWhiteSpace w := by
    cases neg with
    | true => simp only [if_true] at hw'; subst hw'; rfl
    | false =>
      simp only [Bool.false_eq_true, if_false] at hw'; subst hw'
      exact removeWhiteSpace_trimStart w
  have hw'ne : w' ≠ [] := by
    intro e
    rw [e] at hw'rm
    exact hne hw'rm.symm
  have hw'head : neg = false → ∃ c cs, (w' ++ ',' :: (tl ++ [z])) = c :: cs ∧ c ≠ '-' := by
    intro hn
    subst hn
    simp only [Bool.false_eq_true, if_false] at hw'
    obtain ⟨c, cs, e, hc⟩ := trimStart_head w hwns
    rw [hw'] at e
    refine ⟨c, cs ++ ',' :: (tl ++ [z]), by rw [e]; rfl, ?_⟩
    have hcm : c ∈ w' := by rw [e]; simp
    rcases hw'mem c hcm with h | h
    · exact isDigit_ne_of h (by decide)
    · rw [h] at hc; exact absurd hc (by decide)
  -- the patterns
  have hv : (if neg then ['-'] else []) ++ w' ++ ',' :: (tl ++ [z])
      = ((if neg then ['-'] else []) ++ w' ++ ',' :: tl) ++ [z] := by simp
  have hpct : matchPercent ((if neg then ['-'] else []) ++ w' ++ ',' :: (tl ++ [z])) = none := by
    rw [hv]
    exact matchPercent_none_of_last _ z (isDigit_ne_of hz (by decide))
  have hclass : ∀ c ∈ w', (fun c => isDigit c || isJSWhiteSpace c) c = true := by
    intro c hc
    rcases hw'mem c hc with h | h <;> simp [h]
  have hfr : isFrenchDecimal ((if neg then ['-'] else []) ++ w' ++ ',' :: (tl ++ [z])) = true := by
    unfold isFrenchDecimal
    rw [List.append_assoc, dropSign_signed neg _ hw'head]
    simp only
    rw [takeWhile_append_stop _ w' _ ',' hclass (by decide),
      dropWhile_append_stop _ w' _ ',' hclass (by decide)]
    simp only [ne_eq, hw'ne, not_false_eq_true, List.append_eq_nil, List.cons_ne_self, and_false,
      List.all_eq_true, true_and, Bool.decide_and, Bool.and_eq_true, decide_eq_true_eq,
      decide_not, Bool.not_eq_true', decide_eq_false_iff_not]
    simpa using hfrac
  have hsign : removeWhiteSpace (if neg then ['-'] else []) = (if neg then ['-'] else []) := by
    cases neg <;> rfl
  have hclean : replaceFirstComma (removeWhiteSpace
        ((if neg then ['-'] else []) ++ w' ++ ',' :: (tl ++ [z])))
      = (if neg then ['-'] else []) ++ (removeWhiteSpace w ++ '.' :: (tl ++ [z])) := by
    have h1 : removeWhiteSpace (',' :: (tl ++ [z])) = ',' :: (tl ++ [z]) := by
      have : ∀ c ∈ (tl ++ [z]), isDigit c = true := hfrac
      have h2 := removeWhiteSpace_of_digits _ this
      simp only [removeWhiteSpace] at h2 ⊢
      rw [List.filter_cons]
      simp only [show isJSWhiteSpace ',' = false by decide, Bool.not_false, if_true, h2]
    rw [removeWhiteSpace_append, removeWhiteSpace_append, hsign, hw'rm, h1,
      replaceFirstComma_digits]
    · simp
    · intro c hc
      rcases List.mem_append.mp hc with h | h
      · cases neg with
        | true => simp at h; subst h; decide
        | false => simp at h
      · exact isDigit_ne_of (hint c h) (by decide)
  unfold coerceValue
  simp only [List.append_assoc, List.cons_append] at htrim hpct hfr hclean ⊢
  simp only [htrim, hpct, hfr, if_true, hclean]
  simp only [List.append_assoc, List.cons_append] at hpf
  rw [hpf]
  simp

/-- The witness of the claim, as a cell and through `parseCSV`. -/
theorem coerceValue_french_decimal_witness :
    coerceValue "1 234,56".toList = .num (.finite (123456 / 100)) ∧
      parseCSV "montant;note\n1 234,56;x".toList
        = [[("montant".toList, .num (.finite (123456 / 100))),
            ("note".toList, .str "x".toList)]] :=
  ⟨((coerceValue_french_decimal false "1 234".toList "56".toList
      (by decide) (by decide) (by decide) (by decide)).1.trans
      (congrArg JSValue.num (coerceValue_french_decimal false "1 234".toList "56".toList
        (by decide) (by decide) (by decide) (by decide)).2)).trans (by decide!),
   parseCSV_samples.1⟩

theorem matchPercent_of_group (g : JSString) (hne : dropSign g ≠ [])
    (hall : ∀ c ∈ dropSign g,
      (isDigit c || isJSWhiteSpace c || decide (c = '.') || decide (c = ',')) = true) :
    matchPercent (g ++ ['%']) = some g := by
  unfold matchPercent
  have : (g ++ ['%']).reverse = '%' :: g.reverse := by simp
  rw [this]
  simp only [List.reverse_reverse]
  rw [if_pos]
  refine ⟨hne, ?_⟩
  rw [List.all_eq_true]
  exact hall

/-- C10. Percentage coercion: a cell made of an optional `-`, a decimal
number written with `.` or `,` as decimal separator, white space allowed, and
a final `%` is stored as that number, the percent sign dropped and no division
by 100 made. -/
theorem coerceValue_percent (neg : Bool) (w int frac : JSString) (sep : Char)
    (hsep : sep = '.' ∨ sep = ',')
    (hintne : int ≠ []) (hint : ∀ c ∈ int, isDigit c = true)
    (hfrac : ∀ c ∈ frac, isDigit c = true)
    (hw : removeWhiteSpace w = int ++ (if frac = [] then [] else sep :: frac)) :
    coerceValue ((if neg then ['-'] else []) ++ w ++ ['%'])
      = .num (.finite (if neg
          then -((digitsValue (int ++ frac) : ℚ) / (10 : ℚ) ^ frac.length)
          else (digitsValue (int ++ frac) : ℚ) / (10 : ℚ) ^ frac.length)) := by
  obtain ⟨i0, is, hi0⟩ := List.exists_cons_of_ne_nil hintne
  have hi0d : isDigit i0 = true := hint i0 (by rw [hi0]; simp)
  -- the characters of the body
  have hchars : ∀ c ∈ w, isJSWhiteSpace c = true ∨ isDigit c = true ∨ c = sep := by
    intro c hc
    by_cases hws : isJSWhiteSpace c = true
    · exact Or.inl hws
    · right
      have hm : c ∈ removeWhiteSpace w := mem_removeWhiteSpace.mpr ⟨hc, by simpa using hws⟩
      rw [hw] at hm
      rcases List.mem_append.mp hm with h | h
      · exact Or.inl (hint c h)
      · by_cases hf : frac = []
        · simp [hf] at h
        · simp only [hf, if_false, List.mem_cons] at h
          rcases h with h | h
          · exact Or.inr h
          · exact Or.inl (hfrac c h)
  have hwns : ∃ c ∈ w, isJSWhiteSpace c = false := by
    have hm : i0 ∈ removeWhiteSpace w := by rw [hw, hi0]; simp
    exact ⟨i0, (mem_removeWhiteSpace.mp hm).1, (mem_removeWhiteSpace.mp hm).2⟩
  have htrim := trim_signed neg w [] '%' hwns (by decide)
  simp only [List.nil_append] at htrim
  generalize hw' : (if neg = true then w else trimStart w) = w' at htrim
  have hw'mem : ∀ c ∈ w', c ∈ w := by
    intro c hc
    cases neg with
    | true => simp only [if_true] at hw'; subst hw'; exact hc
    | false =>
      simp only [Bool.false_eq_true, if_false] at hw'; subst hw'
      exact mem_trimStart hc
  have hw'rm : removeWhiteSpace w' = removeWhiteSpace w := by
    cases neg with
    | true => simp only [if_true] at hw'; subst hw'; rfl
    | false =>
      simp only [Bool.false_eq_true, if_false] at hw'; subst hw'
      exact removeWhiteSpace_trimStart w
  have hw'ne : w' ≠ [] := by
    intro e
    rw [e, hw, hi0] at hw'rm
    simp [removeWhiteSpace] at hw'rm
  have hnotminus : ∀ c ∈ w', c ≠ '-' := by
    intro c hc
    rcases hchars c (hw'mem c hc) with h | h | h
    · intro e; subst e; exact absurd h (by decide)
    · exact isDigit_ne_of h (by decide)
    · rcases hsep with e | e <;> subst e <;> subst h <;> decide
  have hdrop : dropSign ((if neg then ['-'] else []) ++ w') = w' := by
    apply dropSign_signed
    intro _
    obtain ⟨c, cs, e⟩ := List.exists_cons_of_ne_nil hw'ne
    exact ⟨c, cs, e, hnotminus c (by rw [e]; simp)⟩
  have hpct : matchPercent ((if neg then ['-'] else []) ++ w' ++ ['%'])
      = some ((if neg then ['-'] else []) ++ w') := by
    apply matchPercent_of_group
    · rw [hdrop]; exact hw'ne
    · rw [hdrop]
      intro c hc
      rcases hchars c (hw'mem c hc) with h | h | h
      · simp [h]
      · simp [h]
      · rcases hsep with e | e <;> subst e <;> subst h <;> decide
  have hsign : removeWhiteSpace (if neg then ['-'] else []) = (if neg then ['-'] else []) := by
    cases neg <;> rfl
  have hsigncomma : ∀ c ∈ (if neg then ['-'] else []), c ≠ ',' := by
    intro c hc
    cases neg with
    | true => simp at hc; subst hc; decide
    | false => simp at hc
  have hintcomma : ∀ c ∈ int, c ≠ ',' := fun c hc => isDigit_ne_of (hint c hc) (by decide)
  have hfraccomma : ∀ c ∈ frac, c ≠ ',' := fun c hc => isDigit_ne_of (hfrac c hc) (by decide)
  have hstart : ∃ c cs, int = c :: cs ∧ isDigit c = true := ⟨i0, is, hi0, hi0d⟩
  -- the number read
  have hnum : parseFloat (replaceFirstComma (removeWhiteSpace
        ((if neg then ['-'] else []) ++ w')))
      = .finite (if neg
          then -((digitsValue (int ++ frac) : ℚ) / (10 : ℚ) ^ frac.length)
          else (digitsValue (int ++ frac) : ℚ) / (10 : ℚ) ^ frac.length) := by
    rw [removeWhiteSpace_append, hsign, hw'rm, hw]
    by_cases hf : frac = []
    · subst hf
      simp only [if_true, List.append_nil]
      rw [replaceFirstComma_none _ (by
        intro c hc
        rcases List.mem_append.mp hc with h | h
        · exact hsigncomma c h
        · exact hintcomma c h)]
      rw [parseFloat_signed neg int hstart, parseUnsigned_digits neg int hintne hint]
      simp
    · simp only [hf, if_false]
      have hpoint : replaceFirstComma ((if neg then ['-'] else []) ++ (int ++ sep :: frac))
          = (if neg then ['-'] else []) ++ (int ++ '.' :: frac) := by
        rcases hsep with e | e
        · subst e
          apply replaceFirstComma_none
          intro c hc
          simp only [List.mem_append, List.mem_cons] at hc
          rcases hc with h | h | h | h
          · exact hsigncomma c h
          · exact hintcomma c h
          · subst h; decide
          · exact hfraccomma c h
        · subst e
          rw [← List.append_assoc, replaceFirstComma_digits, List.append_assoc]
          intro c hc
          rcases List.mem_append.mp hc with h | h
          · exact hsigncomma c h
          · exact hintcomma c h
      rw [hpoint, parseFloat_signed neg _ (by
        obtain ⟨c, cs, e, hc⟩ := hstart
        exact ⟨c, cs ++ '.' :: frac, by rw [e]; rfl, hc⟩),
        parseUnsigned_point neg int frac hintne hint hfrac]
  unfold coerceValue
  simp only [htrim, hpct, hnum]
  simp

/-- The witnesses of the claim, as cells and through `parseCSV`. -/
theorem coerceValue_percent_witness :
    coerceValue "12,3%".toList = .num (.finite (123 / 10)) ∧
      coerceValue "12.3 %".toList = .num (.finite (123 / 10)) ∧
      parseCSV "taux;part\n12,3%;12.3 %".toList
        = [[("taux".toList, .num (.finite (123 / 10))),
            ("part".toList, .num (.finite (123 / 10)))]] :=
  ⟨(coerceValue_percent false "12,3".toList "12".toList "3".toList ','
      (by decide) (by decide) (by decide) (by decide) (by decide)).trans (by decide!),
   (coerceValue_percent false "12.3 ".toList "12".toList "3".toList '.'
      (by decide) (by decide) (by decide) (by decide) (by decide)).trans (by decide!),
   parseCSV_samples.2.1⟩

/-! ## Facts about thousands grouping and pass-through -/

theorem isFractionOrEnd_point (frac : JSString) (hne : frac ≠ [])
    (hfrac : ∀ c ∈ frac, isDigit c = true) : isFractionOrEnd ('.' :: frac) = true := by
  simp only [isFractionOrEnd, ne_eq, hne, not_false_eq_true, List.all_eq_true, true_and,
    decide_eq_true_eq]
  exact hfrac

theorem isGroupsThenFraction_groups (groups : List JSString) (frac : JSString)
    (hgroups : ∀ g ∈ groups, g.length = 3 ∧ ∀ c ∈ g, isDigit c = true)
    (hne : frac ≠ []) (hfrac : ∀ c ∈ frac, isDigit c = true) :
    isGroupsThenFraction ((groups.map (fun g => ',' :: g)).flatten ++ '.' :: frac) = true := by
  induction groups with
  | nil =>
    simp only [List.map_nil, List.flatten_nil, List.nil_append]
    rw [isGroupsThenFraction.eq_def]
    exact isFractionOrEnd_point frac hne hfrac
  | cons g gs ih =>
    obtain ⟨hlen, hd⟩ := hgroups g (by simp)
    obtain ⟨a, b, c, rfl⟩ : ∃ a b c, g = [a, b, c] := by
      match g, hlen with
      | [a, b, c], _ => exact ⟨a, b, c, rfl⟩
    have ha := hd a (by simp)
    have hb := hd b (by simp)
    have hc := hd c (by simp)
    have ih' := ih (fun g hg => hgroups g (List.mem_cons_of_mem _ hg))
    simp only [List.map_cons, List.flatten_cons, List.cons_append, List.nil_append]
    rw [isGroupsThenFraction]
    simp [ha, hb, hc, ih']

theorem removeCommas_digits (a : JSString) (h : ∀ c ∈ a, isDigit c = true) :
    removeCommas a = a := by
  simp only [removeCommas, List.filter_eq_self, bne_iff_ne, ne_eq]
  intro c hc
  exact isDigit_ne_of (h c hc) (by decide)

theorem removeCommas_append (a b : JSString) :
    removeCommas (a ++ b) = removeCommas a ++ removeCommas b := by
  simp [removeCommas]

theorem removeCommas_groups (groups : List JSString)
    (hgroups : ∀ g ∈ groups, g.length = 3 ∧ ∀ c ∈ g, isDigit c = true) :
    removeCommas ((groups.map (fun g => ',' :: g)).flatten) = groups.flatten := by
  induction groups with
  | nil => rfl
  | cons g gs ih =>
    have ih' := ih (fun g hg => hgroups g (List.mem_cons_of_mem _ hg))
    simp only [List.map_cons, List.flatten_cons, List.cons_append]
    have : removeCommas (',' :: (g ++ (gs.map (fun g => ',' :: g)).flatten))
        = removeCommas (g ++ (gs.map (fun g => ',' :: g)).flatten) := by
      simp [removeCommas]
    rw [this, removeCommas_append, ih', removeCommas_digits g (hgroups g (by simp)).2]

theorem digits_flatten (groups : List JSString)
    (hgroups : ∀ g ∈ groups, g.length = 3 ∧ ∀ c ∈ g, isDigit c = true) :
    ∀ c ∈ groups.flatten, isDigit c = true := by
  intro c hc
  obtain ⟨g, hg, hcg⟩ := List.mem_flatten.mp hc
  exact (hgroups g hg).2 c hcg

theorem trim_eq_self_of_ends (c : Char) (s : JSString) (z : Char)
    (hc : isJSWhiteSpace c = false) (hz : isJSWhiteSpace z = false) :
    trim (c :: (s ++ [z])) = c :: (s ++ [z]) := by
  have h1 : trimStart (c :: (s ++ [z])) = c :: (s ++ [z]) := by
    simp [trimStart, List.dropWhile, hc]
  rw [trim, h1]
  have : c :: (s ++ [z]) = (c :: s) ++ [z] := rfl
  rw [this, trimEnd_concat _ _ hz]

theorem trimStart_eq_self_of_head (c : Char) (s : JSString)
    (hc : isJSWhiteSpace c = false) : trimStart (c :: s) = c :: s := by
  simp [trimStart, List.dropWhile, hc]

/-- C11. Thousands-grouped coercion: a cell made of an optional `-`, one to
three digits, groups of a comma and exactly three digits, and a decimal part
written with a point is stored as the number read after deleting the grouping
commas. -/
theorem coerceValue_thousands_grouped (neg : Bool) (lead : JSString)
    (groups : List JSString) (frac : JSString)
    (hlead1 : 1 ≤ lead.length) (hlead3 : lead.length ≤ 3)
    (hlead : ∀ c ∈ lead, isDigit c = true)
    (hgroups : ∀ g ∈ groups, g.length = 3 ∧ ∀ c ∈ g, isDigit c = true)
    (hfne : frac ≠ []) (hfrac : ∀ c ∈ frac, isDigit c = true) :
    coerceValue ((if neg then ['-'] else []) ++ lead
          ++ ((groups.map (fun g => ',' :: g)).flatten ++ '.' :: frac))
        = .num (parseFloat ((if neg then ['-'] else [])
            ++ ((lead ++ groups.flatten) ++ '.' :: frac))) ∧
      parseFloat ((if neg then ['-'] else []) ++ ((lead ++ groups.flatten) ++ '.' :: frac))
        = .finite (if neg
            then -((digitsValue ((lead ++ groups.flatten) ++ frac) : ℚ) / (10 : ℚ) ^ frac.length)
            else (digitsValue ((lead ++ groups.flatten) ++ frac) : ℚ) / (10 : ℚ) ^ frac.length) := by
  obtain ⟨l0, ls, rfl⟩ : ∃ l0 ls, lead = l0 :: ls := by
    cases lead with
    | nil => simp at hlead1
    | cons a b => exact ⟨a, b, rfl⟩
  have hl0 : isDigit l0 = true := hlead l0 (by simp)
  have hint : ∀ c ∈ (l0 :: ls) ++ groups.flatten, isDigit c = true := by
    intro c hc
    rcases List.mem_append.mp hc with h | h
    · exact hlead c h
    · exact digits_flatten groups hgroups c h
  have hpf : parseFloat ((if neg then ['-'] else [])
        ++ (((l0 :: ls) ++ groups.flatten) ++ '.' :: frac))
      = .finite (if neg
          then -((digitsValue (((l0 :: ls) ++ groups.flatten) ++ frac) : ℚ)
            / (10 : ℚ) ^ frac.length)
          else (digitsValue (((l0 :: ls) ++ groups.flatten) ++ frac) : ℚ)
            / (10 : ℚ) ^ frac.length) := by
    rw [parseFloat_signed neg _ ⟨l0, ls ++ groups.flatten ++ '.' :: frac, by simp, hl0⟩,
      parseUnsigned_point neg _ _ (by simp) hint hfrac]
  refine ⟨?_, hpf⟩
  obtain ⟨tl, z, rfl⟩ : ∃ tl z, frac = tl ++ [z] := by
    rcases List.eq_nil_or_concat frac with h | ⟨tl, z, h⟩
    · exact absurd h hfne
    · exact ⟨tl, z, by simpa using h⟩
  have hz : isDigit z = true := hfrac z (by simp)
  generalize hG : (groups.map (fun g => ',' :: g)).flatten = G
  -- the cell is already trimmed
  have htrim : trim ((if neg then ['-'] else []) ++ (l0 :: ls) ++ (G ++ '.' :: (tl ++ [z])))
      = (if neg then ['-'] else []) ++ (l0 :: ls) ++ (G ++ '.' :: (tl ++ [z])) := by
    have h := trim_signed neg (l0 :: ls) (G ++ '.' :: tl) z
      ⟨l0, by simp, not_whiteSpace_of_isDigit hl0⟩ (not_whiteSpace_of_isDigit hz)
    rw [trimStart_eq_self_of_head l0 ls (not_whiteSpace_of_isDigit hl0)] at h
    simpa using h
  have hpct : matchPercent ((if neg then ['-'] else []) ++ (l0 :: ls)
      ++ (G ++ '.' :: (tl ++ [z]))) = none := by
    have : (if neg then ['-'] else []) ++ (l0 :: ls) ++ (G ++ '.' :: (tl ++ [z]))
        = ((if neg then ['-'] else []) ++ (l0 :: ls) ++ (G ++ '.' :: tl)) ++ [z] := by simp
    rw [this]
    exact matchPercent_none_of_last _ z (isDigit_ne_of hz (by decide))
  have hdrop : dropSign ((if neg then ['-'] else []) ++ (l0 :: ls)
      ++ (G ++ '.' :: (tl ++ [z]))) = (l0 :: ls) ++ (G ++ '.' :: (tl ++ [z])) := by
    rw [List.append_assoc]
    exact dropSign_signed neg _ (fun _ => ⟨l0, _, rfl, isDigit_ne_of hl0 (by decide)⟩)
  have hclass : ∀ c ∈ l0 :: ls, (fun c => isDigit c || isJSWhiteSpace c) c = true := by
    intro c hc
    simp [hlead c hc]
  cases groups with
  | nil =>
    simp only [List.map_nil, List.flatten_nil] at hG
    subst hG
    simp only [List.nil_append, List.flatten_nil, List.append_nil] at htrim hpct hdrop ⊢
    have hfr : isFrenchDecimal ((if neg then ['-'] else []) ++ (l0 :: ls)
        ++ '.' :: (tl ++ [z])) = false := by
      unfold isFrenchDecimal
      rw [hdrop]
      simp only
      rw [dropWhile_append_stop _ (l0 :: ls) _ '.' hclass (by decide)]
      rfl
    have hplain : isPlainDecimal ((if neg then ['-'] else []) ++ (l0 :: ls)
        ++ '.' :: (tl ++ [z])) = true := by
      unfold isPlainDecimal
      rw [hdrop]
      simp only
      rw [takeWhile_append_stop _ (l0 :: ls) _ '.' hlead (by decide),
        dropWhile_append_stop _ (l0 :: ls) _ '.' hlead (by decide),
        isFractionOrEnd_point _ hfne hfrac]
      simp
    unfold coerceValue
    simp only [htrim, hpct, hfr, hplain, if_true, Bool.false_eq_true, if_false]
    simp
  | cons g gs =>
    have hGc : ∃ rest, G = ',' :: rest ∧ '.' ∈ rest ++ '.' :: (tl ++ [z]) := by
      refine ⟨g ++ (gs.map (fun g => ',' :: g)).flatten, ?_, by simp⟩
      rw [← hG]
      simp
    obtain ⟨rest, hGeq, hdot⟩ := hGc
    have hdw : ∀ p : Char → Bool, (∀ c ∈ l0 :: ls, p c = true) → p ',' = false →
        ((l0 :: ls) ++ (G ++ '.' :: (tl ++ [z]))).dropWhile p
          = ',' :: (rest ++ '.' :: (tl ++ [z])) := by
      intro p hp hstop
      rw [hGeq, List.cons_append]
      exact dropWhile_append_stop p (l0 :: ls) _ ',' hp hstop
    have htw : ∀ p : Char → Bool, (∀ c ∈ l0 :: ls, p c = true) → p ',' = false →
        ((l0 :: ls) ++ (G ++ '.' :: (tl ++ [z]))).takeWhile p = l0 :: ls := by
      intro p hp hstop
      rw [hGeq, List.cons_append]
      exact takeWhile_append_stop p (l0 :: ls) _ ',' hp hstop
    have hfr : isFrenchDecimal ((if neg then ['-'] else []) ++ (l0 :: ls)
        ++ (G ++ '.' :: (tl ++ [z]))) = false := by
      unfold isFrenchDecimal
      rw [hdrop]
      simp only
      rw [hdw _ hclass (by decide)]
      simp only [Bool.decide_and, Bool.and_eq_false_imp, decide_eq_true_eq]
      intro _ _
      have hall : (rest ++ '.' :: (tl ++ [z])).all isDigit = false := by
        rw [List.all_eq_false]
        exact ⟨'.', hdot, by decide⟩
      simp [hall]
    have hplain : isPlainDecimal ((if neg then ['-'] else []) ++ (l0 :: ls)
        ++ (G ++ '.' :: (tl ++ [z]))) = false := by
      unfold isPlainDecimal
      rw [hdrop]
      simp only
      rw [hdw _ hlead (by decide)]
      simp [isFractionOrEnd]
    have hth : isThousandsGrouped ((if neg then ['-'] else []) ++ (l0 :: ls)
        ++ (G ++ '.' :: (tl ++ [z]))) = true := by
      unfold isThousandsGrouped
      rw [hdrop]
      simp only
      rw [htw _ hlead (by decide), hdw _ hlead (by decide)]
      have := isGroupsThenFraction_groups (g :: gs) (tl ++ [z]) hgroups hfne hfrac
      rw [hG, hGeq] at this
      simp only [List.cons_append] at this
      have h3 : ls.length ≤ 2 := by simpa using hlead3
      simp [this, h3]
    have hsigncomma : removeCommas (if neg then ['-'] else []) = (if neg then ['-'] else []) := by
      cases neg <;> rfl
    have hrm : removeCommas ((if neg then ['-'] else []) ++ (l0 :: ls)
          ++ (G ++ '.' :: (tl ++ [z])))
        = (if neg then ['-'] else []) ++ (((l0 :: ls) ++ (g :: gs).flatten) ++ '.' :: (tl ++ [z])) := by
      rw [removeCommas_append, removeCommas_append, removeCommas_append, hsigncomma,
        removeCommas_digits _ hlead, ← hG, removeCommas_groups _ hgroups]
      have : removeCommas ('.' :: (tl ++ [z])) = '.' :: (tl ++ [z]) := by
        have h2 := removeCommas_digits _ hfrac
        simp only [removeCommas] at h2 ⊢
        rw [List.filter_cons]
        simp only [show (('.' : Char) != ',') = true by decide, if_true, h2]
      rw [this]
      simp
    unfold coerceValue
    simp only [htrim, hpct, hfr, hplain, hth, if_true, Bool.false_eq_true, if_false, hrm]
    rw [hpf]
    simp

/-- The witness of the claim, as a cell and through `parseCSV`. -/
theorem coerceValue_thousands_grouped_witness :
    coerceValue "1,234.56".toList = .num (.finite (123456 / 100)) ∧
      parseCSV "montant;note\n1,234.56;x".toList
        = [[("montant".toList, .num (.finite (123456 / 100))),
            ("note".toList, .str "x".toList)]] :=
  ⟨((coerceValue_thousands_grouped false "1".toList ["234".toList] "56".toList
      (by decide) (by decide) (by decide) (by decide) (by decide) (by decide)).1.trans
      (congrArg JSValue.num (coerceValue_thousands_grouped false "1".toList ["234".toList]
        "56".toList (by decide) (by decide) (by decide) (by decide) (by decide)
        (by decide)).2)).trans (by decide!),
   parseCSV_samples.2.2.1⟩

/-- A string stored by the conversion is the trimmed cell. -/
theorem coerceValue_str_eq_trim (cell s : JSString) (h : coerceValue cell = .str s) :
    s = trim cell := by
  unfold coerceValue at h
  simp only at h
  split at h
  · split_ifs at h
    · exact (JSValue.str.inj h).symm
  · split_ifs at h
    all_goals exact (JSValue.str.inj h).symm

/-- C12. Non-numeric pass-through: a cell whose trimmed text matches none of
the four numeric patterns is stored as that trimmed text, a string; and
whenever a string is stored it is the trimmed text of the cell. -/
theorem coerceValue_passthrough (cell : JSString)
    (hpct : matchPercent (trim cell) = none)
    (hfr : isFrenchDecimal (trim cell) = false)
    (hplain : isPlainDecimal (trim cell) = false)
    (hth : isThousandsGrouped (trim cell) = false) :
    coerceValue cell = .str (trim cell) ∧
      ∀ s, coerceValue cell = .str s → s = trim cell := by
  refine ⟨?_, fun s h => coerceValue_str_eq_trim cell s h⟩
  unfold coerceValue
  simp [hpct, hfr, hplain, hth]

/-- The witness of the claim, as a cell and through `parseCSV`. -/
theorem coerceValue_passthrough_witness :
    coerceValue " Jean Diop ".toList = .str "Jean Diop".toList ∧
      parseCSV "agent;commune\nJean Diop;Bandafassi".toList
        = [[("agent".toList, .str "Jean Diop".toList),
            ("commune".toList, .str "Bandafassi".toList)]] :=
  ⟨(coerceValue_passthrough " Jean Diop ".toList (by decide) (by decide) (by decide)
      (by decide)).1.trans (by decide),
   parseCSV_samples.2.2.2.1⟩

/-! ## Facts about the values of a row -/

theorem parseUnsigned_ne_nan (neg : Bool) (u : JSString)
    (h : u.takeWhile isDigit ≠ []) : parseUnsigned neg u ≠ .nan := by
  unfold parseUnsigned
  simp only
  by_cases h1 : "Infinity".toList.isPrefixOf u = true
  · rw [if_pos h1]
    cases neg <;> simp
  · rw [if_neg h1, if_neg (fun h3 => h h3.1)]
    exact fun e => JSNumber.noConfusion e

theorem parseFloat_ne_nan_of_plain (v : JSString) (h : isPlainDecimal v = true) :
    parseFloat v ≠ .nan := by
  unfold isPlainDecimal at h
  simp only [ne_eq, Bool.decide_and, Bool.and_eq_true, decide_eq_true_eq, decide_not,
    Bool.not_eq_true', decide_eq_false_iff_not] at h
  have hd := h.1
  cases v with
  | nil => simp [dropSign] at hd
  | cons c b =>
    by_cases hc : c = '-'
    · subst hc
      have e : dropSign ('-' :: b) = b := rfl
      rw [e] at hd
      have : trimStart ('-' :: b) = '-' :: b := by
        simp [trimStart, List.dropWhile, show isJSWhiteSpace '-' = false by decide]
      simp only [parseFloat, this]
      exact parseUnsigned_ne_nan true b hd
    · rw [dropSign_cons_of_ne c b hc] at hd
      have hcd : isDigit c = true := by
        by_contra hn
        simp [List.takeWhile, hn] at hd
      have := parseFloat_signed false (c :: b) ⟨c, b, rfl, hcd⟩
      simp only [Bool.false_eq_true, if_false, List.nil_append] at this
      rw [this]
      exact parseUnsigned_ne_nan false (c :: b) hd

/-- The conversion of a cell never gives `NaN`. -/
theorem coerceValue_ne_nan (raw : JSString) : coerceValue raw ≠ .num .nan := by
  unfold coerceValue
  simp only
  split
  · split_ifs with h
    · simp
    · intro e; exact h (JSValue.num.inj e)
  · split_ifs with h1 h2 h3 h4 h5
    · simp
    · intro e; exact h2 (JSValue.num.inj e)
    · intro e; exact parseFloat_ne_nan_of_plain _ h3 (JSValue.num.inj e)
    · simp
    · intro e; exact h5 (JSValue.num.inj e)
    · simp

theorem mem_setProp {α : Type} (o : List (JSString × α)) (k : JSString) (v : α)
    (e : JSString × α) (he : e ∈ setProp o k v) : e ∈ o ∨ e = (k, v) := by
  unfold setProp at he
  split_ifs at he
  · obtain ⟨x, hx, hxe⟩ := List.mem_map.mp he
    by_cases hk : x.1 = k
    · rw [if_pos hk] at hxe
      exact Or.inr hxe.symm
    · rw [if_neg hk] at hxe
      subst hxe
      exact Or.inl hx
  · rcases List.mem_append.mp he with h | h
    · exact Or.inl h
    · exact Or.inr (by simpa using h)

theorem fillRowLoop_values (values headers : List JSString) (index : Nat) (row : Row)
    (P : JSValue → Prop) (hP : ∀ raw, P (coerceValue raw)) (hrow : ∀ e ∈ row, P e.2) :
    ∀ e ∈ fillRowLoop values headers index row, P e.2 := by
  induction headers generalizing index row with
  | nil =>
    intro e he
    rw [fillRowLoop] at he
    exact hrow e he
  | cons h hs ih =>
    rw [fillRowLoop]
    apply ih
    intro e he
    rcases mem_setProp _ _ _ e he with h1 | h1
    · exact hrow e h1
    · rw [h1]; exact hP _

theorem backfillGeomaticien_eq (row : Row) : backfillGeomaticien row = row := rfl

theorem mem_parseCSV (csv : JSString) (row : Row) (h : row ∈ parseCSV csv) :
    ∃ line, row = buildRow (csvHeaders csv) (csvDelimiter csv) line := by
  unfold parseCSV at h
  by_cases h1 : csv = [] ∨ trim csv = []
  · rw [if_pos h1] at h
    simp at h
  · rw [if_neg h1] at h
    simp only at h
    by_cases h2 : (nonBlankLines csv).length < 2
    · rw [if_pos h2] at h
      simp at h
    · rw [if_neg h2, parseRowsLoop_eq, List.nil_append, List.mem_map] at h
      obtain ⟨line, _, e⟩ := h
      exact ⟨line, e.symm⟩

/-- C13. Every value of every row returned by `DataManager.parseCSV` is a
string or a number that is not `NaN`. -/
theorem parseCSV_values_defined (csv : JSString) (row : Row) (hrow : row ∈ parseCSV csv)
    (e : JSString × JSValue) (he : e ∈ row) :
    (∃ s, e.2 = .str s) ∨ (∃ n, e.2 = .num n ∧ n ≠ .nan) := by
  obtain ⟨line, rfl⟩ := mem_parseCSV csv row hrow
  have h : e.2 ≠ .num .nan := by
    apply fillRowLoop_values _ _ 0 [] (fun v => v ≠ .num .nan) coerceValue_ne_nan
      (by simp) e
    simpa [buildRow, rowOfValues, backfillGeomaticien_eq] using he
  cases hv : e.2 with
  | str s => exact Or.inl ⟨s, rfl⟩
  | num n =>
    refine Or.inr ⟨n, rfl, ?_⟩
    intro hn
    rw [hv, hn] at h
    exact h rfl

/-- A row with a cell that looks like a percentage and is not a number. -/
theorem parseCSV_values_defined_witness :
    (∃ s, (("b".toList, JSValue.str "..%".toList) : JSString × JSValue).2 = .str s) ∨
      (∃ n, (("b".toList, JSValue.str "..%".toList) : JSString × JSValue).2 = .num n ∧
        n ≠ .nan) :=
  parseCSV_values_defined "a;b\n12,5;..%".toList
    [("a".toList, .num (.finite (125 / 10))), ("b".toList, .str "..%".toList)]
    parseCSV_samples.2.2.2.2.1 ("b".toList, .str "..%".toList) (by decide!)

/-! ## Facts about the alias table -/

/-- C15. French and English spellings of the validated-parcels column reach
one canonical key: the header `Parcelles validées par l'URM` has the slug
`parcelles_validees_par_lurm`, and it, `URM Validated Parcels` and
`Parcelles validées` all normalize to `validated`. -/
theorem normalizeHeader_validated :
    cleanHeader "Parcelles validées par l\x27URM".toList
        = "parcelles_validees_par_lurm".toList ∧
      normalizeHeader "Parcelles validées par l\x27URM".toList = "validated".toList ∧
      normalizeHeader "URM Validated Parcels".toList = "validated".toList ∧
      normalizeHeader "Parcelles validées".toList = "validated".toList :=
  normalizeHeader_samples.1

/-- C18, on the code: the French header `Doublons supprimés` normalizes to
`duplicates_removed` while the English header `Duplicates Removed` normalizes
to `duplicatesRemoved`.  The literal `headerAliasMap` gives the key
`doublons_supprimes` twice, and the second value replaces the first. -/
theorem normalizeHeader_duplicates_removed_diverges :
    normalizeHeader "Doublons supprimés".toList = "duplicates_removed".toList ∧
      normalizeHeader "Duplicates Removed".toList = "duplicatesRemoved".toList ∧
      ("doublons_supprimes".toList, "duplicatesRemoved".toList) ∈ headerAliasEntries ∧
      ("doublons_supprimes".toList, "duplicates_removed".toList) ∈ headerAliasEntries ∧
      getOwn headerAliasMap "doublons_supprimes".toList = some "duplicates_removed".toList :=
  normalizeHeader_samples.2.1

/-! ## Facts about the properties of a row -/

theorem getOwn_map_set {α : Type} (o : List (JSString × α)) (k k' : JSString) (v : α) :
    getOwn (o.map (fun e => if e.1 = k then (k, v) else e)) k'
      = if k' = k then (getOwn o k).map (fun _ => v) else getOwn o k' := by
  induction o with
  | nil => simp [getOwn]
  | cons e es ih =>
    simp only [getOwn, List.map_cons] at ih ⊢
    by_cases hek : e.1 = k
    · by_cases hk' : k' = k
      · subst hk'
        simp [List.find?, hek]
      · have : ¬ e.1 = k' := fun h => hk' (h ▸ hek)
        have hkk : ¬ k = k' := fun h => hk' h.symm
        simp only [hek, if_true, List.find?, hkk, decide_False, hk', if_false, this]
        simpa [hk'] using ih
    · by_cases hk' : k' = k
      · subst hk'
        simp only [hek, if_false, List.find?, decide_False, if_true]
        simpa using ih
      · by_cases hek' : e.1 = k'
        · simp [hek, List.find?, hek', hk']
        · simp only [hek, if_false, List.find?, hek', decide_False, hk']
          simpa [hk'] using ih

theorem getOwn_append_singleton {α : Type} (o : List (JSString × α)) (k k' : JSString)
    (v : α) :
    getOwn (o ++ [(k, v)]) k'
      = match getOwn o k' with
        | some x => some x
        | none => if k' = k then some v else none := by
  induction o with
  | nil =>
    by_cases h : k = k'
    · subst h; simp [getOwn, List.find?]
    · have h' : ¬ k' = k := fun e => h e.symm
      simp [getOwn, List.find?, h, h']
  | cons e es ih =>
    simp only [getOwn, List.cons_append, List.find?] at ih ⊢
    by_cases he : e.1 = k'
    · simp [he]
    · simp only [he, decide_False]
      exact ih

/-- Reading a property after an assignment. -/
theorem getOwn_setProp {α : Type} (o : List (JSString × α)) (k k' : JSString) (v : α) :
    getOwn (setProp o k v) k' = if k' = k then some v else getOwn o k' := by
  unfold setProp
  by_cases h : (getOwn o k).isSome = true
  · rw [if_pos h, getOwn_map_set]
    by_cases hk : k' = k
    · simp only [hk, if_true]
      obtain ⟨x, hx⟩ := Option.isSome_iff_exists.mp h
      simp [hx]
    · simp [hk]
  · rw [if_neg h, getOwn_append_singleton]
    have hnone : getOwn o k = none := by
      cases hg : getOwn o k with
      | none => rfl
      | some x => simp [hg] at h
    by_cases hk : k' = k
    · subst hk; simp [hnone]
    · simp only [hk, if_false]
      cases getOwn o k' <;> rfl

theorem getOwn_cons {α : Type} (e : JSString × α) (es : List (JSString × α))
    (k : JSString) :
    getOwn (e :: es) k = if e.1 = k then some e.2 else getOwn es k := by
  by_cases he : e.1 = k
  · simp [getOwn, List.find?, he]
  · simp [getOwn, List.find?, he]

theorem getOwn_isSome_iff {α : Type} (o : List (JSString × α)) (k : JSString) :
    (getOwn o k).isSome = true ↔ k ∈ o.map (fun e => e.1) := by
  induction o with
  | nil =>
    constructor
    · intro h; cases h
    · intro h; cases h
  | cons e es ih =>
    rw [getOwn_cons, List.map_cons, List.mem_cons]
    by_cases he : e.1 = k
    · rw [if_pos he]
      exact ⟨fun _ => Or.inl he.symm, fun _ => rfl⟩
    · rw [if_neg he, ih]
      constructor
      · exact Or.inr
      · rintro (h | h)
        · exact absurd h.symm he
        · exact h

theorem keys_map_set {α : Type} (o : List (JSString × α)) (k : JSString) (v : α) :
    (o.map (fun e => if e.1 = k then (k, v) else e)).map (fun e => e.1)
      = o.map (fun e => e.1) := by
  induction o with
  | nil => rfl
  | cons e es ih =>
    rw [List.map_cons, List.map_cons, ih]
    by_cases he : e.1 = k
    · rw [if_pos he]
      exact congrArg (fun x => x :: List.map (fun e => e.1) es) he.symm
    · rw [if_neg he]
      rfl

/-- The keys of an object after an assignment. -/
theorem keys_setProp {α : Type} (o : List (JSString × α)) (k : JSString) (v : α) :
    (setProp o k v).map (fun e => e.1)
      = if k ∈ o.map (fun e => e.1) then o.map (fun e => e.1)
        else o.map (fun e => e.1) ++ [k] := by
  unfold setProp
  by_cases h : (getOwn o k).isSome = true
  · rw [if_pos h, if_pos ((getOwn_isSome_iff o k).mp h), keys_map_set]
  · rw [if_neg h, if_neg (fun hm => h ((getOwn_isSome_iff o k).mpr hm))]
    simp

theorem keys_nodup_setProp {α : Type} (o : List (JSString × α)) (k : JSString) (v : α)
    (h : (o.map (fun e => e.1)).Nodup) : ((setProp o k v).map (fun e => e.1)).Nodup := by
  rw [keys_setProp]
  split_ifs with hk
  · exact h
  · rw [List.nodup_append]
    refine ⟨h, List.nodup_singleton k, ?_⟩
    intro a ha hb
    rw [List.mem_singleton] at hb
    exact hk (hb ▸ ha)

theorem keys_nodup_fillRowLoop (values headers : List JSString) (index : Nat) (row : Row)
    (h : (row.map (fun e => e.1)).Nodup) :
    ((fillRowLoop values headers index row).map (fun e => e.1)).Nodup := by
  induction headers generalizing index row with
  | nil => rw [fillRowLoop]; exact h
  | cons x xs ih =>
    rw [fillRowLoop]
    exact ih _ _ (keys_nodup_setProp _ _ _ h)

theorem fillRowLoop_append (values pre post : List JSString) (index : Nat) (row : Row) :
    fillRowLoop values (pre ++ post) index row
      = fillRowLoop values post (index + pre.length) (fillRowLoop values pre index row) := by
  induction pre generalizing index row with
  | nil => simp [fillRowLoop]
  | cons x xs ih =>
    rw [List.cons_append, fillRowLoop, ih, fillRowLoop]
    congr 1
    simp only [List.length_cons]
    omega

theorem getOwn_fillRowLoop_of_not_mem (values headers : List JSString) (index : Nat)
    (row : Row) (k : JSString) (h : ∀ x ∈ headers, normalizeHeader x ≠ k) :
    getOwn (fillRowLoop values headers index row) k = getOwn row k := by
  induction headers generalizing index row with
  | nil => rw [fillRowLoop]
  | cons x xs ih =>
    rw [fillRowLoop, ih _ _ (fun y hy => h y (List.mem_cons_of_mem _ hy)), getOwn_setProp,
      if_neg (fun e => h x (by simp) e.symm)]

/-- Last write wins: after the columns are stored, a key holds the value of
the rightmost column that normalizes to it. -/
theorem getOwn_fillRowLoop_last (values pre post : List JSString) (h : JSString)
    (index : Nat) (row : Row)
    (hpost : ∀ x ∈ post, normalizeHeader x ≠ normalizeHeader h) :
    getOwn (fillRowLoop values (pre ++ h :: post) index row) (normalizeHeader h)
      = some (coerceValue (values.getD (index + pre.length) [])) := by
  rw [fillRowLoop_append, fillRowLoop,
    getOwn_fillRowLoop_of_not_mem _ _ _ _ _ hpost, getOwn_setProp, if_pos rfl]

/-- The same, for column `i` of a list of headers. -/
theorem getOwn_rowOfValues (headers values : List JSString) (i : Nat)
    (hi : i < headers.length)
    (hlast : ∀ j, i < j → j < headers.length →
      normalizeHeader (headers.getD j []) ≠ normalizeHeader (headers.getD i [])) :
    getOwn (rowOfValues headers values) (normalizeHeader (headers.getD i []))
      = some (coerceValue (values.getD i [])) := by
  have hsplit : headers = headers.take i ++ headers.getD i [] :: headers.drop (i + 1) := by
    have h1 : headers.getD i [] = headers[i] := by
      rw [List.getD_eq_getElem?_getD, List.getElem?_eq_getElem hi]; rfl
    rw [h1, ← List.drop_eq_getElem_cons hi, List.take_append_drop]
  have hpost : ∀ x ∈ headers.drop (i + 1),
      normalizeHeader x ≠ normalizeHeader (headers.getD i []) := by
    intro x hx
    obtain ⟨m, hm, rfl⟩ := List.getElem_of_mem hx
    rw [List.getElem_drop]
    rw [List.length_drop] at hm
    have := hlast (i + 1 + m) (by omega) (by omega)
    rw [List.getD_eq_getElem?_getD (l := headers) (n := i + 1 + m),
      List.getElem?_eq_getElem (by omega)] at this
    exact this
  have h := getOwn_fillRowLoop_last values (headers.take i) (headers.drop (i + 1))
    (headers.getD i []) 0 [] hpost
  rw [← hsplit] at h
  rw [rowOfValues, backfillGeomaticien_eq, h]
  congr 3
  simp only [List.length_take, Nat.zero_add]
  omega

theorem keys_nodup_rowOfValues (headers values : List JSString) :
    ((rowOfValues headers values).map (fun e => e.1)).Nodup := by
  rw [rowOfValues, backfillGeomaticien_eq]
  exact keys_nodup_fillRowLoop _ _ _ _ (by simp)

/-- Row `n` of `parseCSV`, when there is one, is built from non-blank line
`n + 1`. -/
theorem parseCSV_getElem? (csv : JSString) (n : Nat) (row : Row)
    (h : (parseCSV csv)[n]? = some row) :
    row = buildRow (csvHeaders csv) (csvDelimiter csv) ((nonBlankLines csv).getD (n + 1) []) := by
  by_cases hL : 2 ≤ (nonBlankLines csv).length
  · rw [parseCSV_eq_map csv hL, List.getElem?_map, List.getElem?_drop] at h
    cases hg : (nonBlankLines csv)[1 + n]? with
    | none => rw [hg] at h; simp at h
    | some line =>
      rw [hg] at h
      simp only [Option.map_some', Option.some.injEq] at h
      rw [← h, List.getD_eq_getElem?_getD, Nat.add_comm n 1, hg]
      rfl
  · have : parseCSV csv = [] := by
      unfold parseCSV
      by_cases h1 : csv = [] ∨ trim csv = []
      · rw [if_pos h1]
      · rw [if_neg h1]
        simp only
        rw [if_pos (by omega)]
    rw [this] at h
    simp at h

theorem countP_key_eq_one {α : Type} (o : List (JSString × α)) (k : JSString)
    (hnd : (o.map (fun e => e.1)).Nodup) (hmem : k ∈ o.map (fun e => e.1)) :
    o.countP (fun e => decide (e.1 = k)) = 1 := by
  induction o with
  | nil => cases hmem
  | cons e es ih =>
    rw [List.map_cons, List.nodup_cons] at hnd
    rw [List.map_cons, List.mem_cons] at hmem
    rw [List.countP_cons]
    by_cases he : e.1 = k
    · have hz : es.countP (fun e => decide (e.1 = k)) = 0 := by
        rw [List.countP_eq_zero]
        intro x hx hxk
        have hxk' : x.1 = k := of_decide_eq_true hxk
        apply hnd.1
        rw [he, ← hxk']
        exact List.mem_map_of_mem _ hx
      rw [hz, if_pos (decide_eq_true he)]
    · have hk : k ∈ es.map (fun e => e.1) := by
        rcases hmem with h | h
        · exact absurd h.symm he
        · exact h
      rw [ih hnd.2 hk, if_neg (by simpa using he)]

/-- C19. Last-write-wins on header collisions: in every row returned by
`DataManager.parseCSV`, the canonical key of a column that no column to its
right shares holds the coerced value of that column, and the key appears once
in the row. -/
theorem parseCSV_last_write_wins (csv : JSString) (n i : Nat) (row : Row)
    (hrow : (parseCSV csv)[n]? = some row)
    (hi : i < (csvHeaders csv).length)
    (hlast : ∀ j, i < j → j < (csvHeaders csv).length →
      normalizeHeader ((csvHeaders csv).getD j [])
        ≠ normalizeHeader ((csvHeaders csv).getD i [])) :
    getOwn row (normalizeHeader ((csvHeaders csv).getD i []))
        = some (coerceValue ((alignedValues (csvHeaders csv) (csvDelimiter csv)
            ((nonBlankLines csv).getD (n + 1) [])).getD i [])) ∧
      row.countP (fun e => decide (e.1 = normalizeHeader ((csvHeaders csv).getD i []))) = 1 := by
  have hr := parseCSV_getElem? csv n row hrow
  have hget : getOwn row (normalizeHeader ((csvHeaders csv).getD i []))
      = some (coerceValue ((alignedValues (csvHeaders csv) (csvDelimiter csv)
          ((nonBlankLines csv).getD (n + 1) [])).getD i [])) := by
    rw [hr, buildRow]
    exact getOwn_rowOfValues _ _ i hi hlast
  refine ⟨hget, ?_⟩
  have hmem : normalizeHeader ((csvHeaders csv).getD i []) ∈ row.map (fun e => e.1) := by
    rw [← getOwn_isSome_iff, hget]
    rfl
  have hnd : (row.map (fun e => e.1)).Nodup := by
    rw [hr, buildRow]
    exact keys_nodup_rowOfValues _ _
  exact countP_key_eq_one row _ hnd hmem

/-- Two columns that both normalize to `total_parcels`: the row keeps the
value of the right one, once. -/
theorem parseCSV_last_write_wins_witness :
    getOwn [("total_parcels".toList, JSValue.num (.finite 7))] "total_parcels".toList
        = some (JSValue.num (.finite 7)) ∧
      [("total_parcels".toList, JSValue.num (.finite 7))].countP
        (fun e => decide (e.1 = "total_parcels".toList)) = 1 := by
  have hall : (parseCSV "Total Parcelles;Total Parcels\n5;7".toList)[0]?
        = some [("total_parcels".toList, .num (.finite 7))] ∧
      (csvHeaders "Total Parcelles;Total Parcels\n5;7".toList).length = 2 ∧
      normalizeHeader ((csvHeaders "Total Parcelles;Total Parcels\n5;7".toList).getD 1 [])
        = "total_parcels".toList ∧
      coerceValue ((alignedValues (csvHeaders "Total Parcelles;Total Parcels\n5;7".toList)
        (csvDelimiter "Total Parcelles;Total Parcels\n5;7".toList)
        ((nonBlankLines "Total Parcelles;Total Parcels\n5;7".toList).getD (0 + 1) [])).getD 1 [])
        = .num (.finite 7) :=
    parseCSV_samples.2.2.2.2.2.2.2.1
  have h := parseCSV_last_write_wins "Total Parcelles;Total Parcels\n5;7".toList 0 1
    [("total_parcels".toList, .num (.finite 7))] hall.1 (by rw [hall.2.1]; omega)
    (by
      intro j h1 h2
      rw [hall.2.1] at h2
      omega)
  rw [hall.2.2.1, hall.2.2.2] at h
  exact h

/-- The three cases of `mappedKey`: an own key of the alias table, a name
inherited from `Object.prototype`, and any other slug. -/
theorem mappedKey_cases (s : JSString) :
    (∀ v, getOwn headerAliasMap s = some v → mappedKey s = v) ∧
    (getOwn headerAliasMap s = none →
      (∀ key, inheritedKey s = some key → mappedKey s = key) ∧
      (inheritedKey s = none → mappedKey s = s)) := by
  delta mappedKey
  generalize getOwn headerAliasMap s = g
  refine ⟨fun v h => ?_, fun h => ⟨fun key hi => ?_, fun hi => ?_⟩⟩
  · rw [h]
  · rw [h, hi]
  · rw [h, hi]

theorem mappedKey_of_some (s v : JSString) (h : getOwn headerAliasMap s = some v) :
    mappedKey s = v :=
  (mappedKey_cases s).1 v h

theorem mappedKey_of_inherited (s key : JSString) (h : getOwn headerAliasMap s = none)
    (hi : inheritedKey s = some key) : mappedKey s = key :=
  ((mappedKey_cases s).2 h).1 key hi

theorem mappedKey_of_unknown (s : JSString) (h : getOwn headerAliasMap s = none)
    (hi : inheritedKey s = none) : mappedKey s = s :=
  ((mappedKey_cases s).2 h).2 hi

/-- C16, as stated, fails.  Two columns with the slug `note`, which is not a
key of the alias table: the value of the left one is not kept.  And the slug
`constructor` is not a key of the alias table, yet the key used in the row is
not the slug. -/
theorem parseCSV_unknown_header_counterexample :
    (getOwn headerAliasMap (cleanHeader "Note".toList) = none ∧
      cleanHeader "Note".toList = "note".toList ∧
      parseCSV "Note;note\nx;y".toList = [[("note".toList, .str "y".toList)]] ∧
      coerceValue "x".toList ≠ .str "y".toList) ∧
    (getOwn headerAliasMap (cleanHeader "constructor".toList) = none ∧
      normalizeHeader "constructor".toList ≠ cleanHeader "constructor".toList) :=
  parseCSV_samples.2.2.2.2.2.1

/-- C16, amended. Unknown headers survive: when the slug of a column is not a
key of the alias table, nor a name inherited from `Object.prototype`, the
canonical key used in the row is the slug itself, and the row holds the
coerced value of the column under it provided no column to its right
normalizes to the same key. -/
theorem parseCSV_unknown_header_survives (csv : JSString) (n i : Nat) (row : Row)
    (hrow : (parseCSV csv)[n]? = some row)
    (hi : i < (csvHeaders csv).length)
    (hunknown : getOwn headerAliasMap (cleanHeader ((csvHeaders csv).getD i [])) = none)
    (hplain : inheritedKey (cleanHeader ((csvHeaders csv).getD i [])) = none)
    (hlast : ∀ j, i < j → j < (csvHeaders csv).length →
      normalizeHeader ((csvHeaders csv).getD j [])
        ≠ cleanHeader ((csvHeaders csv).getD i [])) :
    normalizeHeader ((csvHeaders csv).getD i []) = cleanHeader ((csvHeaders csv).getD i []) ∧
      getOwn row (cleanHeader ((csvHeaders csv).getD i []))
        = some (coerceValue ((alignedValues (csvHeaders csv) (csvDelimiter csv)
            ((nonBlankLines csv).getD (n + 1) [])).getD i [])) := by
  have hkey : normalizeHeader ((csvHeaders csv).getD i [])
      = cleanHeader ((csvHeaders csv).getD i []) :=
    mappedKey_of_unknown _ hunknown hplain
  refine ⟨hkey, ?_⟩
  have hr := parseCSV_getElem? csv n row hrow
  rw [hr, buildRow, ← hkey]
  apply getOwn_rowOfValues _ _ i hi
  intro j h1 h2
  rw [hkey]
  exact hlast j h1 h2

/-- A sheet with the unknown column `Observations`. -/
theorem parseCSV_unknown_header_survives_witness :
    normalizeHeader "Observations".toList = "observations".toList ∧
      getOwn [("commune".toList, JSValue.str "Bandafassi".toList),
          ("observations".toList, JSValue.str "RAS".toList)] "observations".toList
        = some (JSValue.str "RAS".toList) := by
  have hall : (parseCSV "Commune;Observations\nBandafassi;RAS".toList)[0]?
        = some [("commune".toList, .str "Bandafassi".toList),
            ("observations".toList, .str "RAS".toList)] ∧
      (csvHeaders "Commune;Observations\nBandafassi;RAS".toList).length = 2 ∧
      (csvHeaders "Commune;Observations\nBandafassi;RAS".toList).getD 1 []
        = "Observations".toList ∧
      getOwn headerAliasMap (cleanHeader "Observations".toList) = none ∧
      inheritedKey (cleanHeader "Observations".toList) = none ∧
      cleanHeader "Observations".toList = "observations".toList ∧
      coerceValue ((alignedValues (csvHeaders "Commune;Observations\nBandafassi;RAS".toList)
        (csvDelimiter "Commune;Observations\nBandafassi;RAS".toList)
        ((nonBlankLines "Commune;Observations\nBandafassi;RAS".toList).getD (0 + 1) [])).getD 1 [])
        = .str "RAS".toList :=
    parseCSV_samples.2.2.2.2.2.2.1
  obtain ⟨hrow, hlen, e0, hunk, hplain, e1, e2⟩ := hall
  have h := parseCSV_unknown_header_survives "Commune;Observations\nBandafassi;RAS".toList 0 1
    [("commune".toList, .str "Bandafassi".toList), ("observations".toList, .str "RAS".toList)]
    hrow (by rw [hlen]; omega) (by rw [e0]; exact hunk) (by rw [e0]; exact hplain)
    (by
      intro j h1 h2
      rw [hlen] at h2
      omega)
  rw [e0, e1, e2] at h
  exact h

/-! ## Facts about slugs -/

theorem char_eq_of_toNat {c d : Char} (h : c.toNat = d.toNat) : c = d := by
  rw [← Char.ofNat_toNat c, ← Char.ofNat_toNat d, h]

/-- Every character of the table of accented letters has a code from `0xC0`
to `0x212B` and is no white space; every base letter is an ASCII letter. -/
theorem decomposableLetters_codes :
    ∀ e ∈ decomposableLetters,
      ((0x41 ≤ e.1 ∧ e.1 ≤ 0x5A) ∨ (0x61 ≤ e.1 ∧ e.1 ≤ 0x7A)) ∧
      ∀ n ∈ e.2, 0xC0 ≤ n ∧ n ≤ 0x212B ∧ n ≠ 0x1680 ∧ (n < 0x2000 ∨ 0x205F < n) := by
  decide!

theorem baseLetter_some {c b : Char} (h : baseLetter c = some b) :
    ∃ e ∈ decomposableLetters, c.toNat ∈ e.2 ∧ b = Char.ofNat e.1 := by
  unfold baseLetter at h
  cases hf : decomposableLetters.find? (fun e => e.2.contains c.toNat) with
  | none => rw [hf] at h; cases h
  | some e =>
    rw [hf] at h
    simp only [Option.map_some', Option.some.injEq] at h
    have hm := List.mem_of_find?_eq_some hf
    have hp := List.find?_some hf
    exact ⟨e, hm, by simpa using hp, h.symm⟩

theorem baseLetter_none_of_lt {c : Char} (h : c.toNat < 0xC0) : baseLetter c = none := by
  cases hb : baseLetter c with
  | none => rfl
  | some b =>
    obtain ⟨e, he, hc, _⟩ := baseLetter_some hb
    have := ((decomposableLetters_codes e he).2 _ hc).1
    omega

theorem toNat_ofNat_of_lt {n : Nat} (h : n < 0x80) : (Char.ofNat n).toNat = n := by
  interval_cases n <;> rfl

theorem isSlugChar_range {c : Char} (h : isSlugChar c = true) :
    (0x61 ≤ c.toNat ∧ c.toNat ≤ 0x7A) ∨ (0x30 ≤ c.toNat ∧ c.toNat ≤ 0x39) ∨ c.toNat = 0x5F := by
  simpa [isSlugChar, isDigit, or_assoc] using h

theorem isWordChar_range {c : Char} (h : isWordChar c = true) :
    (0x41 ≤ c.toNat ∧ c.toNat ≤ 0x5A) ∨ (0x61 ≤ c.toNat ∧ c.toNat ≤ 0x7A) ∨
      (0x30 ≤ c.toNat ∧ c.toNat ≤ 0x39) ∨ c.toNat = 0x5F := by
  simpa [isWordChar, isDigit, or_assoc] using h

theorem not_whiteSpace_of_lt {c : Char} (h1 : 0x21 ≤ c.toNat) (h2 : c.toNat < 0x80) :
    isJSWhiteSpace c = false := by
  unfold isJSWhiteSpace
  generalize c.toNat = n at h1 h2
  interval_cases n <;> rfl

theorem isWordChar_of_isSlugChar {c : Char} (h : isSlugChar c = true) :
    isWordChar c = true := by
  have hr := isSlugChar_range h
  simp only [isWordChar, isDigit, Bool.or_eq_true, Bool.and_eq_true, decide_eq_true_eq]
  omega

theorem lowerChar_of_isSlugChar {c : Char} (h : isSlugChar c = true) : lowerChar c = c := by
  have hr := isSlugChar_range h
  unfold lowerChar
  rw [if_neg (by omega)]

theorem isSlugChar_lowerChar {c : Char} (h : isWordChar c = true) :
    isSlugChar (lowerChar c) = true := by
  have hr := isWordChar_range h
  unfold lowerChar
  by_cases hu : 0x41 ≤ c.toNat ∧ c.toNat ≤ 0x5A
  · rw [if_pos hu]
    have ht : (Char.ofNat (c.toNat + 0x20)).toNat = c.toNat + 0x20 :=
      toNat_ofNat_of_lt (by omega)
    simp only [isSlugChar, isDigit, ht, Bool.or_eq_true, Bool.and_eq_true, decide_eq_true_eq]
    omega
  · rw [if_neg hu]
    simp only [isSlugChar, isDigit, Bool.or_eq_true, Bool.and_eq_true, decide_eq_true_eq]
    omega

theorem mem_underscoreRunsLoop (b : Bool) (s : JSString) (c : Char)
    (h : c ∈ underscoreRunsLoop b s) : c = '_' ∨ (c ∈ s ∧ isJSWhiteSpace c = false) := by
  induction s generalizing b with
  | nil => simp [underscoreRunsLoop] at h
  | cons x xs ih =>
    rw [underscoreRunsLoop] at h
    by_cases hx : isJSWhiteSpace x = true
    · rw [if_pos hx] at h
      cases b with
      | true =>
        simp only [if_true] at h
        rcases ih _ h with h1 | h1
        · exact Or.inl h1
        · exact Or.inr ⟨List.mem_cons_of_mem _ h1.1, h1.2⟩
      | false =>
        simp only [Bool.false_eq_true, if_false, List.mem_cons] at h
        rcases h with h | h
        · exact Or.inl h
        · rcases ih _ h with h1 | h1
          · exact Or.inl h1
          · exact Or.inr ⟨List.mem_cons_of_mem _ h1.1, h1.2⟩
    · rw [if_neg hx, List.mem_cons] at h
      rcases h with h | h
      · subst h
        exact Or.inr ⟨by simp, by simpa using hx⟩
      · rcases ih _ h with h1 | h1
        · exact Or.inl h1
        · exact Or.inr ⟨List.mem_cons_of_mem _ h1.1, h1.2⟩

theorem toLowerCase_eq_map (s : JSString) : toLowerCase s = s.map lowerChar := rfl

/-- A slug is made of the characters `a`-`z`, `0`-`9` and `_`. -/
theorem cleanHeader_isSlug (h : JSString) : ∀ c ∈ cleanHeader h, isSlugChar c = true := by
  intro c hc
  unfold cleanHeader at hc
  rw [toLowerCase_eq_map, List.mem_map] at hc
  obtain ⟨x, hx, rfl⟩ := hc
  apply isSlugChar_lowerChar
  rcases mem_underscoreRunsLoop _ _ _ hx with h1 | ⟨h1, h2⟩
  · subst h1; rfl
  · simp only [removeNonWord, List.mem_filter, Bool.or_eq_true] at h1
    rcases h1.2 with h3 | h3
    · exact h3
    · rw [h3] at h2; cases h2

theorem underscoreRunsLoop_of_no_whiteSpace (b : Bool) (s : JSString)
    (h : ∀ c ∈ s, isJSWhiteSpace c = false) : underscoreRunsLoop b s = s := by
  induction s generalizing b with
  | nil => rfl
  | cons x xs ih =>
    have hx : ¬ isJSWhiteSpace x = true := by simp [h x (by simp)]
    rw [underscoreRunsLoop, if_neg hx, ih _ (fun c hc => h c (List.mem_cons_of_mem _ hc))]

theorem foldDiacritics_of_ascii (s : JSString) (h : ∀ c ∈ s, c.toNat < 0x80) :
    foldDiacritics s = s := by
  induction s with
  | nil => rfl
  | cons x xs ih =>
    have hx := h x (by simp)
    rw [foldDiacritics, baseLetter_none_of_lt (by omega)]
    simp only
    rw [if_neg (by omega), ih (fun c hc => h c (List.mem_cons_of_mem _ hc))]

theorem trim_of_no_whiteSpace (s : JSString) (h : ∀ c ∈ s, isJSWhiteSpace c = false) :
    trim s = s := by
  have h1 : trimStart s = s := by
    cases s with
    | nil => rfl
    | cons x xs => exact trimStart_eq_self_of_head x xs (h x (by simp))
  rw [trim, h1]
  rcases List.eq_nil_or_concat s with e | ⟨t, z, e⟩
  · subst e; rfl
  · have e' : s = t ++ [z] := by simpa using e
    rw [e']
    exact trimEnd_concat t z (h z (by rw [e']; simp))

/-- The slug of a slug is the slug itself. -/
theorem cleanHeader_of_slug (s : JSString) (h : ∀ c ∈ s, isSlugChar c = true) :
    cleanHeader s = s := by
  have hrange := fun c hc => isSlugChar_range (h c hc)
  have hws : ∀ c ∈ s, isJSWhiteSpace c = false := by
    intro c hc
    have := hrange c hc
    exact not_whiteSpace_of_lt (by omega) (by omega)
  have hbom : stripBOM s = s := by
    cases s with
    | nil => rfl
    | cons x xs =>
      have := hrange x (by simp)
      rw [stripBOM, if_neg (by omega)]
  have hfold : foldDiacritics s = s :=
    foldDiacritics_of_ascii s (fun c hc => by have := hrange c hc; omega)
  have hword : removeNonWord s = s := by
    simp only [removeNonWord, List.filter_eq_self, Bool.or_eq_true]
    exact fun c hc => Or.inl (isWordChar_of_isSlugChar (h c hc))
  have hlow : toLowerCase s = s := by
    rw [toLowerCase_eq_map]
    conv_rhs => rw [← List.map_id s]
    apply List.map_congr_left
    exact fun c hc => lowerChar_of_isSlugChar (h c hc)
  unfold cleanHeader
  rw [hbom, trim_of_no_whiteSpace s hws, hfold, hword, underscoreRuns,
    underscoreRunsLoop_of_no_whiteSpace false s hws, hlow]

theorem getOwn_some_mem {α : Type} (o : List (JSString × α)) (k : JSString) (v : α)
    (h : getOwn o k = some v) : (k, v) ∈ o := by
  unfold getOwn at h
  cases hf : o.find? (fun e => e.1 = k) with
  | none => rw [hf] at h; cases h
  | some e =>
    rw [hf] at h
    simp only [Option.map_some', Option.some.injEq] at h
    have hm := List.mem_of_find?_eq_some hf
    have hp : e.1 = k := by simpa using List.find?_some hf
    have : e = (k, v) := Prod.ext hp h
    rw [← this]
    exact hm

/-- The values of the alias table written in slug form are fixed by
`mappedKey`, two of them apart. -/
theorem headerAliasMap_slug_values_fixed :
    ∀ e ∈ headerAliasMap, e.2.all isSlugChar = true →
      e.2 ≠ "duplicates_removed".toList → e.2 ≠ "post_processed_parcels".toList →
      mappedKey e.2 = e.2 :=
  normalizeHeader_samples.2.2.1

/-- The values of the alias table that are not in slug form (the camelCase
ones) normalize to their lower-case form, which is another key. -/
theorem headerAliasMap_camel_values_lowered :
    ∀ e ∈ headerAliasMap, e.2.all isSlugChar = false →
      normalizeHeader e.2 = toLowerCase e.2 ∧ normalizeHeader e.2 ≠ e.2 :=
  normalizeHeader_samples.2.2.2.1

/-- C17, as stated, fails: the canonical key `duplicateRemovalRate` of the
header `Taux suppression doublons` normalizes to `duplicateremovalrate`, and
`percentTotal` to `percenttotal`. -/
theorem normalizeHeader_idempotent_counterexample :
    normalizeHeader "Taux suppression doublons".toList = "duplicateRemovalRate".toList ∧
      normalizeHeader (normalizeHeader "Taux suppression doublons".toList)
        = "duplicateremovalrate".toList ∧
      normalizeHeader (normalizeHeader "Taux suppression doublons".toList)
        ≠ normalizeHeader "Taux suppression doublons".toList ∧
      normalizeHeader "percentTotal".toList = "percenttotal".toList :=
  normalizeHeader_samples.2.2.2.2.1

/-- C17, amended. Header normalization is idempotent on canonical keys in slug
form: when the canonical key of a header is made of `a`-`z`, `0`-`9` and `_`
only, and is neither `duplicates_removed` nor `post_processed_parcels`,
normalizing the key gives the key again; and every canonical key of the alias
table that is not in slug form normalizes to its lower-case form, not to
itself. -/
theorem normalizeHeader_idempotent_on_slug_keys (h : JSString)
    (hslug : ∀ c ∈ normalizeHeader h, isSlugChar c = true)
    (h1 : normalizeHeader h ≠ "duplicates_removed".toList)
    (h2 : normalizeHeader h ≠ "post_processed_parcels".toList) :
    normalizeHeader (normalizeHeader h) = normalizeHeader h ∧
      ∀ e ∈ headerAliasMap, e.2.all isSlugChar = false →
        normalizeHeader e.2 = toLowerCase e.2 ∧ normalizeHeader e.2 ≠ e.2 := by
  refine ⟨?_, headerAliasMap_camel_values_lowered⟩
  have hclean : normalizeHeader (normalizeHeader h) = mappedKey (normalizeHeader h) := by
    conv_lhs => rw [normalizeHeader, cleanHeader_of_slug _ hslug]
  rw [hclean]
  cases hg : getOwn headerAliasMap (cleanHeader h) with
  | some v =>
    have hk : normalizeHeader h = v := mappedKey_of_some _ _ hg
    rw [hk] at hslug h1 h2 ⊢
    have hm := getOwn_some_mem _ _ _ hg
    have hfix := headerAliasMap_slug_values_fixed (cleanHeader h, v) hm
    simp only at hfix
    exact hfix (List.all_eq_true.mpr hslug) h1 h2
  | none =>
    cases hi : inheritedKey (cleanHeader h) with
    | some key =>
      have hk : normalizeHeader h = key := mappedKey_of_inherited _ _ hg hi
      rw [hk] at hslug
      exfalso
      unfold inheritedKey at hi
      split_ifs at hi
      · have e : key = objectConstructorSource := (Option.some.inj hi).symm
        rw [e] at hslug
        exact absurd (hslug ' ' (by decide)) (by decide)
      · have e : key = "[object Object]".toList := (Option.some.inj hi).symm
        rw [e] at hslug
        exact absurd (hslug ' ' (by decide)) (by decide)
    | none =>
      have hk : normalizeHeader h = cleanHeader h := mappedKey_of_unknown _ hg hi
      rw [hk]
      exact mappedKey_of_unknown _ hg hi

/-- The canonical key `region` of the header `Région` normalizes to itself. -/
theorem normalizeHeader_idempotent_on_slug_keys_witness :
    normalizeHeader (normalizeHeader "Région".toList) = normalizeHeader "Région".toList :=
  have hall : (∀ c ∈ normalizeHeader "Région".toList, isSlugChar c = true) ∧
      normalizeHeader "Région".toList ≠ "duplicates_removed".toList ∧
      normalizeHeader "Région".toList ≠ "post_processed_parcels".toList :=
    normalizeHeader_samples.2.2.2.2.2.1
  (normalizeHeader_idempotent_on_slug_keys "Région".toList hall.1 hall.2.1 hall.2.2).1

/-! ## Facts about case and accents in headers -/

theorem isJSWhiteSpace_codes {c : Char} (h : isJSWhiteSpace c = true) :
    c.toNat ≤ 0x20 ∨ c.toNat = 0xA0 ∨ c.toNat = 0x1680 ∨
      (0x2000 ≤ c.toNat ∧ c.toNat ≤ 0x202F) ∨ c.toNat = 0x205F ∨ c.toNat = 0x3000 ∨
      c.toNat = 0xFEFF := by
  simp only [isJSWhiteSpace, Bool.or_eq_true, Bool.and_eq_true, decide_eq_true_eq] at h
  omega

/-- An ASCII letter. -/
theorem letter_facts {c : Char}
    (h : (0x41 ≤ c.toNat ∧ c.toNat ≤ 0x5A) ∨ (0x61 ≤ c.toNat ∧ c.toNat ≤ 0x7A)) :
    isJSWhiteSpace c = false ∧ c.toNat ≠ 0xFEFF ∧ slugPiece c = [c] := by
  have hws : isJSWhiteSpace c = false := not_whiteSpace_of_lt (by omega) (by omega)
  refine ⟨hws, by omega, ?_⟩
  have hw : isWordChar c = true := by
    simp only [isWordChar, isDigit, Bool.or_eq_true, Bool.and_eq_true, decide_eq_true_eq]
    omega
  unfold slugPiece
  rw [foldDiacritics_of_ascii [c] (by intro x hx; simp at hx; subst hx; omega)]
  simp [removeNonWord, hw]

theorem baseLetter_facts {c b : Char} (h : baseLetter c = some b) :
    ((0x41 ≤ b.toNat ∧ b.toNat ≤ 0x5A) ∨ (0x61 ≤ b.toNat ∧ b.toNat ≤ 0x7A)) ∧
      isJSWhiteSpace c = false ∧ c.toNat ≠ 0xFEFF ∧ slugPiece c = [b] := by
  obtain ⟨e, he, hc, rfl⟩ := baseLetter_some h
  obtain ⟨hl, hn⟩ := decomposableLetters_codes e he
  have hcn := hn _ hc
  have hb : (Char.ofNat e.1).toNat = e.1 := toNat_ofNat_of_lt (by omega)
  have hletter : (0x41 ≤ (Char.ofNat e.1).toNat ∧ (Char.ofNat e.1).toNat ≤ 0x5A) ∨
      (0x61 ≤ (Char.ofNat e.1).toNat ∧ (Char.ofNat e.1).toNat ≤ 0x7A) := by
    rw [hb]; exact hl
  have hws : isJSWhiteSpace c = false := by
    cases hw : isJSWhiteSpace c with
    | false => rfl
    | true =>
      have := isJSWhiteSpace_codes hw
      omega
  refine ⟨hletter, hws, by omega, ?_⟩
  have hw : isWordChar (Char.ofNat e.1) = true := by
    simp only [isWordChar, isDigit, Bool.or_eq_true, Bool.and_eq_true, decide_eq_true_eq]
    omega
  unfold slugPiece
  rw [foldDiacritics, h]
  simp [foldDiacritics, removeNonWord, hw]

theorem lowerChar_eq {c d : Char} (h : lowerChar c = lowerChar d) :
    c = d ∨ (((0x41 ≤ c.toNat ∧ c.toNat ≤ 0x5A) ∨ (0x61 ≤ c.toNat ∧ c.toNat ≤ 0x7A)) ∧
      ((0x41 ≤ d.toNat ∧ d.toNat ≤ 0x5A) ∨ (0x61 ≤ d.toNat ∧ d.toNat ≤ 0x7A))) := by
  unfold lowerChar at h
  by_cases hc : 0x41 ≤ c.toNat ∧ c.toNat ≤ 0x5A
  · by_cases hd : 0x41 ≤ d.toNat ∧ d.toNat ≤ 0x5A
    · exact Or.inr ⟨Or.inl hc, Or.inl hd⟩
    · rw [if_pos hc, if_neg hd] at h
      have ht : (Char.ofNat (c.toNat + 0x20)).toNat = c.toNat + 0x20 :=
        toNat_ofNat_of_lt (by omega)
      rw [h] at ht
      exact Or.inr ⟨Or.inl hc, Or.inr (by omega)⟩
  · by_cases hd : 0x41 ≤ d.toNat ∧ d.toNat ≤ 0x5A
    · rw [if_neg hc, if_pos hd] at h
      have ht : (Char.ofNat (d.toNat + 0x20)).toNat = d.toNat + 0x20 :=
        toNat_ofNat_of_lt (by omega)
      rw [← h] at ht
      exact Or.inr ⟨Or.inr (by omega), Or.inl hd⟩
    · rw [if_neg hc, if_neg hd] at h
      exact Or.inl h

/-- Two characters with the same folded letter are equal, or leave two
letters that differ by case at most. -/
theorem foldedLetter_eq {c d : Char} (h : foldedLetter c = foldedLetter d) :
    c = d ∨ (isJSWhiteSpace c = false ∧ isJSWhiteSpace d = false ∧
      c.toNat ≠ 0xFEFF ∧ d.toNat ≠ 0xFEFF ∧
      ∃ x y, slugPiece c = [x] ∧ slugPiece d = [y] ∧
        isJSWhiteSpace x = false ∧ isJSWhiteSpace y = false ∧ lowerChar x = lowerChar y) := by
  unfold foldedLetter at h
  cases hc : baseLetter c with
  | some b =>
    obtain ⟨hbl, hcws, hcb, hcp⟩ := baseLetter_facts hc
    cases hd : baseLetter d with
    | some b' =>
      obtain ⟨hbl', hdws, hdb, hdp⟩ := baseLetter_facts hd
      rw [hc, hd] at h
      exact Or.inr ⟨hcws, hdws, hcb, hdb, b, b', hcp, hdp, (letter_facts hbl).1,
        (letter_facts hbl').1, h⟩
    | none =>
      rw [hc, hd] at h
      simp only [Option.getD_some, Option.getD_none] at h
      have hdl : (0x41 ≤ d.toNat ∧ d.toNat ≤ 0x5A) ∨ (0x61 ≤ d.toNat ∧ d.toNat ≤ 0x7A) := by
        rcases lowerChar_eq h with e | e
        · rw [← e]; exact hbl
        · exact e.2
      obtain ⟨hdws, hdb, hdp⟩ := letter_facts hdl
      exact Or.inr ⟨hcws, hdws, hcb, hdb, b, d, hcp, hdp, (letter_facts hbl).1, hdws, h⟩
  | none =>
    cases hd : baseLetter d with
    | some b' =>
      obtain ⟨hbl', hdws, hdb, hdp⟩ := baseLetter_facts hd
      rw [hc, hd] at h
      simp only [Option.getD_some, Option.getD_none] at h
      have hcl : (0x41 ≤ c.toNat ∧ c.toNat ≤ 0x5A) ∨ (0x61 ≤ c.toNat ∧ c.toNat ≤ 0x7A) := by
        rcases lowerChar_eq h with e | e
        · rw [e]; exact hbl'
        · exact e.1
      obtain ⟨hcws, hcb, hcp⟩ := letter_facts hcl
      exact Or.inr ⟨hcws, hdws, hcb, hdb, c, b', hcp, hdp, hcws, (letter_facts hbl').1, h⟩
    | none =>
      rw [hc, hd] at h
      simp only [Option.getD_none] at h
      rcases lowerChar_eq h with e | ⟨e1, e2⟩
      · exact Or.inl e
      · obtain ⟨hcws, hcb, hcp⟩ := letter_facts e1
        obtain ⟨hdws, hdb, hdp⟩ := letter_facts e2
        exact Or.inr ⟨hcws, hdws, hcb, hdb, c, d, hcp, hdp, hcws, hdws, h⟩

theorem map_folded_cons {c d : Char} {s t : JSString}
    (h : (c :: s).map foldedLetter = (d :: t).map foldedLetter) :
    foldedLetter c = foldedLetter d ∧ s.map foldedLetter = t.map foldedLetter := by
  simpa using h

theorem stripBOM_folded (s t : JSString) (h : s.map foldedLetter = t.map foldedLetter) :
    (stripBOM s).map foldedLetter = (stripBOM t).map foldedLetter := by
  cases s with
  | nil =>
    cases t with
    | nil => rfl
    | cons d t => simp at h
  | cons c s =>
    cases t with
    | nil => simp at h
    | cons d t =>
      obtain ⟨h1, h2⟩ := map_folded_cons h
      rcases foldedLetter_eq h1 with e | ⟨_, _, hc, hd, _⟩
      · subst e
        rw [stripBOM, stripBOM]
        split_ifs
        · exact h2
        · exact h
      · rw [stripBOM, stripBOM, if_neg hc, if_neg hd]
        exact h

theorem dropWhile_folded (s t : JSString) (h : s.map foldedLetter = t.map foldedLetter) :
    (s.dropWhile isJSWhiteSpace).map foldedLetter
      = (t.dropWhile isJSWhiteSpace).map foldedLetter := by
  induction s generalizing t with
  | nil =>
    cases t with
    | nil => rfl
    | cons d t => simp at h
  | cons c s ih =>
    cases t with
    | nil => simp at h
    | cons d t =>
      obtain ⟨h1, h2⟩ := map_folded_cons h
      rcases foldedLetter_eq h1 with e | ⟨hc, hd, _⟩
      · subst e
        rw [List.dropWhile_cons, List.dropWhile_cons]
        split_ifs
        · exact ih t h2
        · exact h
      · rw [List.dropWhile_cons, List.dropWhile_cons, hc, hd]
        exact h

theorem trim_folded (s t : JSString) (h : s.map foldedLetter = t.map foldedLetter) :
    (trim s).map foldedLetter = (trim t).map foldedLetter := by
  unfold trim trimEnd trimStart
  rw [List.map_reverse, List.map_reverse]
  congr 1
  apply dropWhile_folded
  rw [List.map_reverse, List.map_reverse]
  congr 1
  exact dropWhile_folded s t h

theorem foldDiacritics_cons (c : Char) (s : JSString) :
    foldDiacritics (c :: s) = foldDiacritics [c] ++ foldDiacritics s := by
  rw [foldDiacritics, foldDiacritics]
  cases baseLetter c with
  | some b => simp [foldDiacritics]
  | none =>
    simp only
    split_ifs <;> simp [foldDiacritics]

theorem removeNonWord_foldDiacritics_cons (c : Char) (s : JSString) :
    removeNonWord (foldDiacritics (c :: s))
      = slugPiece c ++ removeNonWord (foldDiacritics s) := by
  rw [foldDiacritics_cons, slugPiece]
  simp [removeNonWord]

theorem slugPiece_cases (c : Char) : slugPiece c = [] ∨ ∃ y, slugPiece c = [y] := by
  unfold slugPiece
  rw [foldDiacritics]
  cases baseLetter c with
  | some b =>
    simp only [foldDiacritics, removeNonWord]
    rw [List.filter_cons]
    split_ifs
    · exact Or.inr ⟨b, rfl⟩
    · exact Or.inl rfl
  | none =>
    simp only
    split_ifs
    · exact Or.inl rfl
    · simp only [foldDiacritics, removeNonWord]
      rw [List.filter_cons]
      split_ifs
      · exact Or.inr ⟨c, rfl⟩
      · exact Or.inl rfl

/-- The slug of the rest of a header, whatever the state of the scan, depends
on the folded letters only. -/
theorem slugTail_folded (s t : JSString) (h : s.map foldedLetter = t.map foldedLetter)
    (b : Bool) :
    toLowerCase (underscoreRunsLoop b (removeNonWord (foldDiacritics s)))
      = toLowerCase (underscoreRunsLoop b (removeNonWord (foldDiacritics t))) := by
  induction s generalizing t b with
  | nil =>
    cases t with
    | nil => rfl
    | cons d t => simp at h
  | cons c s ih =>
    cases t with
    | nil => simp at h
    | cons d t =>
      obtain ⟨h1, h2⟩ := map_folded_cons h
      have ih' := ih t h2
      rw [removeNonWord_foldDiacritics_cons, removeNonWord_foldDiacritics_cons]
      rcases foldedLetter_eq h1 with e | ⟨_, _, _, _, x, y, hx, hy, hxw, hyw, hxy⟩
      · subst e
        rcases slugPiece_cases c with hp | ⟨y, hp⟩
        · rw [hp, List.nil_append, List.nil_append]
          exact ih' b
        · rw [hp, List.singleton_append, List.singleton_append, underscoreRunsLoop,
            underscoreRunsLoop]
          by_cases hy : isJSWhiteSpace y = true
          · rw [if_pos hy, if_pos hy]
            cases b with
            | true => simpa using ih' true
            | false =>
              simp only [Bool.false_eq_true, if_false, toLowerCase_eq_map, List.map_cons,
                List.cons.injEq, true_and]
              simpa [toLowerCase_eq_map] using ih' true
          · rw [if_neg hy, if_neg hy]
            simp only [toLowerCase_eq_map, List.map_cons, List.cons.injEq, true_and]
            simpa [toLowerCase_eq_map] using ih' false
      · rw [hx, hy, List.singleton_append, List.singleton_append, underscoreRunsLoop,
          underscoreRunsLoop, if_neg (by simp [hxw]), if_neg (by simp [hyw])]
        simp only [toLowerCase_eq_map, List.map_cons, List.cons.injEq]
        exact ⟨hxy, by simpa [toLowerCase_eq_map] using ih' false⟩

/-- The slug of a header depends on its folded letters only. -/
theorem cleanHeader_folded (h h' : JSString)
    (hsame : h.map foldedLetter = h'.map foldedLetter) : cleanHeader h = cleanHeader h' := by
  unfold cleanHeader underscoreRuns
  exact slugTail_folded _ _ (trim_folded _ _ (stripBOM_folded _ _ hsame)) false

theorem foldedLetter_lowerChar (c : Char) : foldedLetter (lowerChar c) = foldedLetter c := by
  by_cases hu : 0x41 ≤ c.toNat ∧ c.toNat ≤ 0x5A
  · have hl : lowerChar c = Char.ofNat (c.toNat + 0x20) := by
      unfold lowerChar; rw [if_pos hu]
    have ht : (Char.ofNat (c.toNat + 0x20)).toNat = c.toNat + 0x20 :=
      toNat_ofNat_of_lt (by omega)
    have hb1 : baseLetter c = none := baseLetter_none_of_lt (by omega)
    have hb2 : baseLetter (lowerChar c) = none := by
      apply baseLetter_none_of_lt
      rw [hl, ht]; omega
    have hll : lowerChar (lowerChar c) = lowerChar c := by
      rw [hl]
      generalize hd : Char.ofNat (c.toNat + 0x20) = d at ht
      unfold lowerChar
      rw [if_neg (by omega)]
    unfold foldedLetter
    rw [hb1, hb2]
    exact hll
  · have hl : lowerChar c = c := by
      unfold lowerChar; rw [if_neg hu]
    rw [hl]

theorem foldedLetter_baseLetter (c b : Char) (h : baseLetter c = some b) :
    foldedLetter b = foldedLetter c := by
  have hb := (baseLetter_facts h).1
  have hnone : baseLetter b = none := baseLetter_none_of_lt (by omega)
  unfold foldedLetter
  rw [h, hnone]
  rfl

/-- C14. Header normalization ignores letter case and diacritics: two raw
headers that agree once every accented letter is replaced by its base letter
and every ASCII letter by its lower-case form have the same canonical key.
Changing the case of an ASCII letter, or replacing an accented letter by its
base letter, keeps the folded letter, hence the key. -/
theorem normalizeHeader_ignores_case_and_accents (h h' : JSString)
    (hsame : h.map foldedLetter = h'.map foldedLetter) :
    normalizeHeader h = normalizeHeader h' ∧
      (∀ c, foldedLetter (lowerChar c) = foldedLetter c) ∧
      (∀ c b, baseLetter c = some b → foldedLetter b = foldedLetter c) := by
  refine ⟨?_, foldedLetter_lowerChar, foldedLetter_baseLetter⟩
  unfold normalizeHeader
  rw [cleanHeader_folded h h' hsame]

/-- The headers of the claim: `Région`, `region` and `REGION`. -/
theorem normalizeHeader_ignores_case_and_accents_witness :
    normalizeHeader "Région".toList = "region".toList ∧
      normalizeHeader "REGION".toList = "region".toList ∧
      normalizeHeader "region".toList = "region".toList :=
  ⟨(normalizeHeader_ignores_case_and_accents "Région".toList "region".toList
      (by decide!)).1.trans normalizeHeader_samples.2.2.2.2.2.2.1,
   (normalizeHeader_ignores_case_and_accents "REGION".toList "region".toList
      (by decide!)).1.trans normalizeHeader_samples.2.2.2.2.2.2.1,
   normalizeHeader_samples.2.2.2.2.2.2.1⟩

/-! ## Facts about `getNumericValue` -/

theorem candidateLoop_first (toLower : JSString → JSString) (row : Row)
    (candidates : List JSString) (i : Nat) (k : JSString) (p : JSNumber)
    (hk : candidates[i]? = some k)
    (hp : candidateNumber toLower row k = some p)
    (hfirst : ∀ j kj, j < i → candidates[j]? = some kj →
      candidateNumber toLower row kj = none) :
    candidateLoop toLower row candidates = some p := by
  induction candidates generalizing i with
  | nil => simp at hk
  | cons c cs ih =>
    rw [candidateLoop]
    cases i with
    | zero =>
      simp only [List.getElem?_cons_zero, Option.some.injEq] at hk
      subst hk
      rw [hp]
    | succ i =>
      have h0 : candidateNumber toLower row c = none := hfirst 0 c (by omega) (by simp)
      rw [h0]
      simp only
      apply ih i
      · simpa using hk
      · intro j kj hj hkj
        exact hfirst (j + 1) kj (by omega) (by simpa using hkj)

theorem candidateLoop_congr (toLower : JSString → JSString) (row row' : Row)
    (hsame : ∀ k, getOwn row k = getOwn row' k) (candidates : List JSString) :
    candidateLoop toLower row candidates = candidateLoop toLower row' candidates := by
  induction candidates with
  | nil => rfl
  | cons c cs ih =>
    rw [candidateLoop, candidateLoop, ih]
    simp only [candidateNumber, fieldNumber, hsame]

/-- C20. Candidate order decides: `UIManager.getNumericValue` returns the
number of the earliest candidate, in list order, whose field holds a number
(under the key as given, else under its lower-case form), and a row holding
the same fields in another order gives the same result. -/
theorem getNumericValue_candidate_order (toLower : JSString → JSString) (row row' : Row)
    (hsame : ∀ k, getOwn row k = getOwn row' k)
    (candidates : List JSString) (i : Nat) (k : JSString) (p : JSNumber)
    (hk : candidates[i]? = some k)
    (hp : candidateNumber toLower row k = some p)
    (hfirst : ∀ j kj, j < i → candidates[j]? = some kj →
      candidateNumber toLower row kj = none) :
    getNumericValue toLower row candidates = p ∧
      getNumericValue toLower row' candidates = p := by
  have h := candidateLoop_first toLower row candidates i k p hk hp hfirst
  have h' : candidateLoop toLower row' candidates = some p := by
    rw [← candidateLoop_congr toLower row row' hsame]; exact h
  constructor
  · unfold getNumericValue
    rw [h]
  · unfold getNumericValue
    rw [h']

/-- The witness of the claim: `collected = 100` and `validated = 40`, with the
candidates `validated`, `collected`, for the two orders of the keys. -/
theorem getNumericValue_candidate_order_witness :
    getNumericValue toLowerCase
        [("collected".toList, .num (.finite 100)), ("validated".toList, .num (.finite 40))]
        ["validated".toList, "collected".toList] = .finite 40 ∧
      getNumericValue toLowerCase
        [("validated".toList, .num (.finite 40)), ("collected".toList, .num (.finite 100))]
        ["validated".toList, "collected".toList] = .finite 40 :=
  getNumericValue_candidate_order toLowerCase
    [("collected".toList, .num (.finite 100)), ("validated".toList, .num (.finite 40))]
    [("validated".toList, .num (.finite 40)), ("collected".toList, .num (.finite 100))]
    (by
      intro k
      rw [getOwn_cons, getOwn_cons, getOwn_cons, getOwn_cons]
      by_cases h1 : "collected".toList = k
      · subst h1; decide
      · by_cases h2 : "validated".toList = k
        · subst h2; decide
        · rw [if_neg h1, if_neg h2, if_neg h2, if_neg h1])
    ["validated".toList, "collected".toList] 0 "validated".toList (.finite 40)
    (by decide) (by decide!) (by intro j kj hj; omega)

/-! ## Facts about the fields `getNumericValue` reads -/

theorem candidateLoop_congr_on (toLower : JSString → JSString) (row row' : Row)
    (candidates : List JSString)
    (hsame : ∀ k ∈ candidates, getOwn row k = getOwn row' k ∧
      getOwn row (toLower k) = getOwn row' (toLower k)) :
    candidateLoop toLower row candidates = candidateLoop toLower row' candidates := by
  induction candidates with
  | nil => rfl
  | cons c cs ih =>
    have hc := hsame c (List.mem_cons_self c cs)
    rw [candidateLoop, candidateLoop, ih (fun k hk => hsame k (List.mem_cons_of_mem c hk))]
    simp only [candidateNumber, fieldNumber, hc.1, hc.2]

theorem candidateLoop_none (toLower : JSString → JSString) (row : Row)
    (candidates : List JSString)
    (hnone : ∀ k ∈ candidates, fieldNumber row k = none ∧ fieldNumber row (toLower k) = none) :
    candidateLoop toLower row candidates = none := by
  induction candidates with
  | nil => rfl
  | cons c cs ih =>
    have hc := hnone c (List.mem_cons_self c cs)
    rw [candidateLoop, ih (fun k hk => hnone k (List.mem_cons_of_mem c hk))]
    simp only [candidateNumber, hc.1, hc.2]

/-- C21. No cross-field contamination: with a non-empty candidate list, two
rows that agree on the fields named by the candidates and by their lower-case
forms give the same result of `getNumericValue`, and the result is `0` when
none of those fields holds a number, whatever the other fields hold. -/
theorem getNumericValue_no_cross_field (toLower : JSString → JSString) (row row' : Row)
    (candidates : List JSString) (hne : candidates ≠ [])
    (hsame : ∀ k ∈ candidates, getOwn row k = getOwn row' k ∧
      getOwn row (toLower k) = getOwn row' (toLower k)) :
    getNumericValue toLower row candidates = getNumericValue toLower row' candidates ∧
      ((∀ k ∈ candidates, fieldNumber row k = none ∧ fieldNumber row (toLower k) = none) →
        getNumericValue toLower row candidates = .finite 0) := by
  constructor
  · unfold getNumericValue
    rw [candidateLoop_congr_on toLower row row' candidates hsame, if_neg hne, if_neg hne]
  · intro hnone
    unfold getNumericValue
    rw [candidateLoop_none toLower row candidates hnone, if_neg hne]

/-- Two rows that agree on `rejected` (absent from both) and differ elsewhere:
the candidate `rejected` resolves to `0` on both, although `collected` and
`validated` hold numbers. -/
theorem getNumericValue_no_cross_field_witness :
    getNumericValue toLowerCase
        [("collected".toList, .num (.finite 100)), ("validated".toList, .num (.finite 40))]
        ["rejected".toList]
      = getNumericValue toLowerCase [("collected".toList, .num (.finite 7))]
        ["rejected".toList] ∧
    getNumericValue toLowerCase
        [("collected".toList, .num (.finite 100)), ("validated".toList, .num (.finite 40))]
        ["rejected".toList] = .finite 0 :=
  have h := getNumericValue_no_cross_field toLowerCase
    [("collected".toList, .num (.finite 100)), ("validated".toList, .num (.finite 40))]
    [("collected".toList, .num (.finite 7))] ["rejected".toList] (by decide)
    (by decide)
  ⟨h.1, h.2 (by decide)⟩

/-! ## Facts about the arguments of `getNumericValue` -/

theorem numericOf_ne_nan (v : JSValue) (p : JSNumber) (h : numericOf v = some p) :
    p ≠ .nan := by
  unfold numericOf at h
  have := Option.mem_filter_iff.mp h
  simpa using this.2

theorem fieldNumber_ne_nan (row : Row) (k : JSString) (p : JSNumber)
    (h : fieldNumber row k = some p) : p ≠ .nan := by
  unfold fieldNumber at h
  cases hg : getOwn row k with
  | none => rw [hg] at h; cases h
  | some v =>
    rw [hg] at h
    exact numericOf_ne_nan v p h

theorem candidateLoop_ne_nan (toLower : JSString → JSString) (row : Row)
    (candidates : List JSString) (p : JSNumber)
    (h : candidateLoop toLower row candidates = some p) : p ≠ .nan := by
  induction candidates with
  | nil => cases h
  | cons c cs ih =>
    rw [candidateLoop] at h
    cases hc : candidateNumber toLower row c with
    | some q =>
      rw [hc] at h
      simp only [Option.some.injEq] at h
      subst h
      unfold candidateNumber at hc
      cases hf : fieldNumber row c with
      | some r =>
        rw [hf] at hc
        simp only [Option.some.injEq] at hc
        subst hc
        exact fieldNumber_ne_nan row c r hf
      | none =>
        rw [hf] at hc
        exact fieldNumber_ne_nan row _ q hc
    | none =>
      rw [hc] at h
      exact ih h

theorem looseScan_ne_nan (row : Row) (keys : List JSString) (p : JSNumber)
    (h : looseScan row keys = some p) : p ≠ .nan := by
  induction keys with
  | nil => cases h
  | cons c cs ih =>
    rw [looseScan] at h
    cases hf : fieldNumber row c with
    | some r =>
      rw [hf] at h
      simp only [Option.some.injEq] at h
      subst h
      exact fieldNumber_ne_nan row c r hf
    | none =>
      rw [hf] at h
      exact ih h

theorem getNumericValue_ne_nan (toLower : JSString → JSString) (row : Row)
    (candidates : List JSString) : getNumericValue toLower row candidates ≠ .nan := by
  unfold getNumericValue
  cases hc : candidateLoop toLower row candidates with
  | some p => exact candidateLoop_ne_nan toLower row candidates p hc
  | none =>
    simp only
    split_ifs
    · cases hl : looseScan row (objectKeys row) with
      | some p => exact looseScan_ne_nan row _ p hl
      | none => exact fun e => JSNumber.noConfusion e
    · exact fun e => JSNumber.noConfusion e

/-- C22, on the code: the call with no candidate list throws.  With a row that
is an object and `candidates` left out, `UIManager.getNumericValue` ends with
a `TypeError`; it returns `0` for every row that is no object, and for every
array of strings as candidates it returns a number that is not `NaN`, which
for the empty array is the first number found by scanning the fields of the
row in the order of `Object.keys`, or `0`. -/
theorem getNumericValue_no_list_throws :
    UIManager.getNumericValue toLowerCase
        (.object [("collected".toList, .num (.finite 5))]) .undefined
      = .error .typeError ∧
    (∀ toLower row, UIManager.getNumericValue toLower (.object row) .undefined
      = .error .typeError) ∧
    (∀ toLower candidates,
      UIManager.getNumericValue toLower .null candidates = .ok (.finite 0) ∧
      UIManager.getNumericValue toLower .undefined candidates = .ok (.finite 0) ∧
      (∀ b, UIManager.getNumericValue toLower (.boolean b) candidates = .ok (.finite 0)) ∧
      (∀ n, UIManager.getNumericValue toLower (.number n) candidates = .ok (.finite 0)) ∧
      (∀ s, UIManager.getNumericValue toLower (.string s) candidates = .ok (.finite 0))) ∧
    (∀ toLower arg keys, ∃ p, p ≠ JSNumber.nan ∧
      UIManager.getNumericValue toLower arg (.array keys) = .ok p) ∧
    (∀ toLower row, UIManager.getNumericValue toLower (.object row) (.array [])
      = .ok ((looseScan row (objectKeys row)).getD (.finite 0))) := by
  refine ⟨rfl, fun _ _ => rfl, fun _ c => ⟨?_, ?_, fun _ => ?_, fun _ => ?_, fun _ => ?_⟩,
    ?_, ?_⟩
  · cases c <;> rfl
  · cases c <;> rfl
  · cases c <;> rfl
  · cases c <;> rfl
  · cases c <;> rfl
  · intro toLower arg keys
    cases arg with
    | object row => exact ⟨_, getNumericValue_ne_nan toLower row keys, rfl⟩
    | null => exact ⟨.finite 0, fun e => JSNumber.noConfusion e, rfl⟩
    | undefined => exact ⟨.finite 0, fun e => JSNumber.noConfusion e, rfl⟩
    | boolean b => exact ⟨.finite 0, fun e => JSNumber.noConfusion e, rfl⟩
    | number n => exact ⟨.finite 0, fun e => JSNumber.noConfusion e, rfl⟩
    | string s => exact ⟨.finite 0, fun e => JSNumber.noConfusion e, rfl⟩
  · intro toLower row
    show Except.ok (getNumericValue toLower row []) = _
    unfold getNumericValue
    rw [candidateLoop]
    simp only [if_true]
    cases looseScan row (objectKeys row) <;> rfl

/-! ## Facts about `getGeomaticienName` -/

theorem mem_of_mem_trim {s : JSString} {c : Char} (h : c ∈ trim s) : c ∈ s := by
  obtain ⟨l, r, hs, -, -⟩ := trim_decompose s
  rw [hs]
  exact List.mem_append_left _ (List.mem_append_right _ h)

theorem utf16Length_append (a b : JSString) :
    utf16Length (a ++ b) = utf16Length a + utf16Length b := by
  simp [utf16Length]

theorem utf16Length_trim_le (s : JSString) : utf16Length (trim s) ≤ utf16Length s := by
  obtain ⟨l, r, hs, -, -⟩ := trim_decompose s
  have h : utf16Length s = utf16Length l + utf16Length (trim s) + utf16Length r := by
    conv_lhs => rw [hs]
    rw [utf16Length_append, utf16Length_append]
  omega

theorem hasLetter_of_trim (s : JSString) (h : hasLetter (trim s) = true) :
    hasLetter s = true := by
  unfold hasLetter at h ⊢
  rw [List.any_eq_true] at h ⊢
  obtain ⟨c, hc, hp⟩ := h
  exact ⟨c, mem_of_mem_trim hc, hp⟩

theorem isName_facts (toText : JSNumber → JSString) (s : JSValue)
    (h : isName toText s = true) :
    s.truthy = true ∧ 2 ≤ utf16Length (trim (valueText toText s)) ∧
      hasLetter (trim (valueText toText s)) = true ∧
      isNumericLooking (trim (valueText toText s)) = false := by
  unfold isName at h
  by_cases h1 : s.truthy = false
  · rw [if_pos h1] at h; cases h
  · rw [if_neg h1] at h
    simp only at h
    by_cases h2 : utf16Length (trim (valueText toText s)) < 2
    · rw [if_pos h2] at h; cases h
    · rw [if_neg h2] at h
      by_cases h3 : hasLetter (trim (valueText toText s)) = false
      · rw [if_pos h3] at h; cases h
      · rw [if_neg h3] at h
        by_cases h4 : isNumericLooking (trim (valueText toText s)) = true
        · rw [if_pos h4] at h; cases h
        · exact ⟨by simpa using h1, by omega, by simpa using h3, by simpa using h4⟩

theorem candidateKeys_not_noisy : ∀ k ∈ candidateKeys, noisyKeyPattern k = false := by
  decide!

theorem getGeomaticienName_object (toLower : JSString → JSString)
    (toText : JSNumber → JSString) (row : Row) :
    UIManager.getGeomaticienName toLower toText (.object row)
      = match explicitScan toLower toText row (objectKeys row) with
        | some name => name
        | none =>
          match canonicalScan toText row candidateKeys with
          | some name => name
          | none => (fallbackScan toLower toText row (objectKeys row)).getD [] := rfl

theorem explicitScan_some (toLower : JSString → JSString) (toText : JSNumber → JSString)
    (row : Row) (keys : List JSString) (name : JSString)
    (h : explicitScan toLower toText row keys = some name) :
    ∃ k v, toLower k ∈ candidateKeys ∧ getOwn row k = some v ∧ isName toText v = true ∧
      name = trim (valueText toText v) := by
  induction keys with
  | nil => cases h
  | cons k rest ih =>
    rw [explicitScan] at h
    by_cases hk : toLower k ∈ candidateKeys
    · rw [if_pos hk] at h
      cases hg : getOwn row k with
      | none =>
        rw [hg] at h
        exact ih h
      | some v =>
        rw [hg] at h
        by_cases hn : isName toText v = true
        · simp only [hn, if_true, Option.some.injEq] at h
          exact ⟨k, v, hk, hg, hn, h.symm⟩
        · simp only [hn] at h
          exact ih h
    · rw [if_neg hk] at h
      exact ih h

theorem canonicalScan_some (toText : JSNumber → JSString) (row : Row)
    (keys : List JSString) (name : JSString)
    (h : canonicalScan toText row keys = some name) :
    ∃ k v, k ∈ keys ∧ getOwn row k = some v ∧ isName toText v = true ∧
      name = trim (valueText toText v) := by
  induction keys with
  | nil => cases h
  | cons k rest ih =>
    rw [canonicalScan] at h
    cases hg : getOwn row k with
    | none =>
      rw [hg] at h
      obtain ⟨k', v, hk', r⟩ := ih h
      exact ⟨k', v, List.mem_cons_of_mem k hk', r⟩
    | some v =>
      rw [hg] at h
      by_cases hn : isName toText v = true
      · simp only [hn, if_true, Option.some.injEq] at h
        exact ⟨k, v, List.mem_cons_self k rest, hg, hn, h.symm⟩
      · simp only [hn] at h
        obtain ⟨k', v', hk', r⟩ := ih h
        exact ⟨k', v', List.mem_cons_of_mem k hk', r⟩

theorem fallbackScan_some (toLower : JSString → JSString) (toText : JSNumber → JSString)
    (row : Row) (keys : List JSString) (name : JSString)
    (h : fallbackScan toLower toText row keys = some name) :
    ∃ k v, noisyKeyPattern (toLower k) = false ∧ getOwn row k = some v ∧
      name = trim (valueText toText v) ∧ hasLetter name = true ∧ 2 ≤ utf16Length name := by
  induction keys with
  | nil => cases h
  | cons k rest ih =>
    rw [fallbackScan] at h
    by_cases hk : noisyKeyPattern (toLower k) = true
    · rw [if_pos hk] at h
      exact ih h
    · rw [if_neg hk] at h
      simp only at h
      split_ifs at h with hn hc
      · exact ih h
      · simp only [Option.some.injEq] at h
        cases hg : (getOwn row k).filter JSValue.truthy with
        | none =>
          rw [hg] at hn
          have hf := (isName_facts toText _ hn).1
          have he : (JSValue.str (trim [])).truthy = false := by decide
          simp only at hf
          rw [he] at hf
          cases hf
        | some v =>
          rw [hg] at h hn
          simp only at h hn
          have hf := isName_facts toText _ hn
          simp only [valueText] at hf
          have hv : getOwn row k = some v := (Option.mem_filter_iff.mp hg).1
          refine ⟨k, v, by simpa using hk, hv, h.symm, ?_, ?_⟩
          · rw [← h]
            exact hasLetter_of_trim _ hf.2.2.1
          · rw [← h]
            exact le_trans hf.2.1 (utf16Length_trim_le _)
      · exact ih h

/-- C23. Name resolution never mistakes a number or the commune for a person:
`UIManager.getGeomaticienName` returns the empty string, or the trimmed text
of a field whose key the denylist pattern does not match and whose text holds
a letter and has at least two characters; it returns the empty string when
every field whose text holds a letter has a key the pattern matches, and for
a row that is no object. -/
theorem getGeomaticienName_denylist (toLower : JSString → JSString)
    (toText : JSNumber → JSString) (row : Row)
    (hcand : ∀ k ∈ candidateKeys, toLower k = k) :
    (UIManager.getGeomaticienName toLower toText (.object row) = [] ∨
      ∃ k v, getOwn row k = some v ∧ noisyKeyPattern (toLower k) = false ∧
        UIManager.getGeomaticienName toLower toText (.object row)
          = trim (valueText toText v) ∧
        hasLetter (trim (valueText toText v)) = true ∧
        2 ≤ utf16Length (trim (valueText toText v))) ∧
    ((∀ k v, getOwn row k = some v → hasLetter (valueText toText v) = true →
        noisyKeyPattern (toLower k) = true) →
      UIManager.getGeomaticienName toLower toText (.object row) = []) ∧
    (∀ arg, (∀ r, arg ≠ .object r) →
      UIManager.getGeomaticienName toLower toText arg = []) := by
  have hmain : UIManager.getGeomaticienName toLower toText (.object row) = [] ∨
      ∃ k v, getOwn row k = some v ∧ noisyKeyPattern (toLower k) = false ∧
        UIManager.getGeomaticienName toLower toText (.object row)
          = trim (valueText toText v) ∧
        hasLetter (trim (valueText toText v)) = true ∧
        2 ≤ utf16Length (trim (valueText toText v)) := by
    rw [getGeomaticienName_object]
    cases h1 : explicitScan toLower toText row (objectKeys row) with
    | some name =>
      obtain ⟨k, v, hk, hg, hn, hname⟩ := explicitScan_some toLower toText row _ name h1
      have hf := isName_facts toText v hn
      exact Or.inr ⟨k, v, hg, candidateKeys_not_noisy _ hk, hname, hf.2.2.1, hf.2.1⟩
    | none =>
      cases h2 : canonicalScan toText row candidateKeys with
      | some name =>
        obtain ⟨k, v, hk, hg, hn, hname⟩ := canonicalScan_some toText row _ name h2
        have hf := isName_facts toText v hn
        refine Or.inr ⟨k, v, hg, ?_, hname, hf.2.2.1, hf.2.1⟩
        rw [hcand k hk]
        exact candidateKeys_not_noisy k hk
      | none =>
        cases h3 : fallbackScan toLower toText row (objectKeys row) with
        | none => exact Or.inl rfl
        | some name =>
          obtain ⟨k, v, hk, hg, hname, hl, hlen⟩ := fallbackScan_some toLower toText row _ name h3
          refine Or.inr ⟨k, v, hg, hk, hname, ?_, ?_⟩
          · rw [← hname]; exact hl
          · rw [← hname]; exact hlen
  refine ⟨hmain, ?_, ?_⟩
  · intro hden
    rcases hmain with h | ⟨k, v, hg, hk, -, hl, -⟩
    · exact h
    · have := hden k v hg (hasLetter_of_trim _ hl)
      rw [hk] at this
      cases this
  · intro arg harg
    cases arg with
    | object r => exact absurd rfl (harg r)
    | null => rfl
    | undefined => rfl
    | boolean b => rfl
    | number n => rfl
    | string s => rfl

/-- The witness of the claim: the only text with a letter is the commune's,
and `45` is no name. -/
theorem getGeomaticienName_denylist_witness :
    UIManager.getGeomaticienName toLowerCase (fun _ => [])
      (.object [("commune".toList, .str "Bandafassi".toList),
        ("geomaticien".toList, .str "45".toList)]) = [] :=
  (getGeomaticienName_denylist toLowerCase (fun _ => [])
    [("commune".toList, .str "Bandafassi".toList), ("geomaticien".toList, .str "45".toList)]
    (by decide)).2.1
    (by
      intro k v hg hl
      have hm := getOwn_some_mem _ _ _ hg
      simp only [List.mem_cons, Prod.mk.injEq, List.mem_nil_iff, or_false] at hm
      rcases hm with ⟨hk, hv⟩ | ⟨hk, hv⟩
      · subst hk
        decide
      · subst hv
        exact absurd hl (by decide))

/-- C24, on the code: the key `geomaticien` is not filled.  The class
`DataManager` has no method `getGeomaticienName`, so the `try` block of lines
593-601 changes no row; the sheet of the claim keeps the name under `agent`
only, although `UIManager.getGeomaticienName` finds `Jean Diop` in that
row. -/
theorem parseCSV_geomaticien_not_filled :
    (parseCSV "Commune,Region,Agent\nBandafassi,Kedougou,Jean Diop".toList
        = [[("commune".toList, .str "Bandafassi".toList),
            ("region".toList, .str "Kedougou".toList),
            ("agent".toList, .str "Jean Diop".toList)]] ∧
      (∀ row ∈ parseCSV "Commune,Region,Agent\nBandafassi,Kedougou,Jean Diop".toList,
        getOwn row "geomaticien".toList = none) ∧
      UIManager.getGeomaticienName toLowerCase (fun _ => [])
        (.object [("commune".toList, .str "Bandafassi".toList),
          ("region".toList, .str "Kedougou".toList),
          ("agent".toList, .str "Jean Diop".toList)]) = "Jean Diop".toList) ∧
    DataManager.getGeomaticienName = none ∧
    ∀ row, backfillGeomaticien row = row :=
  ⟨parseCSV_samples.2.2.2.2.2.2.2.2.1, rfl, backfillGeomaticien_eq⟩

/-! ## Facts about `fetchSheetData` -/

/-- C25. A failed refresh keeps the previous dataset: for a configured sheet,
when the request fails (the network fails, the status is not OK, or the text
cannot be read), `fetchSheetData` leaves the cache as it was and resolves to
the rows cached for the sheet, whatever their age, or to the empty list when
the sheet has no entry; it does not reject. -/
theorem fetchSheetData_failure_keeps_dataset (cache : SheetCache) (now later : Int)
    (sheetKey : JSString) (forceRefresh : Bool) (net : FetchOutcome)
    (hsheet : sheetConfigured sheetKey = true)
    (hfail : net = .networkError ∨ (∃ text, net = .response false text) ∨
      net = .response true none) :
    (fetchSheetData cache now later sheetKey forceRefresh net).cache = cache ∧
      (fetchSheetData cache now later sheetKey forceRefresh net).value
        = .ok (((getOwn cache ("sheet_".toList ++ sheetKey)).map CacheEntry.data).getD []) := by
  unfold fetchSheetData
  rw [if_neg (by rw [hsheet]; decide)]
  simp only
  cases hfresh : (if forceRefresh = true then none
      else (getOwn cache ("sheet_".toList ++ sheetKey)).filter
        (fun e => decide (now - e.timestamp < cacheTimeout))) with
  | some e =>
    have hmem : getOwn cache ("sheet_".toList ++ sheetKey) = some e := by
      by_cases hf : forceRefresh = true
      · rw [if_pos hf] at hfresh; cases hfresh
      · rw [if_neg hf] at hfresh
        exact (Option.mem_filter_iff.mp hfresh).1
    simp only [hmem, Option.map_some', Option.getD_some, and_self]
  | none =>
    simp only
    rcases hfail with h | ⟨text, h⟩ | h <;> subst h <;> simp only [true_and] <;>
      cases getOwn cache ("sheet_".toList ++ sheetKey) <;> rfl

/-- A forced refresh of `DATA_COLLECTION` that meets a network failure, with
rows cached an hour before: the rows are returned and the cache is kept. -/
theorem fetchSheetData_failure_keeps_dataset_witness :
    (fetchSheetData
        [("sheet_DATA_COLLECTION".toList,
          { data := [[("commune".toList, .str "Bandafassi".toList)]], timestamp := 0 })]
        3600000 3600001 "DATA_COLLECTION".toList true .networkError).cache
      = [("sheet_DATA_COLLECTION".toList,
          { data := [[("commune".toList, .str "Bandafassi".toList)]], timestamp := 0 })] ∧
    (fetchSheetData
        [("sheet_DATA_COLLECTION".toList,
          { data := [[("commune".toList, .str "Bandafassi".toList)]], timestamp := 0 })]
        3600000 3600001 "DATA_COLLECTION".toList true .networkError).value
      = .ok [[("commune".toList, .str "Bandafassi".toList)]] :=
  fetchSheetData_failure_keeps_dataset
    [("sheet_DATA_COLLECTION".toList,
      { data := [[("commune".toList, .str "Bandafassi".toList)]], timestamp := 0 })]
    3600000 3600001 "DATA_COLLECTION".toList true .networkError (by decide) (Or.inl rfl)

/-! ## Facts about `reorderColumns` -/

theorem indexOfLoop_of_not_mem (x : JSString) (a : List JSString) (i : Nat) (h : x ∉ a) :
    indexOfLoop x a i = -1 := by
  induction a generalizing i with
  | nil => rfl
  | cons y rest ih =>
    rw [indexOfLoop, if_neg (fun (e : y = x) => h (e ▸ List.mem_cons_self y rest))]
    exact ih (i + 1) (fun hm => h (List.mem_cons_of_mem y hm))

theorem indexOfLoop_append_cons (x : JSString) (a r : List JSString) (i : Nat) (h : x ∉ a) :
    indexOfLoop x (a ++ x :: r) i = ((i + a.length : Nat) : Int) := by
  induction a generalizing i with
  | nil => simp [indexOfLoop]
  | cons y rest ih =>
    rw [List.cons_append, indexOfLoop,
      if_neg (fun (e : y = x) => h (e ▸ List.mem_cons_self y rest)),
      ih (i + 1) (fun hm => h (List.mem_cons_of_mem y hm))]
    simp only [List.length_cons]
    congr 1
    omega

theorem indexOf_of_not_mem (a : List JSString) (x : JSString) (h : x ∉ a) :
    indexOf a x = -1 :=
  indexOfLoop_of_not_mem x a 0 h

theorem indexOf_append_cons (a r : List JSString) (x : JSString) (h : x ∉ a) :
    indexOf (a ++ x :: r) x = (a.length : Int) := by
  unfold indexOf
  rw [indexOfLoop_append_cons x a r 0 h]
  simp

theorem splice_at (a b : List JSString) (deleteCount : Nat) (items : List JSString) :
    splice (a ++ b) (a.length : Int) deleteCount items = a ++ items ++ b.drop deleteCount := by
  unfold splice
  have h0 : ¬ ((a.length : Int) < 0) := by omega
  simp only [h0, if_false, Int.toNat_ofNat, List.length_append]
  rw [Nat.min_eq_left (by omega), List.take_left' rfl, List.drop_append]

/-- C26. The function `reorderColumns` moves a column to just before the
target: in an order without repeated names that holds both columns, with
`fromColumn` different from `toColumn`, the new order is a permutation of the
old one where `fromColumn` stands immediately before `toColumn`, and the
other columns keep their relative order (taking `fromColumn` out of both
orders leaves the same list); when the two names are equal, or one is absent,
the order is unchanged. -/
theorem reorderColumns_moves_before (order : List JSString) (fromColumn toColumn : JSString)
    (hnodup : order.Nodup) :
    (fromColumn ∈ order → toColumn ∈ order → fromColumn ≠ toColumn →
      (reorderColumns order fromColumn toColumn).Perm order ∧
      (∃ pre post, reorderColumns order fromColumn toColumn
        = pre ++ fromColumn :: toColumn :: post) ∧
      (reorderColumns order fromColumn toColumn).erase fromColumn
        = order.erase fromColumn) ∧
    ((fromColumn = toColumn ∨ fromColumn ∉ order ∨ toColumn ∉ order) →
      reorderColumns order fromColumn toColumn = order) := by
  constructor
  · intro hf ht hne
    obtain ⟨A, R, hA⟩ := List.append_of_mem hf
    subst hA
    have hnd := List.nodup_append.mp hnodup
    have hfA : fromColumn ∉ A := fun h =>
      hnd.2.2 h (List.mem_cons_self fromColumn R)
    have hfR : fromColumn ∉ R := (List.nodup_cons.mp hnd.2.1).1
    have hfi : indexOf (A ++ fromColumn :: R) fromColumn = (A.length : Int) :=
      indexOf_append_cons A R fromColumn hfA
    rcases List.mem_append.mp ht with htA | htR
    · -- the target stands to the left
      obtain ⟨A1, B, hB⟩ := List.append_of_mem htA
      subst hB
      have htA1 : toColumn ∉ A1 := fun h =>
        (List.nodup_append.mp hnd.1).2.2 h (List.mem_cons_self toColumn B)
      have hti : indexOf ((A1 ++ toColumn :: B) ++ fromColumn :: R) toColumn
          = (A1.length : Int) := by
        rw [List.append_assoc, List.cons_append]
        exact indexOf_append_cons A1 _ toColumn htA1
      have hr : reorderColumns ((A1 ++ toColumn :: B) ++ fromColumn :: R) fromColumn toColumn
          = A1 ++ fromColumn :: toColumn :: (B ++ R) := by
        unfold reorderColumns
        simp only [hfi, hti]
        rw [if_pos (by constructor <;> omega),
          if_neg (by simp only [List.length_append, List.length_cons]; omega),
          splice_at (A1 ++ toColumn :: B) (fromColumn :: R) 1 []]
        simp only [List.append_nil, List.drop_succ_cons, List.drop_zero]
        rw [List.append_assoc, splice_at A1 _ 0 [fromColumn]]
        simp
      rw [hr]
      have hfA1 : fromColumn ∉ A1 := fun h => hfA (List.mem_append_left _ h)
      have hfB : fromColumn ∉ B := fun h =>
        hfA (List.mem_append_right _ (List.mem_cons_of_mem _ h))
      refine ⟨?_, ⟨A1, B ++ R, rfl⟩, ?_⟩
      · rw [List.append_assoc, List.cons_append]
        apply List.Perm.append_left
        have h1 : (fromColumn :: toColumn :: (B ++ R)).Perm (toColumn :: fromColumn :: (B ++ R)) :=
          List.Perm.swap _ _ _
        refine h1.trans (List.Perm.cons _ ?_)
        exact (@List.perm_middle _ fromColumn B R).symm
      · rw [List.erase_append_right _ hfA1, List.erase_cons_head,
          List.erase_append_right _ hfA, List.erase_cons_head]
        simp
    · -- the target stands to the right
      have htR2 : toColumn ∈ R := by
        rcases List.mem_cons.mp htR with h | h
        · exact absurd h.symm hne
        · exact h
      obtain ⟨B, C, hC⟩ := List.append_of_mem htR2
      subst hC
      have htA : toColumn ∉ A := fun h =>
        hnd.2.2 h (List.mem_cons_of_mem _ (List.mem_append_right _ (List.mem_cons_self _ _)))
      have htB : toColumn ∉ B := fun h =>
        (List.nodup_append.mp (List.nodup_cons.mp hnd.2.1).2).2.2 h (List.mem_cons_self _ _)
      have hti : indexOf (A ++ fromColumn :: (B ++ toColumn :: C)) toColumn
          = ((A ++ fromColumn :: B).length : Int) := by
        have e : A ++ fromColumn :: (B ++ toColumn :: C)
            = (A ++ fromColumn :: B) ++ toColumn :: C := by simp
        rw [e]
        apply indexOf_append_cons
        intro h
        rcases List.mem_append.mp h with h | h
        · exact htA h
        · rcases List.mem_cons.mp h with h | h
          · exact hne h.symm
          · exact htB h
      have hr : reorderColumns (A ++ fromColumn :: (B ++ toColumn :: C)) fromColumn toColumn
          = (A ++ B) ++ fromColumn :: toColumn :: C := by
        unfold reorderColumns
        simp only [hfi, hti]
        rw [if_pos (by constructor <;> omega),
          if_pos (by simp only [List.length_append, List.length_cons]; omega),
          splice_at A (fromColumn :: (B ++ toColumn :: C)) 1 []]
        simp only [List.append_nil, List.drop_succ_cons, List.drop_zero]
        have e : ((A ++ fromColumn :: B).length : Int) - 1 = ((A ++ B).length : Int) := by
          simp only [List.length_append, List.length_cons]
          push_cast
          omega
        have e2 : A ++ (B ++ toColumn :: C) = (A ++ B) ++ toColumn :: C := by simp
        rw [e, e2, splice_at (A ++ B) _ 0 [fromColumn]]
        simp
      rw [hr]
      have hfB : fromColumn ∉ B := fun h => hfR (List.mem_append_left _ h)
      refine ⟨?_, ⟨A ++ B, C, rfl⟩, ?_⟩
      · rw [List.append_assoc]
        apply List.Perm.append_left
        exact (@List.perm_middle _ fromColumn B (toColumn :: C))
      · rw [List.erase_append_right _ (by
            intro h
            rcases List.mem_append.mp h with h | h
            · exact hfA h
            · exact hfB h),
          List.erase_cons_head, List.erase_append_right _ hfA, List.erase_cons_head]
        simp
  · intro h
    by_cases hf : fromColumn ∈ order
    · by_cases ht : toColumn ∈ order
      · have heq : fromColumn = toColumn := by
          rcases h with h | h | h
          · exact h
          · exact absurd hf h
          · exact absurd ht h
        subst heq
        obtain ⟨A, R, hA⟩ := List.append_of_mem hf
        subst hA
        have hfA : fromColumn ∉ A := fun h =>
          (List.nodup_append.mp hnodup).2.2 h (List.mem_cons_self fromColumn R)
        have hfi : indexOf (A ++ fromColumn :: R) fromColumn = (A.length : Int) :=
          indexOf_append_cons A R fromColumn hfA
        unfold reorderColumns
        simp only [hfi]
        rw [if_pos (by constructor <;> omega), if_neg (by omega),
          splice_at A (fromColumn :: R) 1 []]
        simp only [List.append_nil, List.drop_succ_cons, List.drop_zero]
        rw [splice_at A R 0 [fromColumn]]
        simp
      · unfold reorderColumns
        simp only [indexOf_of_not_mem order toColumn ht]
        rw [if_neg (by simp)]
    · unfold reorderColumns
      simp only [indexOf_of_not_mem order fromColumn hf]
      rw [if_neg (by simp)]

/-- Moving `d` before `b` in the order `a, b, c, d`. -/
theorem reorderColumns_moves_before_witness :
    (reorderColumns ["a".toList, "b".toList, "c".toList, "d".toList] "d".toList "b".toList).Perm
        ["a".toList, "b".toList, "c".toList, "d".toList] ∧
      reorderColumns ["a".toList, "b".toList, "c".toList, "d".toList] "d".toList "b".toList
        = ["a".toList, "d".toList, "b".toList, "c".toList] :=
  ⟨((reorderColumns_moves_before ["a".toList, "b".toList, "c".toList, "d".toList]
      "d".toList "b".toList (by decide)).1 (by decide) (by decide) (by decide)).1,
   by decide⟩

/-! ## Facts about the order of the coercion rules -/

theorem matchPercent_none_of_not_mem (v : JSString) (h : '%' ∉ v) :
    matchPercent v = none := by
  unfold matchPercent
  split
  · rename_i revGroup hrev
    have : '%' ∈ v.reverse := by rw [hrev]; exact List.mem_cons_self _ _
    exact absurd (List.mem_reverse.mp this) h
  · rfl

/-- C27. The French-decimal rule goes before thousands grouping: a cell made
of one to three digits, a comma and three digits matches both patterns, and
`coerceValue` stores it as the decimal number with the comma as decimal point
(`1,234` as `1.234`); with two comma groups only the thousands pattern
matches, and `1,234,567` is stored as `1234567`. -/
theorem coerceValue_french_before_thousands (lead grp : JSString)
    (hlead1 : 1 ≤ lead.length) (hlead3 : lead.length ≤ 3)
    (hlead : ∀ c ∈ lead, isDigit c = true)
    (hgrp3 : grp.length = 3) (hgrp : ∀ c ∈ grp, isDigit c = true) :
    isFrenchDecimal (lead ++ ',' :: grp) = true ∧
      isThousandsGrouped (lead ++ ',' :: grp) = true ∧
      coerceValue (lead ++ ',' :: grp)
        = .num (.finite ((digitsValue (lead ++ grp) : ℚ) / (10 : ℚ) ^ 3)) ∧
      isFrenchDecimal "1,234,567".toList = false ∧
      coerceValue "1,234,567".toList = .num (.finite 1234567) := by
  have hlne : lead ≠ [] := by
    intro e; rw [e] at hlead1; simp at hlead1
  have hgne : grp ≠ [] := by
    intro e; rw [e] at hgrp3; simp at hgrp3
  obtain ⟨l0, ls, hl⟩ := List.exists_cons_of_ne_nil hlne
  have hl0 : isDigit l0 = true := hlead l0 (by rw [hl]; exact List.mem_cons_self _ _)
  have hall : ∀ c ∈ lead ++ ',' :: grp, isJSWhiteSpace c = false := by
    intro c hc
    rcases List.mem_append.mp hc with h | h
    · exact not_whiteSpace_of_isDigit (hlead c h)
    · rcases List.mem_cons.mp h with h | h
      · subst h; decide
      · exact not_whiteSpace_of_isDigit (hgrp c h)
  have htrim : trim (lead ++ ',' :: grp) = lead ++ ',' :: grp := trim_of_no_whiteSpace _ hall
  have hpct : matchPercent (lead ++ ',' :: grp) = none := by
    apply matchPercent_none_of_not_mem
    intro hc
    rcases List.mem_append.mp hc with h | h
    · exact absurd (hlead _ h) (by decide)
    · rcases List.mem_cons.mp h with h | h
      · exact absurd h (by decide)
      · exact absurd (hgrp _ h) (by decide)
  have hsign : dropSign (lead ++ ',' :: grp) = lead ++ ',' :: grp := by
    rw [hl, List.cons_append]
    exact dropSign_cons_of_ne l0 _ (isDigit_ne_of hl0 (by decide))
  have hclass : ∀ c ∈ lead, (fun c => isDigit c || isJSWhiteSpace c) c = true := by
    intro c hc
    simp [hlead c hc]
  have hfr : isFrenchDecimal (lead ++ ',' :: grp) = true := by
    unfold isFrenchDecimal
    rw [hsign]
    simp only
    rw [takeWhile_append_stop _ lead _ ',' hclass (by decide),
      dropWhile_append_stop _ lead _ ',' hclass (by decide)]
    simp only [ne_eq, hlne, hgne, not_false_eq_true, true_and, Bool.decide_and,
      Bool.and_eq_true, decide_eq_true_eq, decide_not, Bool.not_eq_true',
      decide_eq_false_iff_not, List.all_eq_true]
    simpa using hgrp
  have hth : isThousandsGrouped (lead ++ ',' :: grp) = true := by
    unfold isThousandsGrouped
    rw [hsign]
    simp only
    rw [takeWhile_append_stop _ lead _ ',' hlead (by decide),
      dropWhile_append_stop _ lead _ ',' hlead (by decide)]
    obtain ⟨a, b, c, rfl⟩ : ∃ a b c, grp = [a, b, c] := by
      match grp, hgrp3 with
      | [a, b, c], _ => exact ⟨a, b, c, rfl⟩
    have ha := hgrp a (by simp)
    have hb := hgrp b (by simp)
    have hc := hgrp c (by simp)
    simp [isGroupsThenFraction, isFractionOrEnd, ha, hb, hc, hlead1, hlead3]
  have hclean : replaceFirstComma (removeWhiteSpace (lead ++ ',' :: grp))
      = lead ++ '.' :: grp := by
    have h1 : removeWhiteSpace (lead ++ ',' :: grp) = lead ++ ',' :: grp := by
      unfold removeWhiteSpace
      rw [List.filter_eq_self]
      intro c hc
      rw [hall c hc]
      rfl
    rw [h1]
    exact replaceFirstComma_digits lead grp (fun c hc => isDigit_ne_of (hlead c hc) (by decide))
  have hpf : parseFloat (lead ++ '.' :: grp)
      = .finite ((digitsValue (lead ++ grp) : ℚ) / (10 : ℚ) ^ 3) := by
    have h := parseFloat_signed false (lead ++ '.' :: grp)
      ⟨l0, ls ++ '.' :: grp, by rw [hl]; rfl, hl0⟩
    simp only [Bool.false_eq_true, if_false, List.nil_append] at h
    rw [h, parseUnsigned_point false lead grp hlne hlead hgrp, hgrp3]
    simp
  refine ⟨hfr, hth, ?_, by decide!, by decide!⟩
  unfold coerceValue
  simp only [htrim, hpct, hfr, if_true, hclean, hpf]
  simp

/-- The cells of the claim, alone and through `parseCSV`. -/
theorem coerceValue_french_before_thousands_witness :
    coerceValue "1,234".toList = .num (.finite (1234 / 1000)) ∧
      coerceValue "1,234".toList ≠ .num (.finite 1234) ∧
      parseCSV "a;b\n1,234;1,234,567".toList
        = [[("a".toList, .num (.finite (1234 / 1000))),
            ("b".toList, .num (.finite 1234567))]] :=
  have hall : (digitsValue ("1".toList ++ "234".toList) : ℚ) / (10 : ℚ) ^ 3 = 1234 / 1000 ∧
      JSValue.num (.finite (1234 / 1000)) ≠ .num (.finite 1234) ∧
      parseCSV "a;b\n1,234;1,234,567".toList
        = [[("a".toList, .num (.finite (1234 / 1000))),
            ("b".toList, .num (.finite 1234567))]] :=
    parseCSV_samples.2.2.2.2.2.2.2.2.2.1
  have h := (coerceValue_french_before_thousands "1".toList "234".toList
    (by decide) (by decide) (by decide) (by decide) (by decide)).2.2.1
  have e : coerceValue "1,234".toList = .num (.finite (1234 / 1000)) := by
    rw [← hall.1]; exact h
  ⟨e, by rw [e]; exact hall.2.1, hall.2.2⟩

/-- C28. Space-grouped integers are not coerced: a cell that, once trimmed,
is made of digits and white space only and holds a white space is stored as
the trimmed string (`1 234` stays `1 234`), whereas `1 234,56` is stored as
the number `1234.56`. -/
theorem coerceValue_space_grouped (cell : JSString)
    (hclass : ∀ c ∈ trim cell, isDigit c = true ∨ isJSWhiteSpace c = true)
    (hspace : ∃ c ∈ trim cell, isJSWhiteSpace c = true) :
    coerceValue cell = .str (trim cell) ∧
      coerceValue "1 234,56".toList = .num (.finite (123456 / 100)) := by
  refine ⟨?_, by decide!⟩
  unfold coerceValue
  simp only
  generalize trim cell = v at hclass hspace ⊢
  have hpct : matchPercent v = none := by
    apply matchPercent_none_of_not_mem
    intro hc
    rcases hclass _ hc with h | h
    · exact absurd h (by decide)
    · exact absurd h (by decide)
  have hminus : '-' ∉ v := by
    intro hc
    rcases hclass _ hc with h | h
    · exact absurd h (by decide)
    · exact absurd h (by decide)
  have hsign : dropSign v = v := by
    cases v with
    | nil => rfl
    | cons c cs =>
      exact dropSign_cons_of_ne c cs (fun e => hminus (e ▸ List.mem_cons_self c cs))
  have hfr : isFrenchDecimal v = false := by
    unfold isFrenchDecimal
    rw [hsign]
    simp only
    rw [dropWhile_eq_nil_of_all _ v (fun c hc => by rcases hclass c hc with h | h <;> simp [h])]
  -- the first character that is no digit is a white space
  obtain ⟨s, hs, hsw⟩ := hspace
  have hnd : isDigit s = false := by
    cases h : isDigit s with
    | false => rfl
    | true => rw [not_whiteSpace_of_isDigit h] at hsw; cases hsw
  have hdrop : ∃ c rest, v.dropWhile isDigit = c :: rest ∧ isJSWhiteSpace c = true := by
    cases hd : v.dropWhile isDigit with
    | nil =>
      have hall : ∀ x ∈ v, isDigit x = true := by
        have := List.dropWhile_eq_nil_iff.mp hd
        exact this
      rw [hall s hs] at hnd
      cases hnd
    | cons c rest =>
      refine ⟨c, rest, rfl, ?_⟩
      have hcm : c ∈ v := by
        have : c ∈ v.dropWhile isDigit := by rw [hd]; exact List.mem_cons_self _ _
        exact (List.dropWhile_sublist _).subset this
      have hcd : isDigit c = false := by
        have := List.head_dropWhile_not isDigit v (by rw [hd]; exact List.cons_ne_nil _ _)
        simpa [hd] using this
      rcases hclass c hcm with h | h
      · rw [h] at hcd; cases hcd
      · exact h
  obtain ⟨c, rest, hd, hcw⟩ := hdrop
  have hcp : c ≠ '.' := fun e => by rw [e] at hcw; exact absurd hcw (by decide)
  have hcc : c ≠ ',' := fun e => by rw [e] at hcw; exact absurd hcw (by decide)
  have hfe : isFractionOrEnd (c :: rest) = false := by
    unfold isFractionOrEnd
    split
    · rename_i h; cases h
    · rename_i frac h
      simp only [List.cons.injEq] at h
      exact absurd h.1 hcp
    · rfl
  have hplain : isPlainDecimal v = false := by
    unfold isPlainDecimal
    rw [hsign]
    simp only
    rw [hd, hfe]
    simp
  have hgf : isGroupsThenFraction (c :: rest) = false := by
    unfold isGroupsThenFraction
    split
    · rename_i a b d tl h
      simp only [List.cons.injEq] at h
      exact absurd h.1 hcc
    · exact hfe
  have hth : isThousandsGrouped v = false := by
    unfold isThousandsGrouped
    rw [hsign]
    simp only
    rw [hd, hgf]
    simp
  rw [hpct]
  simp only [hfr, hplain, hth, Bool.false_eq_true, if_false]

/-- The cell `1 234`, alone and through `parseCSV`. -/
theorem coerceValue_space_grouped_witness :
    coerceValue "1 234".toList = .str "1 234".toList ∧
      parseCSV "a;b\n1 234;1 234,56".toList
        = [[("a".toList, .str "1 234".toList), ("b".toList, .num (.finite (123456 / 100)))]] :=
  have hall : trim "1 234".toList = "1 234".toList ∧
      (∀ c ∈ trim "1 234".toList, isDigit c = true ∨ isJSWhiteSpace c = true) ∧
      (∃ c ∈ trim "1 234".toList, isJSWhiteSpace c = true) ∧
      parseCSV "a;b\n1 234;1 234,56".toList
        = [[("a".toList, .str "1 234".toList), ("b".toList, .num (.finite (123456 / 100)))]] :=
    parseCSV_samples.2.2.2.2.2.2.2.2.2.2.1
  have h := (coerceValue_space_grouped "1 234".toList hall.2.1 hall.2.2.1).1
  ⟨by rw [hall.1] at h; exact h, hall.2.2.2⟩

/-! ## Facts about the shape of canonical keys -/

/-- A canonical key is a value of the alias table, or comes from a slug that
names a property of `Object.prototype`, or is a slug. -/
theorem normalizeHeader_shape (h : JSString) :
    (∃ e ∈ headerAliasMap, e.2 = normalizeHeader h) ∨
      (inheritedKey (cleanHeader h)).isSome = true ∨
      ∀ c ∈ normalizeHeader h, isSlugChar c = true := by
  cases hg : getOwn headerAliasMap (cleanHeader h) with
  | some v =>
    have hk : normalizeHeader h = v := mappedKey_of_some _ _ hg
    exact Or.inl ⟨(cleanHeader h, v), getOwn_some_mem _ _ _ hg, hk.symm⟩
  | none =>
    cases hi : inheritedKey (cleanHeader h) with
    | some key => exact Or.inr (Or.inl rfl)
    | none =>
      have hk : normalizeHeader h = cleanHeader h := mappedKey_of_unknown _ hg hi
      refine Or.inr (Or.inr ?_)
      rw [hk]
      exact cleanHeader_isSlug h

/-- C29, on the code: punctuation at the start of a header leaves a leading
underscore (`% NICAD` gives `_nicad`, no key of the alias table, while
`NICAD %` gives `percentNicad`), and a canonical key is a value of the alias
table or is made of `a`-`z`, `0`-`9` and `_` unless the slug names a property
of `Object.prototype`: the header `Constructor` gets the key
`function Object() { [native code] }`, which is neither. -/
theorem normalizeHeader_leading_punctuation :
    (normalizeHeader "% NICAD".toList = "_nicad".toList ∧
      getOwn headerAliasMap "_nicad".toList = none ∧
      normalizeHeader "NICAD %".toList = "percentNicad".toList ∧
      normalizeHeader "Constructor".toList = objectConstructorSource ∧
      (∀ e ∈ headerAliasMap, e.2 ≠ normalizeHeader "Constructor".toList) ∧
      (normalizeHeader "Constructor".toList).all isSlugChar = false ∧
      parseCSV "Constructor;x\n1;2".toList
        = [[(objectConstructorSource, .num (.finite 1)), ("x".toList, .num (.finite 2))]]) ∧
    ∀ h, (∃ e ∈ headerAliasMap, e.2 = normalizeHeader h) ∨
      (inheritedKey (cleanHeader h)).isSome = true ∨
      ∀ c ∈ normalizeHeader h, isSlugChar c = true :=
  ⟨normalizeHeader_samples.2.2.2.2.2.2.2, normalizeHeader_shape⟩

/-! ## Facts about `toNum` -/

theorem mem_keepNumeric {s : JSString} {c : Char} (h : c ∈ keepNumeric s) :
    isDigit c = true ∨ c = '.' ∨ c = '-' := by
  unfold keepNumeric at h
  have := (List.mem_filter.mp h).2
  simpa [or_assoc] using this

theorem parseUnsigned_point_any (neg : Bool) (int frac : JSString)
    (hne : int ≠ [] ∨ frac ≠ [])
    (hint : ∀ c ∈ int, isDigit c = true) (hfrac : ∀ c ∈ frac, isDigit c = true) :
    parseUnsigned neg (int ++ '.' :: frac)
      = .finite (if neg then -((digitsValue (int ++ frac) : ℚ) / (10 : ℚ) ^ frac.length)
          else (digitsValue (int ++ frac) : ℚ) / (10 : ℚ) ^ frac.length) := by
  by_cases hi : int = []
  · subst hi
    have hf : frac ≠ [] := by
      rcases hne with h | h
      · exact absurd rfl h
      · exact h
    have hft : frac.takeWhile isDigit = frac := takeWhile_eq_self_of_all _ _ hfrac
    have hfd : frac.dropWhile isDigit = [] := dropWhile_eq_nil_of_all _ _ hfrac
    have hpre : ("Infinity".toList.isPrefixOf ([] ++ '.' :: frac)) = false := by
      have : "Infinity".toList = 'I' :: "nfinity".toList := rfl
      rw [this]
      simp [List.isPrefixOf]
    unfold parseUnsigned
    rw [hpre]
    simp only [List.nil_append, Bool.false_eq_true, if_false]
    have ht : ('.' :: frac).takeWhile isDigit = [] := by
      rw [List.takeWhile_cons]; simp [show isDigit '.' = false by decide]
    have hd : ('.' :: frac).dropWhile isDigit = '.' :: frac := by
      rw [List.dropWhile_cons]; simp [show isDigit '.' = false by decide]
    simp only [ht, hd, hft, hfd, hf, and_false, if_false, List.nil_append]
    simp only [exponentPart, scaleByPowerOfTen_neg]
  · exact parseUnsigned_point neg int frac hi hint hfrac

theorem isUnsignedDecimalLiteral_kept (u : JSString)
    (hu : ∀ c ∈ u, isDigit c = true ∨ c = '.' ∨ c = '-') :
    isUnsignedDecimalLiteral u = isDigitsPointDigits u := by
  have hinf : u ≠ "Infinity".toList := by
    intro e
    have := hu 'I' (by rw [e]; decide)
    revert this
    decide
  have hnd : ∀ c rest (v : JSString), v.dropWhile isDigit = c :: rest → isDigit c = false := by
    intro c rest v hv
    have := List.head_dropWhile_not isDigit v (by rw [hv]; exact List.cons_ne_nil _ _)
    simpa [hv] using this
  have hsub : ∀ (v : JSString) c, c ∈ v.dropWhile isDigit → c ∈ v :=
    fun v c hc => (List.dropWhile_sublist _).subset hc
  unfold isUnsignedDecimalLiteral isDigitsPointDigits
  rw [if_neg hinf]
  cases hd : u.dropWhile isDigit with
  | nil => simp [isExponentOrEnd]
  | cons c rest =>
    have hcd := hnd c rest u hd
    have hcm : c ∈ u := hsub u c (by rw [hd]; exact List.mem_cons_self _ _)
    have hrest : ∀ x ∈ rest, x ∈ u := fun x hx =>
      hsub u x (by rw [hd]; exact List.mem_cons_of_mem _ hx)
    rcases hu c hcm with h | h | h
    · rw [h] at hcd; cases hcd
    · subst h
      simp only
      cases hd2 : rest.dropWhile isDigit with
      | nil =>
        have hall : ∀ x ∈ rest, isDigit x = true := List.dropWhile_eq_nil_iff.mp hd2
        have ht : rest.takeWhile isDigit = rest := takeWhile_eq_self_of_all _ _ hall
        rw [ht]
        have : rest.all isDigit = true := List.all_eq_true.mpr hall
        simp [isExponentOrEnd, this]
      | cons c2 rest2 =>
        have hc2d := hnd c2 rest2 rest hd2
        have hc2m : c2 ∈ rest := hsub rest c2 (by rw [hd2]; exact List.mem_cons_self _ _)
        have hne : c2 ≠ 'e' ∧ c2 ≠ 'E' := by
          rcases hu c2 (hrest c2 hc2m) with h | h | h
          · rw [h] at hc2d; cases hc2d
          · subst h; decide
          · subst h; decide
        have hall : rest.all isDigit = false := by
          rw [List.all_eq_false]
          exact ⟨c2, hc2m, by rw [hc2d]; decide⟩
        simp [isExponentOrEnd, hne.1, hne.2, hall]
    · subst h
      simp [isExponentOrEnd]

theorem parseUnsigned_of_digitsPointDigits (neg : Bool) (u : JSString)
    (h : isDigitsPointDigits u = true) :
    parseUnsigned neg u
      = .finite (if neg then -digitsPointDigitsValue u else digitsPointDigitsValue u) := by
  have hsplit : u = u.takeWhile isDigit ++ u.dropWhile isDigit :=
    (List.takeWhile_append_dropWhile isDigit u).symm
  have hint : ∀ c ∈ u.takeWhile isDigit, isDigit c = true :=
    fun c hc => List.mem_takeWhile_imp hc
  unfold isDigitsPointDigits at h
  unfold digitsPointDigitsValue
  cases hd : u.dropWhile isDigit with
  | nil =>
    rw [hd] at h hsplit
    simp only [ne_eq, decide_not, Bool.not_eq_true', decide_eq_false_iff_not] at h
    rw [List.append_nil] at hsplit
    have := parseUnsigned_digits neg _ h hint
    rw [← hsplit] at this
    rw [this, ← hsplit]
    simp
  | cons c frac =>
    rw [hd] at h hsplit
    simp only [Bool.decide_and, Bool.and_eq_true, decide_eq_true_eq, List.all_eq_true,
      Bool.decide_or, Bool.or_eq_true, ne_eq, decide_not, Bool.not_eq_true',
      decide_eq_false_iff_not] at h
    obtain ⟨hc, hfrac, hne⟩ := h
    subst hc
    have := parseUnsigned_point_any neg _ frac hne hint hfrac
    rw [← hsplit] at this
    rw [this]
    simp

theorem stringToNumber_kept (r : JSString)
    (hr : ∀ c ∈ r, isDigit c = true ∨ c = '.' ∨ c = '-') :
    stringToNumber r
      = if r = [] then .finite 0
        else if isNumericLiteral r then .finite (literalValue r) else .nan := by
  have hws : ∀ c ∈ r, isJSWhiteSpace c = false := by
    intro c hc
    rcases hr c hc with h | h | h
    · exact not_whiteSpace_of_isDigit h
    · subst h; decide
    · subst h; decide
  unfold stringToNumber
  rw [trim_of_no_whiteSpace r hws]
  cases r with
  | nil => rfl
  | cons c u =>
    have hu : ∀ x ∈ u, isDigit x = true ∨ x = '.' ∨ x = '-' :=
      fun x hx => hr x (List.mem_cons_of_mem _ hx)
    rw [if_neg (List.cons_ne_nil c u)]
    by_cases hm : c = '-'
    · subst hm
      simp only
      have e1 : isNumericLiteral ('-' :: u) = isDigitsPointDigits u := rfl
      rw [isUnsignedDecimalLiteral_kept u hu, e1]
      by_cases hl : isDigitsPointDigits u = true
      · rw [if_pos hl, if_pos hl, parseUnsigned_of_digitsPointDigits true u hl]
        rfl
      · rw [if_neg hl, if_neg hl]
    · have hp : c ≠ '+' := by
        rcases hr c (List.mem_cons_self _ _) with h | h | h
        · exact isDigit_ne_of h (by decide)
        · subst h; decide
        · exact absurd h hm
      have e1 : isNumericLiteral (c :: u) = isDigitsPointDigits (c :: u) := by
        unfold isNumericLiteral
        rw [dropSign_cons_of_ne c u hm]
      have e2 : literalValue (c :: u) = digitsPointDigitsValue (c :: u) := by
        unfold literalValue
        split
        · rename_i h; simp only [List.cons.injEq] at h; exact absurd h.1 hm
        · rfl
      rw [e1, e2]
      split
      · rename_i h; cases h
      · rename_i h; simp only [List.cons.injEq] at h; exact absurd h.1 hm
      · rename_i h; simp only [List.cons.injEq] at h; exact absurd h.1 hp
      · rw [isUnsignedDecimalLiteral_kept (c :: u) hr]
        by_cases hl : isDigitsPointDigits (c :: u) = true
        · rw [if_pos hl, if_pos hl, parseUnsigned_of_digitsPointDigits false _ hl]
          rfl
        · rw [if_neg hl, if_neg hl]

/-- C30, as stated, fails: the digit `1` followed by 309 zeros is a valid
numeric literal, denoting `10 ^ 309`, and `toNum` returns `0` for it, the
conversion having overflowed. -/
theorem toNum_overflow_counterexample :
    keepNumeric ('1' :: List.replicate 309 '0') = '1' :: List.replicate 309 '0' ∧
      isNumericLiteral ('1' :: List.replicate 309 '0') = true ∧
      literalValue ('1' :: List.replicate 309 '0') = (10 : ℚ) ^ 309 ∧
      toNum (.string ('1' :: List.replicate 309 '0')) = .finite 0 ∧
      JSNumber.finite ((10 : ℚ) ^ 309) ≠ .finite 0 := by
  decide!

/-- C30, amended. The loader's `toNum` keeps the digits, points and hyphens of
a string: it returns the number the kept characters denote when they form a
numeric literal whose value is in the range of the finite doubles, and `0`
otherwise; so `12,3%` gives `123`, `1,234` gives `1234`, `1.2.3` gives `0` and
the empty string gives `0`. -/
theorem toNum_keeps_digits (s : JSString) :
    toNum (.string s)
        = (if isNumericLiteral (keepNumeric s) = true ∧
              |literalValue (keepNumeric s)| < (2 : ℚ) ^ 1024 - (2 : ℚ) ^ 970
            then .finite (literalValue (keepNumeric s)) else .finite 0) ∧
      toNum (.string "12,3%".toList) = .finite 123 ∧
      toNum (.string "1,234".toList) = .finite 1234 ∧
      toNum (.string "1.2.3".toList) = .finite 0 ∧
      toNum (.string []) = .finite 0 := by
  refine ⟨?_, by decide!, by decide!, by decide!, by decide!⟩
  have hr : ∀ c ∈ keepNumeric s, isDigit c = true ∨ c = '.' ∨ c = '-' :=
    fun c hc => mem_keepNumeric hc
  have hnum := stringToNumber_kept (keepNumeric s) hr
  unfold toNum
  simp only
  generalize keepNumeric s = r at hnum hr ⊢
  rw [hnum]
  by_cases he : r = []
  · subst he
    have : isNumericLiteral [] = false := by decide
    simp [this, isFiniteNumber]
  · by_cases hl : isNumericLiteral r = true
    · by_cases hb : |literalValue r| < (2 : ℚ) ^ 1024 - (2 : ℚ) ^ 970
      · simp [he, hl, hb, isFiniteNumber]
      · simp [he, hl, hb, isFiniteNumber]
    · simp [he, hl, isFiniteNumber]

end Dashboard
